import Mathlib

/-!
# scnlib `small_vector`: a shallow embedding of `include/scn/detail/small_vector.h`

The container manages raw memory by hand, so the embedding keeps an explicit memory:
a list of regions (arrays of element slots), each slot either raw or holding an object.
Every member function is a function on `(memory, object)` that returns `Except Fault _`;
`Fault` is what the C++ execution does when it leaves defined behaviour (or throws
`std::bad_alloc`, or trips an assertion macro).
-/

namespace scn

/-! ## Platform and template parameters -/

/-- Compile-time parameters: the template argument `StackN`, whether
`sizeof(size_t) == sizeof(uint64_t)` (otherwise `size_t` is taken to be 32 bits wide, the
width `next_pow2` casts to), and whether the assertion macros `SCN_EXPECT`, `SCN_ENSURE`
and `SCN_ASSERT` of `util.h` are compiled in. -/
structure Config where
  StackN : Nat
  size_t_64 : Bool
  checks : Bool
  deriving DecidableEq

/-- Number of bits of `size_t`. -/
def SIZE_BITS (c : Config) : Nat := if c.size_t_64 then 64 else 32

/-- One more than the largest `size_t`: arithmetic on `size_t` is modulo this. -/
def SIZE_MOD (c : Config) : Nat := 2 ^ SIZE_BITS c

/-- Largest `ptrdiff_t`; no array with more elements than this can be allocated. -/
def PTRDIFF_MAX (c : Config) : Nat := 2 ^ (SIZE_BITS c - 1) - 1

/-! ## `small_vector_base`: the growth policy -/

/-- `small_vector_base::_next_pow2_64`, on `uint64_t`. -/
def _next_pow2_64 (x : Nat) : Nat :=
  let x := (x + 2 ^ 64 - 1) % 2 ^ 64
  let x := x ||| (x >>> 1)
  let x := x ||| (x >>> 2)
  let x := x ||| (x >>> 4)
  let x := x ||| (x >>> 8)
  let x := x ||| (x >>> 16)
  let x := x ||| (x >>> 32)
  (x + 1) % 2 ^ 64

/-- `small_vector_base::_next_pow2_32`, on `uint32_t`. -/
def _next_pow2_32 (x : Nat) : Nat :=
  let x := (x + 2 ^ 32 - 1) % 2 ^ 32
  let x := x ||| (x >>> 1)
  let x := x ||| (x >>> 2)
  let x := x ||| (x >>> 4)
  let x := x ||| (x >>> 8)
  let x := x ||| (x >>> 16)
  (x + 1) % 2 ^ 32

/-- `small_vector_base::next_pow2`: dispatch on the width of `size_t`; the argument is
converted by `static_cast` to the chosen width. -/
def next_pow2 (c : Config) (x : Nat) : Nat :=
  if c.size_t_64 then _next_pow2_64 (x % 2 ^ 64) else _next_pow2_32 (x % 2 ^ 32)

/-! ## Memory -/

/-- Ways an execution stops: `operator new[]` throwing, an assertion macro firing, or an
access the language leaves undefined. -/
inductive Fault
  | bad_alloc
  | contract
  | null_deref
  | dangling
  | out_of_bounds
  | uninit_read
  | bad_destroy
  | bad_delete
  deriving DecidableEq

/-- An array of element slots. A slot is `none` while it is raw storage and `some v` while
an object of value `v` lives in it. `dyn` records that the array came from `new[]`. -/
structure Region (T : Type) where
  cells : List (Option T)
  live : Bool
  dyn : Bool
  deriving DecidableEq

/-- The memory: all arrays ever created, indexed by creation order. -/
abbrev Mem (T : Type) := List (Region T)

/-- A `T*`: the array it points into (`none` for a pointer derived from `nullptr`) and the
element offset inside it. -/
structure Ptr where
  base : Option Nat
  off : Nat
  deriving DecidableEq

/-- The null pointer. -/
def nullptr : Ptr := ⟨none, 0⟩

/-- Pointer plus integer. -/
def Ptr.add (p : Ptr) (k : Nat) : Ptr := ⟨p.base, p.off + k⟩

/-- Pointer minus integer; stepping in front of the array is undefined. -/
def Ptr.sub (p : Ptr) (k : Nat) : Except Fault Ptr :=
  if k ≤ p.off then .ok ⟨p.base, p.off - k⟩ else .error .out_of_bounds

/-- Conversion of a pointer to `bool`, as in `SCN_ENSURE(data())`. -/
def Ptr.to_bool (p : Ptr) : Bool := p.base.isSome || p.off != 0

/-- The live array a pointer points into. -/
def Mem.region {T : Type} (m : Mem T) (p : Ptr) : Except Fault (Nat × Region T) :=
  match p.base with
  | none => .error .null_deref
  | some r =>
    match m[r]? with
    | none => .error .dangling
    | some reg => if reg.live then .ok (r, reg) else .error .dangling

/-- Read the object `*p`. -/
def load {T : Type} (m : Mem T) (p : Ptr) : Except Fault T :=
  match m.region p with
  | .error e => .error e
  | .ok (_, reg) =>
    match reg.cells[p.off]? with
    | none => .error .out_of_bounds
    | some none => .error .uninit_read
    | some (some v) => .ok v

/-- Placement new: `::new (p) T(v)`. -/
def construct_at {T : Type} (m : Mem T) (p : Ptr) (v : T) : Except Fault (Mem T) :=
  match m.region p with
  | .error e => .error e
  | .ok (r, reg) =>
    if p.off < reg.cells.length then
      .ok (m.set r { reg with cells := reg.cells.set p.off (some v) })
    else .error .out_of_bounds

/-- Destructor call `p->~T()`: the slot becomes raw again. -/
def destroy_at {T : Type} (m : Mem T) (p : Ptr) : Except Fault (Mem T) :=
  match m.region p with
  | .error e => .error e
  | .ok (r, reg) =>
    match reg.cells[p.off]? with
    | none => .error .out_of_bounds
    | some none => .error .bad_destroy
    | some (some _) => .ok (m.set r { reg with cells := reg.cells.set p.off none })

/-- The expression `new stack_storage_type[n]`: a fresh array of `n` raw slots. The request
fails with `std::bad_alloc` when `n` exceeds `PTRDIFF_MAX`; exhaustion of memory below that
bound is not modelled. -/
def operator_new_array {T : Type} (c : Config) (m : Mem T) (n : Nat) :
    Except Fault (Mem T × Ptr) :=
  if n ≤ PTRDIFF_MAX c then .ok (m ++ [⟨List.replicate n none, true, true⟩], ⟨some m.length, 0⟩)
  else .error .bad_alloc

/-- The expression `delete[] reinterpret_cast<stack_storage_type*>(p)`: nothing for a null
pointer, otherwise `p` must be the start of a live array that came from `new[]`. The
slots are `aligned_storage`, so no element destructor runs. -/
def operator_delete_array {T : Type} (m : Mem T) (p : Ptr) : Except Fault (Mem T) :=
  match p.base with
  | none => if p.off = 0 then .ok m else .error .bad_delete
  | some r =>
    match m[r]? with
    | none => .error .bad_delete
    | some reg =>
      if reg.live && reg.dyn && p.off == 0 then .ok (m.set r { reg with live := false })
      else .error .bad_delete

/-- An object with automatic storage that holds `n` element slots comes into being. -/
def Mem.enter {T : Type} (m : Mem T) (n : Nat) : Mem T × Nat :=
  (m ++ [⟨List.replicate n none, true, false⟩], m.length)

/-- The automatic object whose slots are array `r` goes out of scope. -/
def Mem.leave {T : Type} (m : Mem T) (r : Nat) : Mem T :=
  match m[r]? with
  | none => m
  | some reg => m.set r { reg with live := false }

/-- The bytes of array `r` are overwritten by something that is not an element: every
slot is raw afterwards. -/
def Mem.clobber {T : Type} (m : Mem T) (r : Nat) : Mem T :=
  match m[r]? with
  | none => m
  | some reg => m.set r { reg with cells := reg.cells.map (fun _ => none) }

/-! ## Uninitialized-memory helpers of `small_vector_base`

Each loop runs `last - first` times; in every call of the source both pointers come from
the same array. -/

/-- Loop body of `uninitialized_fill`, `n` iterations from `current`. -/
def uninitialized_fill_loop {T : Type} (m : Mem T) (current : Ptr) (value : T) :
    Nat → Except Fault (Mem T)
  | 0 => .ok m
  | n + 1 =>
    match construct_at m current value with
    | .error e => .error e
    | .ok m1 => uninitialized_fill_loop m1 (current.add 1) value n

/-- `small_vector_base::uninitialized_fill(first, last, value)`. -/
def uninitialized_fill {T : Type} (m : Mem T) (first last : Ptr) (value : T) :
    Except Fault (Mem T) :=
  uninitialized_fill_loop m first value (last.off - first.off)

/-- `small_vector_base::uninitialized_fill_default_construct<T>(first, last)`: each slot
receives `T()`. -/
def uninitialized_fill_default_construct {T : Type} [Inhabited T] (m : Mem T)
    (first last : Ptr) : Except Fault (Mem T) :=
  uninitialized_fill_loop m first default (last.off - first.off)

/-- Loop body shared by `uninitialized_copy` and `uninitialized_move`, `n` iterations. -/
def uninitialized_copy_loop {T : Type} (m : Mem T) (first current : Ptr) :
    Nat → Except Fault (Mem T)
  | 0 => .ok m
  | n + 1 =>
    match load m first with
    | .error e => .error e
    | .ok v =>
      match construct_at m current v with
      | .error e => .error e
      | .ok m1 => uninitialized_copy_loop m1 (first.add 1) (current.add 1) n

/-- `small_vector_base::uninitialized_copy(first, last, d_first)`. -/
def uninitialized_copy {T : Type} (m : Mem T) (first last d_first : Ptr) :
    Except Fault (Mem T) :=
  uninitialized_copy_loop m first d_first (last.off - first.off)

/-- `small_vector_base::uninitialized_move(first, last, d_first)`. The moved-from object
stays alive in its slot until it is destroyed; its value is kept. -/
def uninitialized_move {T : Type} (m : Mem T) (first last d_first : Ptr) :
    Except Fault (Mem T) :=
  uninitialized_copy_loop m first d_first (last.off - first.off)

/-! ## Assertion macros -/

/-- The macro `SCN_ASSERT(cond, msg)` of `util.h`: aborts on a false condition when
assertions are compiled in. -/
def SCN_ASSERT (c : Config) (cond : Bool) : Except Fault Unit :=
  if c.checks && !cond then .error .contract else .ok ()

/-- The macro `SCN_EXPECT(cond)`: a precondition assertion. -/
def SCN_EXPECT (c : Config) (cond : Bool) : Except Fault Unit := SCN_ASSERT c cond

/-- The macro `SCN_ENSURE(cond)`: a postcondition assertion. -/
def SCN_ENSURE (c : Config) (cond : Bool) : Except Fault Unit := SCN_ASSERT c cond

/-! ## `small_vector<T, StackN>` -/

/-- The member `m_storage` together with its discriminator `m_heap`: the union holds either
a `stack_storage` (its `size`; its `data[StackN]` slots are the array `inl` of the
object) or a `heap_storage` (`size` and `cap`). `m_heap` is written only by
`_construct_stack_storage` and `_construct_heap_storage`, together with the union. -/
inductive storage_type
  | stack (size : Nat)
  | heap (size cap : Nat)
  deriving DecidableEq

/-- A `small_vector` object: `m_ptr`, the tagged `m_storage`, and the array holding the
inline slots of `m_storage`. -/
structure small_vector where
  m_ptr : Ptr
  m_storage : storage_type
  inl : Nat
  deriving DecidableEq

namespace small_vector

/-- `is_small()`: `!m_heap`. -/
def is_small (v : small_vector) : Bool :=
  match v.m_storage with
  | .stack _ => true
  | .heap _ _ => false

/-- `can_be_small(n)`. -/
def can_be_small (c : Config) (n : Nat) : Bool := decide (n ≤ c.StackN)

/-- `data()`. -/
def data (v : small_vector) : Ptr := v.m_ptr

/-- `size()`. -/
def size (v : small_vector) : Nat :=
  match v.m_storage with
  | .stack s => s
  | .heap s _ => s

/-- `capacity()`. -/
def capacity (c : Config) (v : small_vector) : Nat :=
  match v.m_storage with
  | .stack _ => c.StackN
  | .heap _ cap => cap

/-- `empty()`. -/
def empty (v : small_vector) : Bool := v.size == 0

/-- `begin()`. -/
def begin (v : small_vector) : Ptr := v.data

/-- `end()`. -/
def end_ (v : small_vector) : Ptr := v.begin.add v.size

/-- `operator[](pos)`: the address of the element referred to. -/
def operator_index (c : Config) (v : small_vector) (pos : Nat) : Except Fault Ptr :=
  match SCN_EXPECT c (decide (pos < v.size)) with
  | .error e => .error e
  | .ok _ => .ok (v.begin.add pos)

/-- `front()`: the address of the element referred to. -/
def front (c : Config) (v : small_vector) : Except Fault Ptr :=
  match SCN_EXPECT c (!v.empty) with
  | .error e => .error e
  | .ok _ => .ok v.begin

/-- `back()`: the address of the element referred to. -/
def back (c : Config) (v : small_vector) : Except Fault Ptr :=
  match SCN_EXPECT c (!v.empty) with
  | .error e => .error e
  | .ok _ => v.end_.sub 1

/-- `max_size()`. -/
def max_size (c : Config) : Nat := SIZE_MOD c - 1

/-- `stack_storage::reinterpret_unconstructed_data()`: the inline slots, or `nullptr` in
the specialisation for `StackN == 0`. -/
def reinterpret_unconstructed_data (c : Config) (v : small_vector) : Ptr :=
  if c.StackN = 0 then nullptr else ⟨some v.inl, 0⟩

/-- `stack_storage::reinterpret_data()`: the same address, laundered. -/
def reinterpret_data (c : Config) (v : small_vector) : Ptr :=
  reinterpret_unconstructed_data c v

/-- `_construct_stack_storage()`: `m_heap = false` and a value-initialised
`stack_storage` (size 0, slots raw) is placed in `m_storage`. -/
def _construct_stack_storage {T : Type} (m : Mem T) (v : small_vector) :
    Mem T × small_vector :=
  (m.clobber v.inl, { v with m_storage := .stack 0 })

/-- `_construct_heap_storage()`: `m_heap = true` and a `heap_storage` (size 0, cap 0) is
placed in `m_storage`, over the bytes of the inline slots. -/
def _construct_heap_storage {T : Type} (m : Mem T) (v : small_vector) :
    Mem T × small_vector :=
  (m.clobber v.inl, { v with m_storage := .heap 0 0 })

/-- `_set_size(n)`. -/
def _set_size (v : small_vector) (n : Nat) : small_vector :=
  match v.m_storage with
  | .stack _ => { v with m_storage := .stack n }
  | .heap _ cap => { v with m_storage := .heap n cap }

/-- Assignment to both fields of the active `heap_storage` (`heap.size = n; heap.cap = cap`). -/
def _set_heap (v : small_vector) (n cap : Nat) : small_vector :=
  { v with m_storage := .heap n cap }

/-- `_destruct_stack_storage()`: the destructor of `stack_storage` is trivial. -/
def _destruct_stack_storage {T : Type} (m : Mem T) (v : small_vector) :
    Except Fault (Mem T × small_vector) :=
  .ok (m, v)

/-- `_destruct_heap_storage()`: the buffer is released unless `capacity() == 0`; the
destructor of `heap_storage` is trivial. -/
def _destruct_heap_storage {T : Type} (c : Config) (m : Mem T) (v : small_vector) :
    Except Fault (Mem T × small_vector) :=
  if v.capacity c != 0 then
    match operator_delete_array m v.m_ptr with
    | .error e => .error e
    | .ok m1 => .ok (m1, v)
  else .ok (m, v)

/-- Loop of `_destruct_elements`: `m_ptr[i].~T()` for `n` consecutive indices from `i`. -/
def _destruct_elements_loop {T : Type} (m : Mem T) (p : Ptr) (i : Nat) :
    Nat → Except Fault (Mem T)
  | 0 => .ok m
  | n + 1 =>
    match destroy_at m (p.add i) with
    | .error e => .error e
    | .ok m1 => _destruct_elements_loop m1 p (i + 1) n

/-- `_destruct_elements()`. -/
def _destruct_elements {T : Type} (m : Mem T) (v : small_vector) :
    Except Fault (Mem T × small_vector) :=
  match _destruct_elements_loop m v.m_ptr 0 v.size with
  | .error e => .error e
  | .ok m1 => .ok (m1, v._set_size 0)

/-- `_destruct()`. -/
def _destruct {T : Type} (c : Config) (m : Mem T) (v : small_vector) :
    Except Fault (Mem T × small_vector) :=
  match _destruct_elements m v with
  | .error e => .error e
  | .ok (m1, v1) =>
    if !v1.is_small then _destruct_heap_storage c m1 v1 else _destruct_stack_storage m1 v1

/-- `_realloc(new_cap)`. -/
def _realloc {T : Type} (c : Config) (m : Mem T) (v : small_vector) (new_cap : Nat) :
    Except Fault (Mem T × small_vector) :=
  match operator_new_array c m new_cap with
  | .error e => .error e
  | .ok (m1, ptr) =>
    let n := v.size
    match uninitialized_move m1 v.begin v.end_ ptr with
    | .error e => .error e
    | .ok m2 =>
      match _destruct c m2 v with
      | .error e => .error e
      | .ok (m3, v3) =>
        let (m4, v4) := if v3.is_small then _construct_heap_storage m3 v3 else (m3, v3)
        .ok (m4, { v4 with m_ptr := ptr }._set_heap n new_cap)

/-- `_prepare_push_back()`: the address the new element is constructed at. -/
def _prepare_push_back {T : Type} (c : Config) (m : Mem T) (v : small_vector) :
    Except Fault (Mem T × small_vector × Ptr) :=
  if v.size == v.capacity c then
    match _realloc c m v (next_pow2 c ((v.size + 1) % SIZE_MOD c)) with
    | .error e => .error e
    | .ok (m1, v1) => .ok (m1, v1, v1.m_ptr.add v1.size)
  else .ok (m, v, v.m_ptr.add v.size)

/-- `push_back(value)`. -/
def push_back {T : Type} (c : Config) (m : Mem T) (v : small_vector) (value : T) :
    Except Fault (Mem T × small_vector) :=
  match _prepare_push_back c m v with
  | .error e => .error e
  | .ok (m1, v1, p) =>
    match construct_at m1 p value with
    | .error e => .error e
    | .ok m2 => .ok (m2, v1._set_size ((v1.size + 1) % SIZE_MOD c))

/-- `make_small()`. The local `stack_storage s` is an automatic object of its own. -/
def make_small {T : Type} (c : Config) (m : Mem T) (v : small_vector) :
    Except Fault (Mem T × small_vector) :=
  if v.is_small || !can_be_small c v.size then .ok (m, v)
  else
    let (m0, sr) := m.enter c.StackN
    let s : small_vector := ⟨nullptr, .stack 0, sr⟩
    match uninitialized_move m0 v.begin v.end_ (reinterpret_unconstructed_data c s) with
    | .error e => .error e
    | .ok m1 =>
      let s_size := v.size
      match _destruct c m1 v with
      | .error e => .error e
      | .ok (m2, v2) =>
        let (m3, v3) := _construct_stack_storage m2 v2
        match uninitialized_move m3 (reinterpret_data c s) ((reinterpret_data c s).add s_size)
            (reinterpret_unconstructed_data c v3) with
        | .error e => .error e
        | .ok m4 => .ok (m4.leave sr, v3._set_size s_size)

/-- `reserve(new_cap)`. -/
def reserve {T : Type} (c : Config) (m : Mem T) (v : small_vector) (new_cap : Nat) :
    Except Fault (Mem T × small_vector) :=
  if new_cap ≤ v.capacity c then .ok (m, v)
  else _realloc c m v (next_pow2 c new_cap)

/-- `shrink_to_fit()`. -/
def shrink_to_fit {T : Type} (c : Config) (m : Mem T) (v : small_vector) :
    Except Fault (Mem T × small_vector) :=
  if v.is_small then .ok (m, v)
  else if !can_be_small c v.size then _realloc c m v v.size
  else make_small c m v

/-- Storage of a `small_vector` object before any constructor body runs: the member
initialiser `m_ptr{nullptr}` and the bytes of `m_storage`. -/
def declare {T : Type} (c : Config) (m : Mem T) : Mem T × small_vector :=
  let (m1, r) := m.enter c.StackN
  (m1, ⟨nullptr, .stack 0, r⟩)

/-- The default constructor `small_vector()`. -/
def ctor {T : Type} (c : Config) (m : Mem T) : Except Fault (Mem T × small_vector) :=
  let (m0, v0) := declare c m
  let (m1, v1) :=
    if c.StackN != 0 then
      let (m1, v1) := _construct_stack_storage m0 v0
      (m1, { v1 with m_ptr := reinterpret_unconstructed_data c v1 })
    else _construct_heap_storage m0 v0
  match SCN_ENSURE c (v1.size == 0) with
  | .error e => .error e
  | .ok _ => .ok (m1, v1)

/-- The closing `SCN_ENSURE`s shared by the two counted constructors. -/
def ctor_ensure {T : Type} (c : Config) (m : Mem T) (v : small_vector) (count : Nat) :
    Except Fault (Mem T × small_vector) :=
  match SCN_ENSURE c v.data.to_bool with
  | .error e => .error e
  | .ok _ =>
    match SCN_ENSURE c (v.size == count) with
    | .error e => .error e
    | .ok _ =>
      match SCN_ENSURE c (decide (v.capacity c ≥ v.size)) with
      | .error e => .error e
      | .ok _ => .ok (m, v)

/-- The constructor `small_vector(size_type count, const T& value)`. -/
def ctor_count_value {T : Type} (c : Config) (m : Mem T) (count : Nat) (value : T) :
    Except Fault (Mem T × small_vector) :=
  let (m0, v0) := declare c m
  if !can_be_small c count then
    let (m1, v1) := _construct_heap_storage m0 v0
    let cap := next_pow2 c count
    match operator_new_array c m1 count with
    | .error e => .error e
    | .ok (m2, ptr) =>
      match uninitialized_fill m2 ptr (ptr.add count) value with
      | .error e => .error e
      | .ok m3 => ctor_ensure c m3 { v1._set_heap count cap with m_ptr := ptr } count
  else
    let (m1, v1) := _construct_stack_storage m0 v0
    match uninitialized_fill m1 (reinterpret_unconstructed_data c v1)
        ((reinterpret_unconstructed_data c v1).add c.StackN) value with
    | .error e => .error e
    | .ok m2 =>
      let v2 := v1._set_size count
      ctor_ensure c m2 { v2 with m_ptr := reinterpret_data c v2 } count

/-- The constructor `small_vector(size_type count)`. -/
def ctor_count {T : Type} [Inhabited T] (c : Config) (m : Mem T) (count : Nat) :
    Except Fault (Mem T × small_vector) :=
  let (m0, v0) := declare c m
  if !can_be_small c count then
    let (m1, v1) := _construct_heap_storage m0 v0
    let cap := next_pow2 c count
    match operator_new_array c m1 count with
    | .error e => .error e
    | .ok (m2, ptr) =>
      match uninitialized_fill_default_construct m2 ptr (ptr.add count) with
      | .error e => .error e
      | .ok m3 => ctor_ensure c m3 { v1._set_heap count cap with m_ptr := ptr } count
  else
    let (m1, v1) := _construct_stack_storage m0 v0
    match uninitialized_fill_default_construct m1 (reinterpret_unconstructed_data c v1)
        ((reinterpret_unconstructed_data c v1).add count) with
    | .error e => .error e
    | .ok m2 =>
      let v2 := v1._set_size count
      ctor_ensure c m2 { v2 with m_ptr := reinterpret_data c v2 } count

/-- The closing `SCN_ENSURE`s of the copy constructor. -/
def ctor_copy_ensure {T : Type} (c : Config) (m : Mem T) (v other : small_vector) :
    Except Fault (Mem T × small_vector) :=
  match SCN_ENSURE c v.data.to_bool with
  | .error e => .error e
  | .ok _ =>
    match SCN_ENSURE c other.data.to_bool with
    | .error e => .error e
    | .ok _ =>
      match SCN_ENSURE c (other.size == v.size) with
      | .error e => .error e
      | .ok _ =>
        match SCN_ENSURE c (other.capacity c == v.capacity c) with
        | .error e => .error e
        | .ok _ => .ok (m, v)

/-- The copy constructor `small_vector(const small_vector& other)`. -/
def ctor_copy {T : Type} (c : Config) (m : Mem T) (other : small_vector) :
    Except Fault (Mem T × small_vector) :=
  let (m0, v0) := declare c m
  if other.empty then
    let (m1, v1) := _construct_stack_storage m0 v0
    .ok (m1, { v1 with m_ptr := nullptr })
  else
    let s := other.size
    if !other.is_small then
      let (m1, v1) := _construct_heap_storage m0 v0
      let cap := other.capacity c
      let optr := other.data
      match operator_new_array c m1 cap with
      | .error e => .error e
      | .ok (m2, ptr) =>
        match uninitialized_copy m2 optr (optr.add s) ptr with
        | .error e => .error e
        | .ok m3 => ctor_copy_ensure c m3 ({ v1 with m_ptr := ptr }._set_heap s cap) other
    else
      let (m1, v1) := _construct_stack_storage m0 v0
      let optr := other.data
      match uninitialized_copy m1 optr (optr.add s) (reinterpret_unconstructed_data c v1) with
      | .error e => .error e
      | .ok m2 =>
        let v2 := v1._set_size s
        ctor_copy_ensure c m2 { v2 with m_ptr := reinterpret_data c v2 } other

/-- The tail shared by the non-empty branches of the move constructor:
`other.m_ptr = nullptr; SCN_ENSURE(data());`. The result is the memory, the new object and
the moved-from `other`. -/
def ctor_move_finish {T : Type} (c : Config) (m : Mem T) (v other : small_vector) :
    Except Fault (Mem T × small_vector × small_vector) :=
  let other1 := { other with m_ptr := nullptr }
  match SCN_ENSURE c v.data.to_bool with
  | .error e => .error e
  | .ok _ => .ok (m, v, other1)

/-- The move constructor `small_vector(small_vector&& other)`. The result is the memory,
the new object and the moved-from `other`. -/
def ctor_move {T : Type} (c : Config) (m : Mem T) (other : small_vector) :
    Except Fault (Mem T × small_vector × small_vector) :=
  let (m0, v0) := declare c m
  if other.empty then
    let (m1, v1) := _construct_stack_storage m0 v0
    .ok (m1, { v1 with m_ptr := nullptr }, other)
  else
    let s := other.size
    if !other.is_small then
      let (m1, v1) := _construct_heap_storage m0 v0
      let v2 := { v1 with m_ptr := other.data }
      ctor_move_finish c m1 (v2._set_heap s (other.capacity c)) other
    else
      let (m1, v1) := _construct_stack_storage m0 v0
      let optr := other.data
      match uninitialized_move m1 optr (optr.add s) (reinterpret_unconstructed_data c v1) with
      | .error e => .error e
      | .ok m2 =>
        let v2 := v1._set_size s
        match _destruct_elements m2 other with
        | .error e => .error e
        | .ok (m3, other1) => ctor_move_finish c m3 v2 other1

/-- Assignment `_get_heap().cap = cap` to the active `heap_storage`; every call of the
source is made with `m_heap` set. -/
def _set_heap_cap (v : small_vector) (cap : Nat) : small_vector :=
  match v.m_storage with
  | .stack _ => v
  | .heap s _ => { v with m_storage := .heap s cap }

/-- The copy assignment `operator=(const small_vector& other)`, for `other` an object
distinct from `*this`. -/
def assign_copy {T : Type} (c : Config) (m : Mem T) (v other : small_vector) :
    Except Fault (Mem T × small_vector) :=
  match _destruct_elements m v with
  | .error e => .error e
  | .ok (m1, v1) =>
    if other.empty then .ok (m1, v1)
    else
      match SCN_ASSERT c (v1.size == 0) with
      | .error e => .error e
      | .ok _ =>
        if !v1.is_small || other.is_small then
          match uninitialized_copy m1 other.data (other.data.add other.size) v1.data with
          | .error e => .error e
          | .ok m2 =>
            let v2 := { v1 with m_ptr := v1.data }
            let v3 := v2._set_size other.size
            .ok (m2, if !other.is_small then v3._set_heap_cap (other.capacity c) else v3)
        else
          match _destruct_stack_storage m1 v1 with
          | .error e => .error e
          | .ok (m2, v2) =>
            let (m3, v3) := _construct_heap_storage m2 v2
            let cap := next_pow2 c other.size
            match operator_new_array c m3 cap with
            | .error e => .error e
            | .ok (m4, ptr) =>
              match uninitialized_copy m4 other.data (other.data.add other.size) ptr with
              | .error e => .error e
              | .ok m5 => .ok (m5, { v3 with m_ptr := ptr }._set_heap other.size cap)

/-- The move assignment `operator=(small_vector&& other)`, for `other` an object distinct
from `*this`. The result is the memory, `*this` and the moved-from `other`. -/
def assign_move {T : Type} (c : Config) (m : Mem T) (v other : small_vector) :
    Except Fault (Mem T × small_vector × small_vector) :=
  match _destruct_elements m v with
  | .error e => .error e
  | .ok (m1, v1) =>
    if other.empty then .ok (m1, v1, other)
    else
      match SCN_ASSERT c (v1.size == 0) with
      | .error e => .error e
      | .ok _ =>
        if !v1.is_small && !other.is_small then
          match (if !v1.is_small && v1.capacity c != 0 then operator_delete_array m1 v1.m_ptr
              else .ok m1) with
          | .error e => .error e
          | .ok m2 =>
            let v2 := { v1 with m_ptr := other.data }
            let v3 := (v2._set_heap_cap (other.capacity c))._set_size other.size
            .ok (m2, v3, { other with m_ptr := nullptr })
        else if !v1.is_small || other.is_small then
          match uninitialized_move m1 other.data (other.data.add other.size) v1.data with
          | .error e => .error e
          | .ok m2 =>
            let v2 := v1._set_size other.size
            match _destruct_elements m2 other with
            | .error e => .error e
            | .ok (m3, other1) => .ok (m3, v2, { other1 with m_ptr := nullptr })
        else
          match _destruct_stack_storage m1 v1 with
          | .error e => .error e
          | .ok (m2, v2) =>
            let (m3, v3) := _construct_heap_storage m2 v2
            let v4 := { v3 with m_ptr := other.data }
            .ok (m3, v4._set_heap other.size (other.capacity c), { other with m_ptr := nullptr })

/-- The destructor `~small_vector()`, followed by the end of the object's storage. -/
def dtor {T : Type} (c : Config) (m : Mem T) (v : small_vector) : Except Fault (Mem T) :=
  match _destruct c m v with
  | .error e => .error e
  | .ok (m1, v1) => .ok (m1.leave v1.inl)

/-- The member `swap(other)`: `tmp{std::move(other)}; other = std::move(*this);
*this = std::move(tmp);`, and `tmp` destroyed at the end of the scope. The result is the
memory, `*this` and `other`. -/
def swap {T : Type} (c : Config) (m : Mem T) (v other : small_vector) :
    Except Fault (Mem T × small_vector × small_vector) :=
  match ctor_move c m other with
  | .error e => .error e
  | .ok (m1, tmp, other1) =>
    match assign_move c m1 other1 v with
    | .error e => .error e
    | .ok (m2, other2, v2) =>
      match assign_move c m2 v2 tmp with
      | .error e => .error e
      | .ok (m3, v3, tmp3) =>
        match dtor c m3 tmp3 with
        | .error e => .error e
        | .ok m4 => .ok (m4, v3, other2)

/-- The member `clear()`. -/
def clear {T : Type} (m : Mem T) (v : small_vector) : Except Fault (Mem T × small_vector) :=
  _destruct_elements m v

/-- Loop of `erase`, `n` passes from `it = p + i`: `it->~T()`, then `*it` is
move-constructed from `*(it + 1)`. -/
def erase_loop {T : Type} (m : Mem T) (p : Ptr) (i : Nat) : Nat → Except Fault (Mem T)
  | 0 => .ok m
  | n + 1 =>
    match destroy_at m (p.add i) with
    | .error e => .error e
    | .ok m1 =>
      match load m1 (p.add (i + 1)) with
      | .error e => .error e
      | .ok x =>
        match construct_at m1 (p.add i) x with
        | .error e => .error e
        | .ok m2 => erase_loop m2 p (i + 1) n

/-- The member `erase(pos)` for `pos = begin() + i`; the result carries the returned
iterator. The loop runs until `it == end()`, that is `size() - i` times; from a position
past `end()` the exit test is never met and the walk leaves the array. -/
def erase {T : Type} (c : Config) (m : Mem T) (v : small_vector) (i : Nat) :
    Except Fault (Mem T × small_vector × Ptr) :=
  let pos := v.begin.add i
  if i == v.size then
    match destroy_at m pos with
    | .error e => .error e
    | .ok m1 =>
      let v1 := v._set_size ((v.size + SIZE_MOD c - 1) % SIZE_MOD c)
      .ok (m1, v1, v1.end_)
  else if v.size < i then .error .out_of_bounds
  else
    match erase_loop m v.begin i (v.size - i) with
    | .error e => .error e
    | .ok m1 =>
      match v.end_.sub 1 with
      | .error e => .error e
      | .ok last =>
        match destroy_at m1 last with
        | .error e => .error e
        | .ok m2 => .ok (m2, v._set_size ((v.size + SIZE_MOD c - 1) % SIZE_MOD c), pos)

/-- The member `emplace_back(args...)` for the argument list that builds `value`; the
result carries the address of the reference returned by `back()`. -/
def emplace_back {T : Type} (c : Config) (m : Mem T) (v : small_vector) (value : T) :
    Except Fault (Mem T × small_vector × Ptr) :=
  match _prepare_push_back c m v with
  | .error e => .error e
  | .ok (m1, v1, p) =>
    match construct_at m1 p value with
    | .error e => .error e
    | .ok m2 =>
      let v2 := v1._set_size ((v1.size + 1) % SIZE_MOD c)
      match back c v2 with
      | .error e => .error e
      | .ok ref => .ok (m2, v2, ref)

/-- The member `pop_back()`. -/
def pop_back {T : Type} (c : Config) (m : Mem T) (v : small_vector) :
    Except Fault (Mem T × small_vector) :=
  match back c v with
  | .error e => .error e
  | .ok ref =>
    match destroy_at m ref with
    | .error e => .error e
    | .ok m1 => .ok (m1, v._set_size ((v.size + SIZE_MOD c - 1) % SIZE_MOD c))

/-- The member `resize(count)`. -/
def resize {T : Type} (m : Mem T) (v : small_vector) (count : Nat) :
    Except Fault (Mem T × small_vector) :=
  if count > v.size then .ok (m, v)
  else
    match _destruct_elements_loop m v.begin count (v.size - count) with
    | .error e => .error e
    | .ok m1 => .ok (m1, v._set_size count)

end small_vector

/-! ## Observations used by the statements -/

/-- The values of the `n` objects at `p[i]`, `p[i+1]`, ... -/
def read_range {T : Type} (m : Mem T) (p : Ptr) (i : Nat) : Nat → Except Fault (List T)
  | 0 => .ok []
  | n + 1 =>
    match load m (p.add i) with
    | .error e => .error e
    | .ok x =>
      match read_range m p (i + 1) n with
      | .error e => .error e
      | .ok xs => .ok (x :: xs)

/-- The element sequence of a container: the objects read through `data()[0 .. size())`. -/
def small_vector.elements {T : Type} (m : Mem T) (v : small_vector) : Except Fault (List T) :=
  read_range m v.data 0 v.size

/-- The value behind a reference returned by an accessor. -/
def deref {T : Type} (m : Mem T) (ref : Except Fault Ptr) : Except Fault T :=
  match ref with
  | .error e => .error e
  | .ok p => load m p


/-! ## Notions used by the statements -/

/-- Bits `L - k .. L - 1` of `y` are set and no bit at or above `L` is. -/
def TopBits (L k y : Nat) : Prop :=
  (∀ i, L ≤ i → y.testBit i = false) ∧ (∀ i, i < L → L ≤ i + k → y.testBit i = true)

/-- `push_back` applied to the values of a list, in order. -/
def push_back_all {T : Type} (c : Config) :
    List T → Mem T → small_vector → Except Fault (Mem T × small_vector)
  | [], m, v => .ok (m, v)
  | x :: xs, m, v =>
    match small_vector.push_back c m v x with
    | .error e => .error e
    | .ok (m1, v1) => push_back_all c xs m1 v1

/-- A default-constructed container followed by `push_back` of each value of `xs`. -/
def pushed {T : Type} (c : Config) (m : Mem T) (xs : List T) :
    Except Fault (Mem T × small_vector) :=
  match small_vector.ctor c m with
  | .error e => .error e
  | .ok (m0, v0) => push_back_all c xs m0 v0

/-- The call sequence `reserve(k); shrink_to_fit();`. -/
def reserve_then_shrink_to_fit {T : Type} (c : Config) (m : Mem T) (v : small_vector)
    (k : Nat) : Except Fault (Mem T × small_vector) :=
  match small_vector.reserve c m v k with
  | .error e => .error e
  | .ok (m1, v1) => small_vector.shrink_to_fit c m1 v1

/-- The container `v` holds the element sequence `xs` in memory `m`: its elements are the
first objects of the live array `data()` points to, which is its own inline array
(Inline) or an array from `new[]` (Heap); an empty Heap container may also have a null
`data()`. -/
inductive Owns {T : Type} (c : Config) (m : Mem T) : small_vector → List T → Prop
  | stack (inl : Nat) (xs : List T) (rest : List (Option T)) :
      c.StackN ≠ 0 → m[inl]? = some ⟨xs.map some ++ rest, true, false⟩ →
      xs.length + rest.length = c.StackN →
      Owns c m ⟨⟨some inl, 0⟩, .stack xs.length, inl⟩ xs
  | heap (inl r cap : Nat) (xs : List T) (rest : List (Option T)) :
      m[r]? = some ⟨xs.map some ++ rest, true, true⟩ →
      Owns c m ⟨⟨some r, 0⟩, .heap xs.length cap, inl⟩ xs
  | null (inl cap : Nat) :
      Owns c m ⟨nullptr, .heap 0 cap, inl⟩ []

/-- The inline array of the object `v` is in place: live, not from `new[]`, with `StackN`
slots. -/
def InlineOk {T : Type} (c : Config) (m : Mem T) (v : small_vector) : Prop :=
  ∃ R, m[v.inl]? = some R ∧ R.live = true ∧ R.dyn = false ∧ R.cells.length = c.StackN

/-- The array `data()` points to has exactly `capacity()` slots (and `capacity()` is 0 when
`data()` is null). -/
def Backed {T : Type} (c : Config) (m : Mem T) (v : small_vector) : Prop :=
  match v.m_ptr.base with
  | none => v.capacity c = 0
  | some r => ∃ R, m[r]? = some R ∧ R.cells.length = v.capacity c

/-- What a caller can observe of a container: mode, size, capacity and the element
sequence read through `data()`. -/
def observe {T : Type} (c : Config) (m : Mem T) (v : small_vector) :
    Bool × Nat × Nat × Except Fault (List T) :=
  (v.is_small, v.size, v.capacity c, v.elements m)

/-- The array from `new[]` a container holds: the target of `m_ptr` while it is Heap. -/
def small_vector.buffer (v : small_vector) : Option Nat :=
  if v.is_small then none else v.m_ptr.base

/-- Array `r` came from `new[]` and has not been released. -/
def Mem.allocated {T : Type} (m : Mem T) (r : Nat) : Bool :=
  match m[r]? with
  | none => false
  | some reg => reg.live && reg.dyn

/-- Array `r` is allocated and neither of the two containers holds it. -/
def leaked {T : Type} (m : Mem T) (a b : small_vector) (r : Nat) : Bool :=
  m.allocated r && a.buffer != some r && b.buffer != some r

/-! ## Concrete states used as witnesses (inline capacity 4, 64-bit `size_t`) -/

/-- The configuration of the examples: `small_vector<T, 4>`, 64-bit `size_t`, assertions on. -/
def cfg4 : Config := ⟨4, true, true⟩

/-- Memory after `push_back` of 1..5 onto an empty `small_vector<Nat, 4>`: the vacated
inline array and a buffer of capacity 8. -/
def mem_heap5 : Mem Nat :=
  [⟨[none, none, none, none], true, false⟩,
    ⟨[some 1, some 2, some 3, some 4, some 5, none, none, none], true, true⟩]

/-- The container object in `mem_heap5`: Heap, size 5, capacity 8. -/
def vec_heap5 : small_vector := ⟨⟨some 1, 0⟩, .heap 5 8, 0⟩

/-- Memory after `shrink_to_fit` on `vec_heap5`: the old buffer released, a new one of
exactly 5 slots. -/
def mem_fit5 : Mem Nat :=
  [⟨[none, none, none, none], true, false⟩,
    ⟨[none, none, none, none, none, none, none, none], false, true⟩,
    ⟨[some 1, some 2, some 3, some 4, some 5], true, true⟩]

/-- The container object in `mem_fit5`: Heap, size 5, capacity 5. -/
def vec_fit5 : small_vector := ⟨⟨some 2, 0⟩, .heap 5 5, 0⟩

/-- Memory of an Inline `small_vector<Nat, 4>` holding 1, 2. -/
def mem_inline2 : Mem Nat := [⟨[some 1, some 2, none, none], true, false⟩]

/-- The container object in `mem_inline2`: Inline, size 2. -/
def vec_inline2 : small_vector := ⟨⟨some 0, 0⟩, .stack 2, 0⟩

/-- The same container type with the assertion macros compiled out. -/
def cfg4_unchecked : Config := ⟨4, true, false⟩

/-- Memory of a `small_vector<Nat, 4>` made Heap by `reserve(5)` on the empty container
and then holding 1, 2: the vacated inline array and a buffer of capacity 8. -/
def mem_roomy2 : Mem Nat :=
  [⟨[none, none, none, none], true, false⟩,
    ⟨[some 1, some 2, none, none, none, none, none, none], true, true⟩]

/-- The container object in `mem_roomy2`: Heap, size 2, capacity 8. -/
def vec_roomy2 : small_vector := ⟨⟨some 1, 0⟩, .heap 2 8, 0⟩

/-- The call sequence `v.reserve(k); v.push_back(x) ...` for the values of `xs`, on a
default-constructed container. -/
def reserved_pushed {T : Type} (c : Config) (m : Mem T) (k : Nat) (xs : List T) :
    Except Fault (Mem T × small_vector) :=
  match small_vector.ctor c m with
  | .error e => .error e
  | .ok (m0, v0) =>
    match small_vector.reserve c m0 v0 k with
    | .error e => .error e
    | .ok (m1, v1) => push_back_all c xs m1 v1

/-- The configuration `small_vector<T, 0>`, 64-bit `size_t`, assertions on. -/
def cfg0 : Config := ⟨0, true, true⟩

/-- The same container type with the assertion macros compiled out. -/
def cfg0_unchecked : Config := ⟨0, true, false⟩


/-! ## The growth policy computes the least power of two -/

theorem TopBits.smear {L k y : Nat} (h : TopBits L k y) (s : Nat) (hs : s ≤ k) :
    TopBits L (k + s) (y ||| (y >>> s)) := by
  obtain ⟨hz, ho⟩ := h
  refine ⟨fun i hi => ?_, fun i hi hk => ?_⟩
  · rw [Nat.testBit_or, Nat.testBit_shiftRight, hz i hi, hz (s + i) (by omega)]; rfl
  · rw [Nat.testBit_or, Nat.testBit_shiftRight]
    by_cases hik : L ≤ i + k
    · rw [ho i hi hik]; rfl
    · rw [ho (s + i) (by omega) (by omega)]; simp

theorem TopBits.init {L y : Nat} (hlo : 2 ^ (L - 1) ≤ y) (hhi : y < 2 ^ L) :
    TopBits L 1 y := by
  refine ⟨fun i hi => ?_, fun i hi hk => ?_⟩
  · exact Nat.testBit_lt_two_pow (lt_of_lt_of_le hhi (Nat.pow_le_pow_right (by decide) hi))
  · have hi1 : i = L - 1 := by omega
    subst hi1
    rw [Nat.testBit_to_div_mod]
    have h1 : y / 2 ^ (L - 1) = 1 := by
      apply Nat.div_eq_of_lt_le
      · simpa using hlo
      · have : 2 ^ L = 2 ^ (L - 1) * 2 := by
          rw [← pow_succ]; congr 1; omega
        omega
    simp [h1]

theorem TopBits.eq_of_full {L k y : Nat} (h : TopBits L k y) (hk : L ≤ k) : y = 2 ^ L - 1 := by
  apply Nat.eq_of_testBit_eq
  intro i
  rw [Nat.testBit_two_pow_sub_one]
  by_cases hi : i < L
  · simp [hi, h.2 i hi (by omega)]
  · simp [hi, h.1 i (by omega)]

theorem smear64_eq (y L : Nat) (hL : L ≤ 64) (hlo : L ≠ 0 → 2 ^ (L - 1) ≤ y) (hhi : y < 2 ^ L) :
    (let x := y
     let x := x ||| (x >>> 1)
     let x := x ||| (x >>> 2)
     let x := x ||| (x >>> 4)
     let x := x ||| (x >>> 8)
     let x := x ||| (x >>> 16)
     let x := x ||| (x >>> 32)
     x) = 2 ^ L - 1 := by
  by_cases h0 : L = 0
  · subst h0
    have : y = 0 := by simpa using hhi
    subst this
    decide
  · have t := TopBits.init (hlo h0) hhi
    have t := (((((t.smear 1 (by decide)).smear 2 (by decide)).smear 4 (by decide)).smear 8
      (by decide)).smear 16 (by decide)).smear 32 (by decide)
    exact t.eq_of_full (by omega)

theorem smear32_eq (y L : Nat) (hL : L ≤ 32) (hlo : L ≠ 0 → 2 ^ (L - 1) ≤ y) (hhi : y < 2 ^ L) :
    (let x := y
     let x := x ||| (x >>> 1)
     let x := x ||| (x >>> 2)
     let x := x ||| (x >>> 4)
     let x := x ||| (x >>> 8)
     let x := x ||| (x >>> 16)
     x) = 2 ^ L - 1 := by
  by_cases h0 : L = 0
  · subst h0
    have : y = 0 := by simpa using hhi
    subst this
    decide
  · have t := TopBits.init (hlo h0) hhi
    have t := ((((t.smear 1 (by decide)).smear 2 (by decide)).smear 4 (by decide)).smear 8
      (by decide)).smear 16 (by decide)
    exact t.eq_of_full (by omega)

theorem size_bounds (y : Nat) : (y.size ≠ 0 → 2 ^ (y.size - 1) ≤ y) ∧ y < 2 ^ y.size := by
  refine ⟨fun h => ?_, Nat.lt_size_self y⟩
  exact Nat.lt_size.1 (by omega)

theorem _next_pow2_64_eq (x : Nat) (h1 : 1 ≤ x) (h2 : x ≤ 2 ^ 64) :
    _next_pow2_64 x = 2 ^ (x - 1).size % 2 ^ 64 := by
  have hy : (x + 2 ^ 64 - 1) % 2 ^ 64 = x - 1 := by
    have : x + 2 ^ 64 - 1 = (x - 1) + 2 ^ 64 := by omega
    rw [this, Nat.add_mod_right, Nat.mod_eq_of_lt (by omega)]
  have hs : (x - 1).size ≤ 64 := Nat.size_le.2 (by omega)
  have := smear64_eq (x - 1) _ hs (size_bounds _).1 (size_bounds _).2
  have hp : 0 < 2 ^ (x - 1).size := Nat.pos_pow_of_pos _ (by decide)
  unfold _next_pow2_64
  rw [hy]
  show (_ + 1) % 2 ^ 64 = _
  dsimp only at this
  rw [this, Nat.sub_add_cancel hp]

theorem _next_pow2_32_eq (x : Nat) (h1 : 1 ≤ x) (h2 : x ≤ 2 ^ 32) :
    _next_pow2_32 x = 2 ^ (x - 1).size % 2 ^ 32 := by
  have hy : (x + 2 ^ 32 - 1) % 2 ^ 32 = x - 1 := by
    have : x + 2 ^ 32 - 1 = (x - 1) + 2 ^ 32 := by omega
    rw [this, Nat.add_mod_right, Nat.mod_eq_of_lt (by omega)]
  have hs : (x - 1).size ≤ 32 := Nat.size_le.2 (by omega)
  have := smear32_eq (x - 1) _ hs (size_bounds _).1 (size_bounds _).2
  have hp : 0 < 2 ^ (x - 1).size := Nat.pos_pow_of_pos _ (by decide)
  unfold _next_pow2_32
  rw [hy]
  show (_ + 1) % 2 ^ 32 = _
  dsimp only at this
  rw [this, Nat.sub_add_cancel hp]

theorem SIZE_BITS_cases (c : Config) : SIZE_BITS c = 64 ∨ SIZE_BITS c = 32 := by
  unfold SIZE_BITS; cases c.size_t_64 <;> simp

theorem next_pow2_eq (c : Config) (n : Nat) (h1 : 1 ≤ n) (h2 : n ≤ 2 ^ (SIZE_BITS c - 1)) :
    next_pow2 c n = 2 ^ (n - 1).size := by
  have hsz : (n - 1).size ≤ SIZE_BITS c - 1 := Nat.size_le.2 (by omega)
  have hpow : 2 ^ (n - 1).size ≤ 2 ^ (SIZE_BITS c - 1) := Nat.pow_le_pow_right (by decide) hsz
  unfold next_pow2
  unfold SIZE_BITS at h2 hpow
  cases hc : c.size_t_64
  · simp only [hc, Bool.false_eq_true, ↓reduceIte] at h2 hpow ⊢
    have hn : n < 2 ^ 32 := lt_of_le_of_lt h2 (by decide)
    rw [Nat.mod_eq_of_lt hn, _next_pow2_32_eq n h1 (le_of_lt hn)]
    exact Nat.mod_eq_of_lt (lt_of_le_of_lt hpow (by decide))
  · simp only [hc, ↓reduceIte] at h2 hpow ⊢
    have hn : n < 2 ^ 64 := lt_of_le_of_lt h2 (by decide)
    rw [Nat.mod_eq_of_lt hn, _next_pow2_64_eq n h1 (le_of_lt hn)]
    exact Nat.mod_eq_of_lt (lt_of_le_of_lt hpow (by decide))

theorem next_pow2_ge (c : Config) (n : Nat) (h1 : 1 ≤ n) (h2 : n ≤ 2 ^ (SIZE_BITS c - 1)) :
    n ≤ next_pow2 c n := by
  rw [next_pow2_eq c n h1 h2]
  have := Nat.lt_size_self (n - 1)
  omega

theorem next_pow2_le_pow (c : Config) (n k : Nat) (h1 : 1 ≤ n) (h2 : n ≤ 2 ^ (SIZE_BITS c - 1))
    (hk : n ≤ 2 ^ k) : next_pow2 c n ≤ 2 ^ k := by
  rw [next_pow2_eq c n h1 h2]
  apply Nat.pow_le_pow_right (by decide)
  apply Nat.size_le.2
  have : 0 < 2 ^ k := Nat.pos_pow_of_pos _ (by decide)
  omega


/-! ## Memory primitives on a known region -/

section mem
variable {T : Type}

theorem set_self_of_getElem? {α : Type} {l : List α} {i : Nat} {a : α} (h : l[i]? = some a) :
    l.set i a = l := by
  apply List.ext_getElem?
  intro j
  rw [List.getElem?_set]
  obtain ⟨hi, _⟩ := List.getElem?_eq_some.1 h
  by_cases hij : i = j
  · subst hij; simp [hi, h]
  · simp [hij]

theorem getElem?_prefix_cons {α : Type} (a : List α) (x : α) (r : List α) :
    (a ++ x :: r)[a.length]? = some x := by
  rw [List.getElem?_append_right (le_refl _)]; simp

theorem getElem?_prefix_map_cons {α : Type} (a : List (Option α)) (x : α) (xs : List α)
    (r : List (Option α)) : (a ++ (x :: xs).map some ++ r)[a.length]? = some (some x) := by
  rw [List.map_cons, List.append_assoc, List.cons_append]; exact getElem?_prefix_cons _ _ _

theorem lt_of_getElem? {α : Type} {l : List α} {i : Nat} {a : α} (h : l[i]? = some a) :
    i < l.length := (List.getElem?_eq_some.1 h).1

theorem getElem?_set_same {α : Type} {l : List α} {i : Nat} {a b : α} (h : l[i]? = some a) :
    (l.set i b)[i]? = some b := by
  rw [List.getElem?_set]; simp [lt_of_getElem? h]

theorem getElem?_set_other {α : Type} {l : List α} {i j : Nat} {b : α} (h : i ≠ j) :
    (l.set i b)[j]? = l[j]? := by
  rw [List.getElem?_set]; simp [h]

@[simp] theorem Ptr.add_mk (b : Option Nat) (o k : Nat) : (Ptr.mk b o).add k = ⟨b, o + k⟩ := rfl

theorem Mem.region_ok {m : Mem T} {r o : Nat} {reg : Region T} (h : m[r]? = some reg)
    (hl : reg.live = true) : m.region ⟨some r, o⟩ = .ok (r, reg) := by
  simp [Mem.region, h, hl]

theorem load_ok {m : Mem T} {r o : Nat} {reg : Region T} {x : T} (h : m[r]? = some reg)
    (hl : reg.live = true) (hc : reg.cells[o]? = some (some x)) :
    load m ⟨some r, o⟩ = .ok x := by
  simp [load, Mem.region_ok h hl, hc]

theorem construct_at_ok {m : Mem T} {r o : Nat} {reg : Region T} (x : T) (h : m[r]? = some reg)
    (hl : reg.live = true) (ho : o < reg.cells.length) :
    construct_at m ⟨some r, o⟩ x
      = .ok (m.set r ⟨reg.cells.set o (some x), reg.live, reg.dyn⟩) := by
  simp [construct_at, Mem.region_ok h hl, ho]

theorem destroy_at_ok {m : Mem T} {r o : Nat} {reg : Region T} {x : T} (h : m[r]? = some reg)
    (hl : reg.live = true) (hc : reg.cells[o]? = some (some x)) :
    destroy_at m ⟨some r, o⟩ = .ok (m.set r ⟨reg.cells.set o none, reg.live, reg.dyn⟩) := by
  simp [destroy_at, Mem.region_ok h hl, hc]

/-- Filling `n` slots that follow the prefix `a` of a live array. -/
theorem uninitialized_fill_loop_ok (x : T) (n : Nat) :
    ∀ (m : Mem T) (r : Nat) (reg : Region T) (a pre rest : List (Option T)),
      m[r]? = some reg → reg.live = true → reg.cells = a ++ pre ++ rest → pre.length = n →
      uninitialized_fill_loop m ⟨some r, a.length⟩ x n
        = .ok (m.set r ⟨a ++ List.replicate n (some x) ++ rest, reg.live, reg.dyn⟩) := by
  induction n with
  | zero =>
    intro m r reg a pre rest h _ hc hn
    have : pre = [] := List.length_eq_zero.1 hn
    subst this
    simp only [uninitialized_fill_loop, List.replicate_zero]
    rw [← hc, set_self_of_getElem? h]
  | succ n ih =>
    intro m r reg a pre rest h hl hc hn
    obtain ⟨p, pre', rfl⟩ := List.exists_cons_of_length_eq_add_one hn
    have ho : a.length < reg.cells.length := by rw [hc]; simp
    simp only [uninitialized_fill_loop, construct_at_ok x h hl ho, Ptr.add_mk]
    have hset : reg.cells.set a.length (some x) = (a ++ [some x]) ++ pre' ++ rest := by
      rw [hc]; simp
    have := ih (m.set r ⟨reg.cells.set a.length (some x), reg.live, reg.dyn⟩) r
      ⟨reg.cells.set a.length (some x), reg.live, reg.dyn⟩ (a ++ [some x]) pre' rest
      (getElem?_set_same h) hl hset (by simpa using hn)
    simp only [List.length_append, List.length_singleton] at this
    rw [this, List.set_set]
    simp [List.replicate_succ]

/-- Copying the values `xs` from one live array into another one. -/
theorem uninitialized_copy_loop_ok (xs : List T) :
    ∀ (m : Mem T) (r1 r2 : Nat) (reg1 reg2 : Region T) (a1 rest1 a2 pre rest2 : List (Option T)),
      r1 ≠ r2 → m[r1]? = some reg1 → reg1.live = true →
      reg1.cells = a1 ++ xs.map some ++ rest1 →
      m[r2]? = some reg2 → reg2.live = true → reg2.cells = a2 ++ pre ++ rest2 →
      pre.length = xs.length →
      uninitialized_copy_loop m ⟨some r1, a1.length⟩ ⟨some r2, a2.length⟩ xs.length
        = .ok (m.set r2 ⟨a2 ++ xs.map some ++ rest2, reg2.live, reg2.dyn⟩) := by
  induction xs with
  | nil =>
    intro m r1 r2 reg1 reg2 a1 rest1 a2 pre rest2 _ _ _ _ h2 _ hc2 hn
    have : pre = [] := List.length_eq_zero.1 hn
    subst this
    simp only [uninitialized_copy_loop, List.length_nil, List.map_nil]
    rw [← hc2, set_self_of_getElem? h2]
  | cons x xs ih =>
    intro m r1 r2 reg1 reg2 a1 rest1 a2 pre rest2 hne h1 hl1 hc1 h2 hl2 hc2 hn
    obtain ⟨p, pre', rfl⟩ := List.exists_cons_of_length_eq_add_one hn
    have ho : a2.length < reg2.cells.length := by rw [hc2]; simp
    have hx : reg1.cells[a1.length]? = some (some x) := by
      rw [hc1]; exact getElem?_prefix_map_cons _ _ _ _
    simp only [uninitialized_copy_loop, List.length_cons, load_ok h1 hl1 hx,
      construct_at_ok x h2 hl2 ho, Ptr.add_mk]
    have hset : reg2.cells.set a2.length (some x) = (a2 ++ [some x]) ++ pre' ++ rest2 := by
      rw [hc2]; simp
    have hc1' : reg1.cells = (a1 ++ [some x]) ++ xs.map some ++ rest1 := by
      rw [hc1]; simp
    have := ih (m.set r2 ⟨reg2.cells.set a2.length (some x), reg2.live, reg2.dyn⟩) r1 r2 reg1
      ⟨reg2.cells.set a2.length (some x), reg2.live, reg2.dyn⟩ (a1 ++ [some x]) rest1
      (a2 ++ [some x]) pre' rest2 hne
      (by rw [getElem?_set_other (Ne.symm hne)]; exact h1) hl1 hc1'
      (getElem?_set_same h2) hl2 hset (by simpa using hn)
    simp only [List.length_append, List.length_singleton] at this
    rw [this, List.set_set]
    simp

/-- Destroying the objects `xs` that follow the prefix `a` of a live array. -/
theorem _destruct_elements_loop_ok (xs : List T) :
    ∀ (m : Mem T) (r : Nat) (reg : Region T) (a rest : List (Option T)),
      m[r]? = some reg → reg.live = true → reg.cells = a ++ xs.map some ++ rest →
      small_vector._destruct_elements_loop m ⟨some r, 0⟩ a.length xs.length
        = .ok (m.set r ⟨a ++ List.replicate xs.length none ++ rest, reg.live, reg.dyn⟩) := by
  induction xs with
  | nil =>
    intro m r reg a rest h _ hc
    simp only [small_vector._destruct_elements_loop, List.length_nil, List.replicate_zero]
    rw [show a ++ [] ++ rest = reg.cells by rw [hc]; simp, set_self_of_getElem? h]
  | cons x xs ih =>
    intro m r reg a rest h hl hc
    have hx : reg.cells[0 + a.length]? = some (some x) := by
      rw [hc, Nat.zero_add]; exact getElem?_prefix_map_cons _ _ _ _
    simp only [small_vector._destruct_elements_loop, List.length_cons, Ptr.add_mk,
      destroy_at_ok h hl hx]
    have hset : reg.cells.set (0 + a.length) none = (a ++ [none]) ++ xs.map some ++ rest := by
      rw [hc]; simp
    have := ih (m.set r ⟨reg.cells.set (0 + a.length) none, reg.live, reg.dyn⟩) r
      ⟨reg.cells.set (0 + a.length) none, reg.live, reg.dyn⟩ (a ++ [none]) rest
      (getElem?_set_same h) hl hset
    simp only [List.length_append, List.length_singleton] at this
    rw [this, List.set_set]
    simp [List.replicate_succ]

/-- Reading back the objects `xs` that follow the prefix `a` of a live array. -/
theorem read_range_ok (xs : List T) :
    ∀ (m : Mem T) (r : Nat) (reg : Region T) (a rest : List (Option T)),
      m[r]? = some reg → reg.live = true → reg.cells = a ++ xs.map some ++ rest →
      read_range m ⟨some r, 0⟩ a.length xs.length = .ok xs := by
  induction xs with
  | nil => intro m r reg a rest _ _ _; rfl
  | cons x xs ih =>
    intro m r reg a rest h hl hc
    have hx : reg.cells[0 + a.length]? = some (some x) := by
      rw [hc, Nat.zero_add]; exact getElem?_prefix_map_cons _ _ _ _
    have hc' : reg.cells = (a ++ [some x]) ++ xs.map some ++ rest := by rw [hc]; simp
    have := ih m r reg (a ++ [some x]) rest h hl hc'
    simp only [List.length_append, List.length_singleton] at this
    simp only [read_range, List.length_cons, Ptr.add_mk, load_ok h hl hx, this]

end mem


/-! ## What the constructors build -/

section ctors
variable {T : Type}
open small_vector

theorem getElem?_length_append_cons {α : Type} (m : List α) (a : α) (l : List α) :
    (m ++ a :: l)[m.length]? = some a := getElem?_prefix_cons m a l

theorem set_length_append_cons {α : Type} (m : List α) (a b : α) (l : List α) :
    (m ++ a :: l).set m.length b = m ++ b :: l := by
  rw [List.set_append_right _ _ (le_refl _)]; simp

theorem clobber_fresh (m : Mem T) (n : Nat) (l d : Bool) (rest : Mem T) :
    Mem.clobber (m ++ ⟨List.replicate n none, l, d⟩ :: rest) m.length
      = m ++ ⟨List.replicate n none, l, d⟩ :: rest := by
  unfold Mem.clobber
  rw [getElem?_length_append_cons]
  simp only
  rw [set_length_append_cons, List.map_replicate]

theorem SCN_ASSERT_true (c : Config) : SCN_ASSERT c true = .ok () := by
  simp [SCN_ASSERT]

theorem ctor_ensure_ok (c : Config) (m : Mem T) (v : small_vector) (count : Nat)
    (h1 : v.data.to_bool = true) (h2 : v.size = count) (h3 : v.size ≤ v.capacity c) :
    ctor_ensure c m v count = .ok (m, v) := by
  simp [ctor_ensure, SCN_ENSURE, h1, h2, SCN_ASSERT_true]
  rw [h2] at h3
  simp [h3, SCN_ASSERT_true]

/-- Default construction with inline capacity. -/
theorem ctor_stack (c : Config) (m : Mem T) (hN : c.StackN ≠ 0) :
    ctor c m = .ok (m ++ [⟨List.replicate c.StackN none, true, false⟩],
      ⟨⟨some m.length, 0⟩, .stack 0, m.length⟩) := by
  simp [ctor, declare, Mem.enter, hN, _construct_stack_storage, clobber_fresh,
    reinterpret_unconstructed_data, SCN_ENSURE, small_vector.size, SCN_ASSERT_true]

/-- Default construction without inline capacity. -/
theorem ctor_heap (c : Config) (m : Mem T) (hN : c.StackN = 0) :
    ctor c m = .ok (m ++ [⟨[], true, false⟩], ⟨nullptr, .heap 0 0, m.length⟩) := by
  have := clobber_fresh m 0 true false []
  simp only [List.replicate_zero] at this
  simp [ctor, declare, Mem.enter, hN, _construct_heap_storage, this,
    SCN_ENSURE, small_vector.size, SCN_ASSERT_true]

theorem fill_fresh (m : Mem T) (n : Nat) (l d : Bool) (x : T) (rest : Mem T) (hl : l = true) :
    uninitialized_fill_loop (m ++ ⟨List.replicate n none, l, d⟩ :: rest) ⟨some m.length, 0⟩ x n
      = .ok (m ++ ⟨List.replicate n (some x), l, d⟩ :: rest) := by
  have := uninitialized_fill_loop_ok x n (m ++ ⟨List.replicate n none, l, d⟩ :: rest) m.length
    ⟨List.replicate n none, l, d⟩ [] (List.replicate n none) []
    (getElem?_length_append_cons _ _ _) hl (by simp) (by simp)
  simpa [set_length_append_cons] using this

/-- The counted constructor with a value, `count` fitting the inline slots. -/
theorem ctor_count_value_stack (c : Config) (m : Mem T) (n : Nat) (x : T)
    (hN : c.StackN ≠ 0) (hn : n ≤ c.StackN) :
    ctor_count_value c m n x = .ok (m ++ [⟨List.replicate c.StackN (some x), true, false⟩],
      ⟨⟨some m.length, 0⟩, .stack n, m.length⟩) := by
  simp only [ctor_count_value, declare, Mem.enter, can_be_small, hn, decide_True, Bool.not_true,
    Bool.false_eq_true, ↓reduceIte, _construct_stack_storage, clobber_fresh,
    reinterpret_unconstructed_data, hN, uninitialized_fill, Ptr.add_mk, Nat.zero_add,
    Nat.sub_zero, fill_fresh m c.StackN true false x [] rfl, reinterpret_data]
  apply ctor_ensure_ok
  · rfl
  · rfl
  · exact hn

/-- The counted constructor, `count` fitting the inline slots. -/
theorem ctor_count_stack [Inhabited T] (c : Config) (m : Mem T) (n : Nat)
    (hN : c.StackN ≠ 0) (hn : n ≤ c.StackN) :
    ctor_count c m n = .ok (m ++ [⟨List.replicate n (some (default : T)) ++
        List.replicate (c.StackN - n) none, true, false⟩],
      ⟨⟨some m.length, 0⟩, .stack n, m.length⟩) := by
  have hfill := uninitialized_fill_loop_ok (default : T) n
    (m ++ [⟨List.replicate c.StackN none, true, false⟩]) m.length
    ⟨List.replicate c.StackN none, true, false⟩ [] (List.replicate n none)
    (List.replicate (c.StackN - n) none) (getElem?_length_append_cons _ _ _) rfl
    (by simp [← List.replicate_add, Nat.add_sub_cancel' hn]) (by simp)
  simp only [List.length_nil, set_length_append_cons, List.nil_append] at hfill
  simp only [ctor_count, declare, Mem.enter, can_be_small, hn, decide_True, Bool.not_true,
    Bool.false_eq_true, ↓reduceIte, _construct_stack_storage, clobber_fresh,
    reinterpret_unconstructed_data, hN, uninitialized_fill_default_construct, Ptr.add_mk,
    Nat.zero_add, Nat.sub_zero, hfill, reinterpret_data]
  apply ctor_ensure_ok
  · rfl
  · rfl
  · exact hn

theorem PTRDIFF_MAX_lt (c : Config) : PTRDIFF_MAX c < 2 ^ (SIZE_BITS c - 1) := by
  unfold PTRDIFF_MAX
  have : 0 < 2 ^ (SIZE_BITS c - 1) := Nat.pos_pow_of_pos _ (by decide)
  omega

/-- The counted constructor with a value, `count` beyond the inline slots. -/
theorem ctor_count_value_heap (c : Config) (m : Mem T) (n : Nat) (x : T)
    (hn : c.StackN < n) (ha : n ≤ PTRDIFF_MAX c) :
    ctor_count_value c m n x = .ok
      (m ++ [⟨List.replicate c.StackN none, true, false⟩, ⟨List.replicate n (some x), true, true⟩],
      ⟨⟨some (m.length + 1), 0⟩, .heap n (next_pow2 c n), m.length⟩) := by
  have hn' : ¬ n ≤ c.StackN := by omega
  have hfill := fill_fresh (m ++ [⟨List.replicate c.StackN none, true, false⟩]) n true true x []
    rfl
  simp only [List.length_append, List.length_singleton, List.append_assoc,
    List.singleton_append] at hfill
  simp only [ctor_count_value, declare, Mem.enter, can_be_small, hn', decide_False, Bool.not_false,
    ↓reduceIte, _construct_heap_storage, clobber_fresh, operator_new_array, ha,
    List.length_append, List.length_singleton, List.append_assoc, List.singleton_append,
    uninitialized_fill, Ptr.add_mk, Nat.zero_add, Nat.sub_zero, hfill, _set_heap]
  apply ctor_ensure_ok
  · rfl
  · rfl
  · exact next_pow2_ge c n (by omega) (le_of_lt (lt_of_le_of_lt ha (PTRDIFF_MAX_lt c)))

/-- The counted constructor, `count` beyond the inline slots. -/
theorem ctor_count_heap [Inhabited T] (c : Config) (m : Mem T) (n : Nat)
    (hn : c.StackN < n) (ha : n ≤ PTRDIFF_MAX c) :
    ctor_count c m n = .ok
      (m ++ [⟨List.replicate c.StackN none, true, false⟩,
        ⟨List.replicate n (some (default : T)), true, true⟩],
      ⟨⟨some (m.length + 1), 0⟩, .heap n (next_pow2 c n), m.length⟩) := by
  have hn' : ¬ n ≤ c.StackN := by omega
  have hfill := fill_fresh (m ++ [⟨List.replicate c.StackN none, true, false⟩]) n true true
    (default : T) [] rfl
  simp only [List.length_append, List.length_singleton, List.append_assoc,
    List.singleton_append] at hfill
  simp only [ctor_count, declare, Mem.enter, can_be_small, hn', decide_False, Bool.not_false,
    ↓reduceIte, _construct_heap_storage, clobber_fresh, operator_new_array, ha,
    List.length_append, List.length_singleton, List.append_assoc, List.singleton_append,
    uninitialized_fill_default_construct, Ptr.add_mk, Nat.zero_add, Nat.sub_zero, hfill,
    _set_heap]
  apply ctor_ensure_ok
  · rfl
  · rfl
  · exact next_pow2_ge c n (by omega) (le_of_lt (lt_of_le_of_lt ha (PTRDIFF_MAX_lt c)))

/-- The counted constructors throw when the array cannot be allocated. -/
theorem ctor_count_value_bad_alloc (c : Config) (m : Mem T) (n : Nat) (x : T)
    (hn : c.StackN < n) (ha : PTRDIFF_MAX c < n) :
    ctor_count_value c m n x = .error .bad_alloc := by
  have hn' : ¬ n ≤ c.StackN := by omega
  have ha' : ¬ n ≤ PTRDIFF_MAX c := by omega
  simp [ctor_count_value, declare, Mem.enter, can_be_small, hn', _construct_heap_storage,
    operator_new_array, ha']

theorem ctor_count_bad_alloc [Inhabited T] (c : Config) (m : Mem T) (n : Nat)
    (hn : c.StackN < n) (ha : PTRDIFF_MAX c < n) :
    ctor_count (T := T) c m n = .error .bad_alloc := by
  have hn' : ¬ n ≤ c.StackN := by omega
  have ha' : ¬ n ≤ PTRDIFF_MAX c := by omega
  simp [ctor_count, declare, Mem.enter, can_be_small, hn', _construct_heap_storage,
    operator_new_array, ha']

end ctors


section claims_construction
variable {T : Type}
open small_vector

/-- C1 (as amended). For every `n` with `1 ≤ n ≤ 2^(w-1)`, `w` the width of `size_t`,
`next_pow2 n` is the smallest power of two that is `≥ n`: it is a power of two, it is
`≥ n`, and every power of two `≥ n` is `≥` it. -/
theorem next_pow2_least (c : Config) (n : Nat) (h1 : 1 ≤ n) (h2 : n ≤ 2 ^ (SIZE_BITS c - 1)) :
    (∃ k, next_pow2 c n = 2 ^ k) ∧ n ≤ next_pow2 c n ∧
      ∀ k, n ≤ 2 ^ k → next_pow2 c n ≤ 2 ^ k :=
  ⟨⟨_, next_pow2_eq c n h1 h2⟩, next_pow2_ge c n h1 h2,
    fun k hk => next_pow2_le_pow c n k h1 h2 hk⟩

theorem next_pow2_least_witness :
    (1 ≤ 65 ∧ 65 ≤ 2 ^ (SIZE_BITS ⟨64, true, true⟩ - 1)) ∧
      ((∃ k, next_pow2 ⟨64, true, true⟩ 65 = 2 ^ k) ∧ 65 ≤ next_pow2 ⟨64, true, true⟩ 65 ∧
        ∀ k, 65 ≤ 2 ^ k → next_pow2 ⟨64, true, true⟩ 65 ≤ 2 ^ k) :=
  ⟨⟨by decide, by decide⟩, next_pow2_least ⟨64, true, true⟩ 65 (by decide) (by decide)⟩

/-- C1, counterexample to the claim as stated: `2^63 + 1` is a `size_t` value `≥ 1` on a
64-bit platform, and `next_pow2` returns 0 for it, which is not `≥ n`. -/
theorem next_pow2_wraps :
    1 ≤ 2 ^ 63 + 1 ∧ 2 ^ 63 + 1 < SIZE_MOD ⟨64, true, true⟩ ∧
      next_pow2 ⟨64, true, true⟩ (2 ^ 63 + 1) = 0 ∧
      ¬ (2 ^ 63 + 1 ≤ next_pow2 ⟨64, true, true⟩ (2 ^ 63 + 1)) := by
  decide

/-- C2 (as amended). For every inline capacity `N ≥ 1` and every count `n ≤ N`, the size
constructor and the size+value constructor return a container with `is_small()`,
`size() == n` and `capacity() == N`; the default constructor returns one with
`is_small()`, size 0 and capacity `N`. -/
theorem counted_ctor_inline [Inhabited T] (c : Config) (m : Mem T) (n : Nat) (x : T)
    (hN : c.StackN ≠ 0) (hn : n ≤ c.StackN) :
    (∃ m1 v1, ctor_count c m n = .ok (m1, v1) ∧
        v1.is_small = true ∧ v1.size = n ∧ v1.capacity c = c.StackN) ∧
    (∃ m1 v1, ctor_count_value c m n x = .ok (m1, v1) ∧
        v1.is_small = true ∧ v1.size = n ∧ v1.capacity c = c.StackN) ∧
    (∃ m1 v1, ctor c m = .ok (m1, v1) ∧
        v1.is_small = true ∧ v1.size = 0 ∧ v1.capacity c = c.StackN) :=
  ⟨⟨_, _, ctor_count_stack c m n hN hn, rfl, rfl, rfl⟩,
    ⟨_, _, ctor_count_value_stack c m n x hN hn, rfl, rfl, rfl⟩,
    ⟨_, _, ctor_stack c m hN, rfl, rfl, rfl⟩⟩

theorem counted_ctor_inline_witness :
    ((⟨64, true, true⟩ : Config).StackN ≠ 0 ∧ 32 ≤ (⟨64, true, true⟩ : Config).StackN) ∧
    ((∃ m1 v1, ctor_count ⟨64, true, true⟩ ([] : Mem Nat) 32 = .ok (m1, v1) ∧
        v1.is_small = true ∧ v1.size = 32 ∧ v1.capacity ⟨64, true, true⟩ = 64) ∧
    (∃ m1 v1, ctor_count_value ⟨64, true, true⟩ ([] : Mem Nat) 32 42 = .ok (m1, v1) ∧
        v1.is_small = true ∧ v1.size = 32 ∧ v1.capacity ⟨64, true, true⟩ = 64) ∧
    (∃ m1 v1, ctor ⟨64, true, true⟩ ([] : Mem Nat) = .ok (m1, v1) ∧
        v1.is_small = true ∧ v1.size = 0 ∧ v1.capacity ⟨64, true, true⟩ = 64)) :=
  ⟨⟨by decide, by decide⟩,
    counted_ctor_inline ⟨64, true, true⟩ ([] : Mem Nat) 32 42 (by decide) (by decide)⟩

/-- C2, counterexample to the claim as stated: with `N = 0` and `n = 0` (so `0 ≤ n ≤ N`)
and the assertion macros compiled in, neither counted constructor returns a container:
the inline branch leaves `data()` null and the closing `SCN_ENSURE(data())` fires. -/
theorem counted_ctor_zero_capacity_aborts :
    ctor_count ⟨0, true, true⟩ ([] : Mem Nat) 0 = .error .contract ∧
      ctor_count_value ⟨0, true, true⟩ ([] : Mem Nat) 0 42 = .error .contract :=
  ⟨rfl, rfl⟩

/-- C3. For every inline capacity `N` and every count `n > N`: when an array of `n`
elements can be allocated, the size constructor and the size+value constructor return a
container with `is_small() == false`, `size() == n` and
`capacity() == next_pow2(n) ≥ n`; when it cannot, both throw and no container is built. -/
theorem counted_ctor_heap [Inhabited T] (c : Config) (m : Mem T) (n : Nat) (x : T)
    (hn : c.StackN < n) :
    (n ≤ PTRDIFF_MAX c →
      (∃ m1 v1, ctor_count c m n = .ok (m1, v1) ∧ v1.is_small = false ∧ v1.size = n ∧
          v1.capacity c = next_pow2 c n ∧ n ≤ next_pow2 c n) ∧
      (∃ m1 v1, ctor_count_value c m n x = .ok (m1, v1) ∧ v1.is_small = false ∧ v1.size = n ∧
          v1.capacity c = next_pow2 c n ∧ n ≤ next_pow2 c n)) ∧
    (PTRDIFF_MAX c < n →
      ctor_count c m n = .error .bad_alloc ∧ ctor_count_value c m n x = .error .bad_alloc) := by
  refine ⟨fun ha => ?_, fun ha => ⟨ctor_count_bad_alloc c m n hn ha,
    ctor_count_value_bad_alloc c m n x hn ha⟩⟩
  have hge : n ≤ next_pow2 c n :=
    next_pow2_ge c n (by omega) (le_of_lt (lt_of_le_of_lt ha (PTRDIFF_MAX_lt c)))
  exact ⟨⟨_, _, ctor_count_heap c m n hn ha, rfl, rfl, rfl, hge⟩,
    ⟨_, _, ctor_count_value_heap c m n x hn ha, rfl, rfl, rfl, hge⟩⟩

theorem counted_ctor_heap_witness :
    (⟨64, true, true⟩ : Config).StackN < 128 ∧ 128 ≤ PTRDIFF_MAX ⟨64, true, true⟩ ∧
    (∃ m1 v1, ctor_count ⟨64, true, true⟩ ([] : Mem Nat) 128 = .ok (m1, v1) ∧
        v1.is_small = false ∧ v1.size = 128 ∧ v1.capacity ⟨64, true, true⟩ = 128) ∧
    (∃ m1 v1, ctor_count_value ⟨64, true, true⟩ ([] : Mem Nat) 128 42 = .ok (m1, v1) ∧
        v1.is_small = false ∧ v1.size = 128 ∧ v1.capacity ⟨64, true, true⟩ = 128) := by
  have h := (counted_ctor_heap ⟨64, true, true⟩ ([] : Mem Nat) 128 42 (by decide)).1 (by decide)
  have e : next_pow2 ⟨64, true, true⟩ 128 = 128 := by decide
  rw [e] at h
  obtain ⟨⟨m1, v1, h1, h2, h3, h4, _⟩, ⟨m2, v2, k1, k2, k3, k4, _⟩⟩ := h
  exact ⟨by decide, by decide, ⟨m1, v1, h1, h2, h3, h4⟩, ⟨m2, v2, k1, k2, k3, k4⟩⟩

end claims_construction


section claims_access
variable {T : Type}
open small_vector

theorem getElem?_length_succ_append {α : Type} (m : List α) (a b : α) (l : List α) :
    (m ++ a :: b :: l)[m.length + 1]? = some b := by
  have := getElem?_prefix_cons (m ++ [a]) b l
  simpa using this

theorem operator_index_ok (c : Config) (v : small_vector) (i : Nat) (h : i < v.size) :
    v.operator_index c i = .ok (v.begin.add i) := by
  simp [operator_index, SCN_EXPECT, h, SCN_ASSERT_true]

theorem front_ok (c : Config) (v : small_vector) (h : 0 < v.size) :
    v.front c = .ok v.begin := by
  have : v.empty = false := by simp [small_vector.empty]; omega
  simp [front, SCN_EXPECT, this, SCN_ASSERT_true]

theorem back_ok (c : Config) (v : small_vector) (b : Option Nat) (hp : v.m_ptr = ⟨b, 0⟩)
    (h : 0 < v.size) : v.back c = .ok ⟨b, v.size - 1⟩ := by
  have : v.empty = false := by simp [small_vector.empty]; omega
  have h1 : 1 ≤ v.size := h
  simp [back, SCN_EXPECT, this, SCN_ASSERT_true, end_, begin, data, hp, Ptr.sub, h1]

theorem accessors_of_loads (c : Config) (m1 : Mem T) (v1 : small_vector) (r : Nat) (x : T)
    (hp : v1.m_ptr = ⟨some r, 0⟩) (h1 : 0 < v1.size)
    (hload : ∀ i, i < v1.size → load m1 ⟨some r, i⟩ = .ok x) :
    (∀ i, i < v1.size → deref m1 (v1.operator_index c i) = .ok x) ∧
      deref m1 (v1.front c) = .ok x ∧ deref m1 (v1.back c) = .ok x ∧
      v1.operator_index c 0 = .ok v1.data ∧
      deref m1 (v1.operator_index c (v1.size - 1)) = deref m1 (v1.back c) := by
  refine ⟨fun i hi => ?_, ?_, ?_, ?_, ?_⟩
  · rw [operator_index_ok c _ i hi]
    simpa [deref, begin, data, hp] using hload i hi
  · rw [front_ok c _ h1]
    simpa [deref, begin, data, hp] using hload 0 h1
  · rw [back_ok c _ (some r) hp h1]
    exact hload (v1.size - 1) (by omega)
  · rw [operator_index_ok c _ 0 h1]; simp [begin, data, hp]
  · rw [back_ok c _ (some r) hp h1, operator_index_ok c _ _ (by omega)]
    simp [deref, begin, data, hp]

/-- C4. For every `N`, every `count ≥ 1` and every value `x` (with an array of `count`
elements allocatable when `count > N`), the size+value constructor returns a container of
size `count` that holds `x` at every index: `operator[](i) == x` for all `i < size()`,
`front() == x`, `back() == x`, `&operator[](0) == data()`, and
`operator[](size()-1) == back()`; this covers the Inline and the Heap case. -/
theorem ctor_count_value_holds_value (c : Config) (m : Mem T) (count : Nat) (x : T)
    (h1 : 1 ≤ count) (ha : c.StackN < count → count ≤ PTRDIFF_MAX c) :
    ∃ m1 v1, ctor_count_value c m count x = .ok (m1, v1) ∧ v1.size = count ∧
      v1.is_small = decide (count ≤ c.StackN) ∧
      (∀ i, i < v1.size → deref m1 (v1.operator_index c i) = .ok x) ∧
      deref m1 (v1.front c) = .ok x ∧ deref m1 (v1.back c) = .ok x ∧
      v1.operator_index c 0 = .ok v1.data ∧
      deref m1 (v1.operator_index c (v1.size - 1)) = deref m1 (v1.back c) := by
  by_cases hn : count ≤ c.StackN
  · have hN : c.StackN ≠ 0 := by omega
    refine ⟨_, _, ctor_count_value_stack c m count x hN hn, rfl, by simp [is_small, hn], ?_⟩
    exact accessors_of_loads c _ _ m.length x rfl h1 (fun i hi =>
      load_ok (getElem?_length_append_cons _ _ _) rfl
        (by rw [List.getElem?_replicate]; simp [size] at hi ⊢; omega))
  · have hn' : c.StackN < count := by omega
    refine ⟨_, _, ctor_count_value_heap c m count x hn' (ha hn'), rfl, by simp [is_small, hn],
      ?_⟩
    exact accessors_of_loads c _ _ (m.length + 1) x rfl h1 (fun i hi =>
      load_ok (getElem?_length_succ_append _ _ _ _) rfl
        (by rw [List.getElem?_replicate]; simp [size] at hi ⊢; omega))

theorem ctor_count_value_holds_value_witness :
    1 ≤ 128 ∧ ((⟨64, true, true⟩ : Config).StackN < 128 → 128 ≤ PTRDIFF_MAX ⟨64, true, true⟩) ∧
    ∃ m1 v1, ctor_count_value ⟨64, true, true⟩ ([] : Mem Nat) 128 42 = .ok (m1, v1) ∧
      v1.size = 128 ∧
      v1.is_small = decide (128 ≤ (⟨64, true, true⟩ : Config).StackN) ∧
      (∀ i, i < v1.size → deref m1 (v1.operator_index ⟨64, true, true⟩ i) = .ok 42) ∧
      deref m1 (v1.front ⟨64, true, true⟩) = .ok 42 ∧
      deref m1 (v1.back ⟨64, true, true⟩) = .ok 42 ∧
      v1.operator_index ⟨64, true, true⟩ 0 = .ok v1.data ∧
      deref m1 (v1.operator_index ⟨64, true, true⟩ (v1.size - 1))
        = deref m1 (v1.back ⟨64, true, true⟩) :=
  ⟨by decide, fun _ => by decide,
    ctor_count_value_holds_value ⟨64, true, true⟩ ([] : Mem Nat) 128 42 (by decide)
      (fun _ => by decide)⟩

end claims_access


/-! ## Reallocation -/

section realloc
variable {T : Type}
open small_vector

theorem getElem?_append_old {α : Type} (m l : List α) (i : Nat) (a : α) (h : m[i]? = some a) :
    (m ++ l)[i]? = some a := by
  rw [List.getElem?_append_left (lt_of_getElem? h)]; exact h

theorem Owns.size_eq {c : Config} {m : Mem T} {v : small_vector} {xs : List T}
    (h : Owns c m v xs) : v.size = xs.length := by
  cases h <;> rfl

theorem Owns.elements {c : Config} {m : Mem T} {v : small_vector} {xs : List T}
    (h : Owns c m v xs) : v.elements m = .ok xs := by
  cases h with
  | stack inl xs rest _ hm _ =>
    exact read_range_ok xs m inl _ [] rest hm rfl (by simp)
  | heap inl r cap xs rest hm =>
    exact read_range_ok xs m r _ [] rest hm rfl (by simp)
  | null inl cap => rfl

theorem Owns.inline_ok {c : Config} {m : Mem T} {inl s : Nat} {p : Ptr} {xs : List T}
    (h : Owns c m ⟨p, .stack s, inl⟩ xs) : InlineOk c m ⟨p, .stack s, inl⟩ := by
  cases h with
  | stack inl xs rest _ hm hl => exact ⟨_, hm, rfl, rfl, by simpa using hl⟩

/-- `_realloc` on a container that holds `xs`: it returns, the container is Heap with the
requested capacity, `data()` is the fresh array, that array holds `xs` followed by raw
slots, and the inline array of the object stays in place. -/
theorem _realloc_ok (c : Config) (m : Mem T) (v : small_vector) (xs : List T) (new_cap : Nat)
    (h : Owns c m v xs) (hcap : xs.length ≤ new_cap) (ha : new_cap ≤ PTRDIFF_MAX c) :
    ∃ m1, _realloc c m v new_cap
        = .ok (m1, ⟨⟨some m.length, 0⟩, .heap xs.length new_cap, v.inl⟩) ∧
      m1.length = m.length + 1 ∧
      m1[m.length]? = some ⟨xs.map some ++ List.replicate (new_cap - xs.length) none, true, true⟩ ∧
      (InlineOk c m v → InlineOk c m1 v) := by
  have hfresh : (m ++ [(⟨List.replicate new_cap none, true, true⟩ : Region T)])[m.length]?
      = some ⟨List.replicate new_cap none, true, true⟩ := getElem?_length_append_cons _ _ _
  have hsplit : List.replicate new_cap (none : Option T)
      = [] ++ List.replicate xs.length none ++ List.replicate (new_cap - xs.length) none := by
    simp [← List.replicate_add, Nat.add_sub_cancel' hcap]
  cases h with
  | stack inl xs rest hN hm hl =>
    have hlt := lt_of_getElem? hm
    have hmove := uninitialized_copy_loop_ok xs
      (m ++ [(⟨List.replicate new_cap none, true, true⟩ : Region T)]) inl m.length _ _ [] rest []
      (List.replicate xs.length none) (List.replicate (new_cap - xs.length) none)
      (by omega) (getElem?_append_old _ _ _ _ hm) rfl (by simp) hfresh rfl hsplit (by simp)
    simp only [List.length_nil, set_length_append_cons, List.nil_append] at hmove
    have hdes := _destruct_elements_loop_ok xs
      (m ++ [(⟨xs.map some ++ List.replicate (new_cap - xs.length) none, true, true⟩ : Region T)])
      inl _ [] rest (getElem?_append_old _ _ _ _ hm) rfl (by simp)
    simp only [List.length_nil, List.nil_append] at hdes
    refine ⟨Mem.clobber ((m ++ [(⟨xs.map some ++ List.replicate (new_cap - xs.length) none, true, true⟩ : Region T)]).set inl
      ⟨List.replicate xs.length none ++ rest, true, false⟩) inl, ?_, ?_, ?_, fun _ => ?_⟩
    · simp only [_realloc, operator_new_array, ha, ↓reduceIte, uninitialized_move, begin, data,
        end_, small_vector.size, Ptr.add_mk, Nat.zero_add, Nat.sub_zero, hmove, _destruct,
        _destruct_elements, hdes, _set_size, is_small, Bool.not_true, Bool.false_eq_true,
        _destruct_stack_storage, _construct_heap_storage, _set_heap]
    · simp [Mem.clobber]
      split <;> simp
    · unfold Mem.clobber
      rw [getElem?_set_same (getElem?_append_old _ _ _ _ hm)]
      simp only
      rw [getElem?_set_other (by omega), getElem?_set_other (by omega)]
      exact getElem?_length_append_cons _ _ _
    · unfold Mem.clobber
      rw [getElem?_set_same (getElem?_append_old _ _ _ _ hm)]
      simp only
      refine ⟨_, getElem?_set_same (getElem?_set_same (getElem?_append_old _ _ _ _ hm)), rfl, rfl,
        ?_⟩
      simpa using hl
  | heap inl r cap xs rest hm =>
    have hlt := lt_of_getElem? hm
    have hinl : InlineOk c m ⟨⟨some r, 0⟩, .heap xs.length cap, inl⟩ → ∀ R' : Region T,
        InlineOk c ((m ++ [(⟨xs.map some ++ List.replicate (new_cap - xs.length) none, true, true⟩ :
          Region T)]).set r R') ⟨⟨some r, 0⟩, .heap xs.length cap, inl⟩ := by
      rintro ⟨R, hR, h1, h2, h3⟩ R'
      have hne : r ≠ inl := by
        rintro rfl
        rw [hm] at hR
        cases hR
        simp at h2
      refine ⟨R, ?_, h1, h2, h3⟩
      rw [getElem?_set_other hne]
      exact getElem?_append_old _ _ _ _ hR
    have hmove := uninitialized_copy_loop_ok xs
      (m ++ [(⟨List.replicate new_cap none, true, true⟩ : Region T)]) r m.length _ _ [] rest []
      (List.replicate xs.length none) (List.replicate (new_cap - xs.length) none)
      (by omega) (getElem?_append_old _ _ _ _ hm) rfl (by simp) hfresh rfl hsplit (by simp)
    simp only [List.length_nil, set_length_append_cons, List.nil_append] at hmove
    have hdes := _destruct_elements_loop_ok xs
      (m ++ [(⟨xs.map some ++ List.replicate (new_cap - xs.length) none, true, true⟩ : Region T)])
      r _ [] rest (getElem?_append_old _ _ _ _ hm) rfl (by simp)
    simp only [List.length_nil, List.nil_append] at hdes
    by_cases hc0 : cap = 0
    · refine ⟨(m ++ [(⟨xs.map some ++ List.replicate (new_cap - xs.length) none, true, true⟩ : Region T)]).set r
        ⟨List.replicate xs.length none ++ rest, true, true⟩, ?_, ?_, ?_, fun hi => hinl hi _⟩
      · simp only [_realloc, operator_new_array, ha, ↓reduceIte, uninitialized_move, begin, data,
          end_, small_vector.size, Ptr.add_mk, Nat.zero_add, Nat.sub_zero, hmove, _destruct,
          _destruct_elements, hdes, _set_size, is_small, Bool.not_false,
          _destruct_heap_storage, capacity, hc0, _set_heap]
        rfl
      · simp
      · rw [getElem?_set_other (by omega)]
        exact getElem?_length_append_cons _ _ _
    · have hdel : operator_delete_array
          ((m ++ [(⟨xs.map some ++ List.replicate (new_cap - xs.length) none, true, true⟩ :
            Region T)]).set r ⟨List.replicate xs.length none ++ rest, true, true⟩) ⟨some r, 0⟩
          = .ok (((m ++ [(⟨xs.map some ++ List.replicate (new_cap - xs.length) none, true, true⟩ :
            Region T)]).set r ⟨List.replicate xs.length none ++ rest, true, true⟩).set r
              ⟨List.replicate xs.length none ++ rest, false, true⟩) := by
        simp only [operator_delete_array]
        rw [getElem?_set_same (getElem?_append_old _ _ _ _ hm)]
        simp
      refine ⟨((m ++ [(⟨xs.map some ++ List.replicate (new_cap - xs.length) none, true, true⟩ : Region T)]).set r
        ⟨List.replicate xs.length none ++ rest, true, true⟩).set r
          ⟨List.replicate xs.length none ++ rest, false, true⟩, ?_, ?_, ?_, fun hi => ?_⟩
      · simp only [_realloc, operator_new_array, ha, ↓reduceIte, uninitialized_move, begin, data,
          end_, small_vector.size, Ptr.add_mk, Nat.zero_add, Nat.sub_zero, hmove, _destruct,
          _destruct_elements, hdes, _set_size, is_small, Bool.not_false,
          _destruct_heap_storage, capacity, hc0, _set_heap, bne_iff_ne, ne_eq,
          not_false_eq_true, hdel]
        rfl
      · simp
      · rw [getElem?_set_other (by omega), getElem?_set_other (by omega)]
        exact getElem?_length_append_cons _ _ _
      · rw [List.set_set]; exact hinl hi _
  | null inl cap =>
    refine ⟨m ++ [(⟨List.replicate new_cap none, true, true⟩ : Region T)], ?_, ?_, ?_, ?_⟩
    · simp only [_realloc, operator_new_array, ha, ↓reduceIte, uninitialized_move, begin, data,
        end_, small_vector.size, nullptr, Ptr.add_mk, Nat.zero_add, Nat.sub_zero,
        uninitialized_copy_loop, _destruct, _destruct_elements, _destruct_elements_loop,
        _set_size, is_small, Bool.not_false, _destruct_heap_storage, capacity,
        operator_delete_array, _set_heap, List.length_nil, ite_self]
      rfl
    · simp
    · simp
    · rintro ⟨R, hR, h1, h2, h3⟩
      exact ⟨R, getElem?_append_old _ _ _ _ hR, h1, h2, h3⟩

end realloc


/-! ## Appending -/

section push
variable {T : Type}
open small_vector

theorem pow_bits_bounds (c : Config) :
    2 ^ (SIZE_BITS c - 2) ≤ PTRDIFF_MAX c ∧ 2 ^ (SIZE_BITS c - 2) < SIZE_MOD c ∧
      2 ^ (SIZE_BITS c - 2) ≤ 2 ^ (SIZE_BITS c - 1) := by
  unfold PTRDIFF_MAX SIZE_MOD
  rcases SIZE_BITS_cases c with h | h <;> rw [h] <;> decide

/-- A request of at most `2^(w-2)` elements is rounded up to a capacity that `new[]` can
provide. -/
theorem next_pow2_allocatable (c : Config) (n : Nat) (h1 : 1 ≤ n)
    (h : n ≤ 2 ^ (SIZE_BITS c - 2)) :
    n ≤ next_pow2 c n ∧ next_pow2 c n ≤ PTRDIFF_MAX c ∧ n % SIZE_MOD c = n := by
  obtain ⟨b1, b2, b3⟩ := pow_bits_bounds c
  refine ⟨next_pow2_ge c n h1 (le_trans h b3), ?_, Nat.mod_eq_of_lt (lt_of_le_of_lt h b2)⟩
  exact le_trans (next_pow2_le_pow c n _ h1 (le_trans h b3) h) b1

theorem _realloc_owns (c : Config) (m : Mem T) (v : small_vector) (xs : List T) (new_cap : Nat)
    (h : Owns c m v xs) (hcap : xs.length ≤ new_cap) (ha : new_cap ≤ PTRDIFF_MAX c) :
    ∃ m1 v1, _realloc c m v new_cap = .ok (m1, v1) ∧ Owns c m1 v1 xs ∧ Backed c m1 v1 ∧
      (InlineOk c m v → InlineOk c m1 v1) ∧
      v1.is_small = false ∧ v1.capacity c = new_cap ∧ v1.size = xs.length := by
  obtain ⟨m1, hre, _, hbuf, hin⟩ := _realloc_ok c m v xs new_cap h hcap ha
  refine ⟨m1, _, hre, Owns.heap v.inl m.length new_cap xs _ hbuf, ?_, hin, rfl, rfl, rfl⟩
  exact ⟨_, hbuf, by simp [capacity]; omega⟩

theorem construct_at_end (m : Mem T) (r : Nat) (xs : List T) (p : Option T)
    (rest : List (Option T)) (d : Bool) (x : T)
    (hm : m[r]? = some ⟨xs.map some ++ p :: rest, true, d⟩) :
    construct_at m ⟨some r, xs.length⟩ x
      = .ok (m.set r ⟨(xs ++ [x]).map some ++ rest, true, d⟩) := by
  rw [construct_at_ok x hm rfl (by simp)]
  have := set_length_append_cons (xs.map some) p (some x) rest
  simp only [List.length_map] at this
  simp [this]

/-- One `push_back` on a container that holds `xs` and whose capacity is backed by its
array: it returns, and the container then holds `xs ++ [x]`. -/
theorem push_back_ok (c : Config) (m : Mem T) (v : small_vector) (xs : List T) (x : T)
    (h : Owns c m v xs) (hb : Backed c m v) (hk : xs.length + 1 ≤ 2 ^ (SIZE_BITS c - 2)) :
    ∃ m1 v1, push_back c m v x = .ok (m1, v1) ∧ Owns c m1 v1 (xs ++ [x]) ∧ Backed c m1 v1 ∧
      (xs.length ≠ v.capacity c → v1.is_small = v.is_small ∧ v1.capacity c = v.capacity c) ∧
      (xs.length = v.capacity c →
        v1.is_small = false ∧ v1.capacity c = next_pow2 c (xs.length + 1)) := by
  obtain ⟨a1, a2, a3⟩ := next_pow2_allocatable c (xs.length + 1) (by omega) hk
  have hsz := h.size_eq
  by_cases hfull : xs.length = v.capacity c
  · obtain ⟨m1, hre, hlen, hbuf, _⟩ :=
      _realloc_ok c m v xs (next_pow2 c (xs.length + 1)) h (by omega) a2
    have hpos : next_pow2 c (xs.length + 1) - xs.length
        = (next_pow2 c (xs.length + 1) - xs.length - 1) + 1 := by omega
    have hcon := construct_at_ok x (o := xs.length) hbuf rfl (by simp; omega)
    have hcells : (xs.map some ++ List.replicate (next_pow2 c (xs.length + 1) - xs.length) none).set
        xs.length (some x) = (xs ++ [x]).map some ++
          List.replicate (next_pow2 c (xs.length + 1) - xs.length - 1) none := by
      rw [hpos, List.replicate_succ]
      have := set_length_append_cons (xs.map some) (none : Option T) (some x)
        (List.replicate (next_pow2 c (xs.length + 1) - xs.length - 1) none)
      simp only [List.length_map] at this
      simp [this]
    simp only [hcells] at hcon
    refine ⟨m1.set m.length
        ⟨(xs ++ [x]).map some ++ List.replicate (next_pow2 c (xs.length + 1) - xs.length - 1) none,
          true, true⟩,
      ⟨⟨some m.length, 0⟩, .heap (xs.length + 1) (next_pow2 c (xs.length + 1)), v.inl⟩,
      ?_, ?_, ?_, fun hh => absurd hfull hh, fun _ => ⟨rfl, rfl⟩⟩
    · simp only [push_back, _prepare_push_back, hsz, hfull, beq_self_eq_true, ↓reduceIte]
      rw [← hfull, a3, hre]
      simp only [small_vector.size, Ptr.add_mk, Nat.zero_add, hcon, _set_size, a3]
    · have := Owns.heap (c := c) (m := m1.set m.length
        ⟨(xs ++ [x]).map some ++ List.replicate (next_pow2 c (xs.length + 1) - xs.length - 1) none,
          true, true⟩) v.inl m.length (next_pow2 c (xs.length + 1)) (xs ++ [x]) _
        (getElem?_set_same hbuf)
      simpa using this
    · refine ⟨_, getElem?_set_same hbuf, ?_⟩
      simp [capacity]; omega
  · cases h with
    | stack inl xs rest hN hm hl =>
      have hfull' : xs.length ≠ c.StackN := hfull
      obtain ⟨p, rest', rfl⟩ : ∃ p rest', rest = p :: rest' := by
        cases rest with
        | nil => simp at hl; omega
        | cons p rest' => exact ⟨p, rest', rfl⟩
      have hcon := construct_at_end m inl xs p rest' false x hm
      refine ⟨m.set inl ⟨(xs ++ [x]).map some ++ rest', true, false⟩,
        ⟨⟨some inl, 0⟩, .stack (xs.length + 1), inl⟩, ?_, ?_, ?_, fun _ => ⟨rfl, rfl⟩,
        fun hh => absurd hh hfull⟩
      · have hne : (xs.length == c.StackN) = false := by simpa using hfull'
        simp only [push_back, _prepare_push_back, small_vector.size, capacity, hne,
          Bool.false_eq_true, ↓reduceIte, Ptr.add_mk, Nat.zero_add, hcon, _set_size, a3]
      · have := Owns.stack (c := c) (m := m.set inl ⟨(xs ++ [x]).map some ++ rest', true, false⟩)
          inl (xs ++ [x]) rest' hN (getElem?_set_same hm) (by simp at hl ⊢; omega)
        simpa using this
      · refine ⟨_, getElem?_set_same hm, ?_⟩
        simp [capacity] at hl ⊢; omega
    | heap inl r cap xs rest hm =>
      have hfull' : xs.length ≠ cap := hfull
      obtain ⟨R', hR', hlen⟩ := hb
      rw [hm] at hR'
      have hlen' : xs.length + rest.length = cap := by
        cases hR'; simpa [capacity] using hlen
      obtain ⟨p, rest', rfl⟩ : ∃ p rest', rest = p :: rest' := by
        cases rest with
        | nil => simp at hlen'; omega
        | cons p rest' => exact ⟨p, rest', rfl⟩
      have hcon := construct_at_end m r xs p rest' true x hm
      refine ⟨m.set r ⟨(xs ++ [x]).map some ++ rest', true, true⟩,
        ⟨⟨some r, 0⟩, .heap (xs.length + 1) cap, inl⟩, ?_, ?_, ?_, fun _ => ⟨rfl, rfl⟩,
        fun hh => absurd hh hfull⟩
      · have hne' : (xs.length == cap) = false := by simpa using hfull'
        simp only [push_back, _prepare_push_back, small_vector.size, capacity, hne',
          Bool.false_eq_true, ↓reduceIte, Ptr.add_mk, Nat.zero_add, hcon, _set_size, a3]
      · have := Owns.heap (c := c) (m := m.set r ⟨(xs ++ [x]).map some ++ rest', true, true⟩)
          inl r cap (xs ++ [x]) rest' (getElem?_set_same hm)
        simpa using this
      · refine ⟨_, getElem?_set_same hm, ?_⟩
        simp [capacity] at hlen' ⊢; omega
    | null inl cap =>
      have : cap = 0 := hb
      exact absurd (by simp [capacity, this]) hfull

end push


section claims_push
variable {T : Type}
open small_vector

/-- A chain of `push_back`s on a container that holds `xs`: it returns, the container then
holds `xs ++ ys`, and it stays Inline with capacity `N` as long as everything fits. -/
theorem push_back_all_ok (c : Config) (ys : List T) :
    ∀ (m : Mem T) (v : small_vector) (xs : List T), Owns c m v xs → Backed c m v →
      xs.length + ys.length ≤ 2 ^ (SIZE_BITS c - 2) →
      ∃ m1 v1, push_back_all c ys m v = .ok (m1, v1) ∧ Owns c m1 v1 (xs ++ ys) ∧
        Backed c m1 v1 ∧
        (v.is_small = true → xs.length + ys.length ≤ c.StackN → v1.is_small = true) := by
  induction ys with
  | nil =>
    intro m v xs h hb _
    exact ⟨m, v, rfl, by simpa using h, hb, fun hs _ => hs⟩
  | cons y ys ih =>
    intro m v xs h hb hk
    simp only [List.length_cons] at hk
    obtain ⟨m1, v1, hp, ho, hb1, hne, _⟩ := push_back_ok c m v xs y h hb (by omega)
    obtain ⟨m2, v2, hp2, ho2, hb2, hs2⟩ := ih m1 v1 (xs ++ [y]) ho hb1 (by simp; omega)
    refine ⟨m2, v2, ?_, by simpa using ho2, hb2, fun hs hfit => ?_⟩
    · simp only [push_back_all, hp, hp2]
    · simp only [List.length_cons] at hfit
      have hcap : v.capacity c = c.StackN := by
        cases h with
        | stack => rfl
        | heap => simp [is_small] at hs
        | null => simp [is_small] at hs
      have := hne (by omega)
      exact hs2 (by rw [this.1]; exact hs) (by simp; omega)

theorem push_back_all_append (c : Config) (xs ys : List T) (m : Mem T) (v : small_vector) :
    push_back_all c (xs ++ ys) m v =
      match push_back_all c xs m v with
      | .error e => .error e
      | .ok (m1, v1) => push_back_all c ys m1 v1 := by
  induction xs generalizing m v with
  | nil => rfl
  | cons x xs ih =>
    simp only [List.cons_append, push_back_all]
    cases push_back c m v x with
    | error e => rfl
    | ok s => exact ih s.1 s.2

/-- The default constructor returns a container that holds nothing and whose capacity is
backed. -/
theorem ctor_owns (c : Config) (m : Mem T) :
    ∃ m0 v0, ctor c m = .ok (m0, v0) ∧ Owns c m0 v0 [] ∧ Backed c m0 v0 ∧
      v0.is_small = decide (c.StackN ≠ 0) ∧ v0.capacity c = c.StackN := by
  by_cases hN : c.StackN = 0
  · refine ⟨_, _, ctor_heap c m hN, ?_, ?_, by simp [is_small, hN], by simp [capacity, hN]⟩
    · exact Owns.null m.length 0
    · rfl
  · refine ⟨_, _, ctor_stack c m hN, ?_, ?_, by simp [is_small, hN], rfl⟩
    · have := Owns.stack (c := c)
        (m := m ++ [(⟨List.replicate c.StackN none, true, false⟩ : Region T)]) m.length []
        (List.replicate c.StackN none) hN (getElem?_length_append_cons _ _ _) (by simp)
      simpa using this
    · exact ⟨_, getElem?_length_append_cons _ _ _, by simp [capacity]⟩

theorem Owns.back {c : Config} {m : Mem T} {v : small_vector} {xs : List T} {x : T}
    (h : Owns c m v (xs ++ [x])) : deref m (v.back c) = .ok x := by
  have hsz := h.size_eq
  have hpos : 0 < v.size := by rw [hsz]; simp
  generalize hzs : xs ++ [x] = zs at h hsz
  cases h with
  | stack inl zs rest _ hm _ =>
    rw [back_ok c _ (some inl) rfl hpos]
    refine load_ok hm rfl ?_
    subst hzs
    have := getElem?_prefix_cons (xs.map some) (some x) rest
    simpa [small_vector.size] using this
  | heap inl r cap zs rest hm =>
    rw [back_ok c _ (some r) rfl hpos]
    refine load_ok hm rfl ?_
    subst hzs
    have := getElem?_prefix_cons (xs.map some) (some x) rest
    simpa [small_vector.size] using this
  | null => simp at hzs

/-- C6. For every `N` (including `N = 0`) and every finite sequence `xs` (short enough
that each growth step can be allocated: at most `2^(w-2)` values, `w` the width of
`size_t`), pushing the values of `xs` in order onto a default-constructed container
returns a container with `size() == |xs|` whose elements read through `data()[0..size())`
are `xs` in that order, and `back()` is the last value pushed. In particular, at every
split `xs = ys ++ zs` the container holds `ys` after the first `|ys|` appends and
`ys ++ zs` after the rest: what is stored stays in place, in order, across the promotion
and every growth. -/
theorem push_back_sequence (c : Config) (m : Mem T) (xs : List T)
    (hk : xs.length ≤ 2 ^ (SIZE_BITS c - 2)) :
    ∃ m1 v1, pushed c m xs = .ok (m1, v1) ∧ v1.size = xs.length ∧
      v1.elements m1 = .ok xs ∧
      (∀ ys x, xs = ys ++ [x] → deref m1 (v1.back c) = .ok x) ∧
      (∀ ys zs, xs = ys ++ zs → ∃ m0 v0, pushed c m ys = .ok (m0, v0) ∧
        v0.elements m0 = .ok ys ∧ push_back_all c zs m0 v0 = .ok (m1, v1)) := by
  obtain ⟨mc, vc, hc, ho, hb, _, _⟩ := ctor_owns c m
  obtain ⟨m1, v1, hp, ho1, _, _⟩ := push_back_all_ok c xs mc vc [] ho hb (by simpa using hk)
  simp only [List.nil_append] at ho1
  refine ⟨m1, v1, by simp only [pushed, hc, hp], ho1.size_eq, ho1.elements,
    fun ys x hx => ?_, fun ys zs hx => ?_⟩
  · subst hx
    exact ho1.back
  · subst hx
    obtain ⟨m0, v0, hp0, ho0, _, _⟩ := push_back_all_ok c ys mc vc [] ho hb
      (by simp at hk ⊢; omega)
    simp only [List.nil_append] at ho0
    refine ⟨m0, v0, by simp only [pushed, hc, hp0], ho0.elements, ?_⟩
    rw [push_back_all_append, hp0] at hp
    exact hp

theorem push_back_sequence_witness :
    [1, 2, 3, 4, 5, 6].length ≤ 2 ^ (SIZE_BITS ⟨4, true, true⟩ - 2) ∧
    ∃ m1 v1, pushed ⟨4, true, true⟩ ([] : Mem Nat) [1, 2, 3, 4, 5, 6] = .ok (m1, v1) ∧
      v1.size = [1, 2, 3, 4, 5, 6].length ∧ v1.elements m1 = .ok [1, 2, 3, 4, 5, 6] ∧
      (∀ ys x, [1, 2, 3, 4, 5, 6] = ys ++ [x] →
        deref m1 (v1.back ⟨4, true, true⟩) = .ok x) ∧
      (∀ ys zs, [1, 2, 3, 4, 5, 6] = ys ++ zs →
        ∃ m0 v0, pushed ⟨4, true, true⟩ ([] : Mem Nat) ys = .ok (m0, v0) ∧
          v0.elements m0 = .ok ys ∧ push_back_all ⟨4, true, true⟩ zs m0 v0 = .ok (m1, v1)) :=
  ⟨by decide, push_back_sequence ⟨4, true, true⟩ ([] : Mem Nat) [1, 2, 3, 4, 5, 6] (by decide)⟩

/-- C5. For every inline capacity `N ≥ 1` (small enough that the promotion buffer can be
allocated: `N + 1 ≤ 2^(w-2)`), starting from a default-constructed container: after
`push_back` of any `k ≤ N` values the container is Inline with capacity `N`; after
`push_back` of any `N + 1` values it is Heap, of size `N + 1`, and its capacity is
`next_pow2(N + 1)`, a power of two `≥ N + 1`. -/
theorem push_back_promotion (c : Config) (m : Mem T) (xs : List T) (hN : 1 ≤ c.StackN)
    (hN2 : c.StackN + 1 ≤ 2 ^ (SIZE_BITS c - 2)) :
    (xs.length ≤ c.StackN →
      ∃ m1 v1, pushed c m xs = .ok (m1, v1) ∧ v1.is_small = true ∧ v1.size = xs.length ∧
        v1.capacity c = c.StackN) ∧
    (xs.length = c.StackN + 1 →
      ∃ m1 v1, pushed c m xs = .ok (m1, v1) ∧ v1.is_small = false ∧ v1.size = c.StackN + 1 ∧
        v1.capacity c = next_pow2 c (c.StackN + 1) ∧ (∃ k, v1.capacity c = 2 ^ k) ∧
        c.StackN + 1 ≤ v1.capacity c) := by
  obtain ⟨m0, v0, hc, ho, hb, hs0, _⟩ := ctor_owns c m
  have hs0' : v0.is_small = true := by rw [hs0]; simp; omega
  have hsmall : ∀ ys : List T, ys.length ≤ c.StackN →
      ∃ m1 v1, push_back_all c ys m0 v0 = .ok (m1, v1) ∧ Owns c m1 v1 ys ∧ Backed c m1 v1 ∧
        v1.is_small = true := by
    intro ys hys
    obtain ⟨m1, v1, hp, ho1, hb1, hs1⟩ :=
      push_back_all_ok c ys m0 v0 [] ho hb (by simp; omega)
    exact ⟨m1, v1, hp, by simpa using ho1, hb1, hs1 hs0' (by simpa using hys)⟩
  have hcap_small : ∀ (m1 : Mem T) (v1 : small_vector), v1.is_small = true →
      v1.capacity c = c.StackN := by
    intro m1 v1 h
    cases hst : v1.m_storage <;> simp [is_small, capacity, hst] at h ⊢
  refine ⟨fun hk => ?_, fun hk => ?_⟩
  · obtain ⟨m1, v1, hp, ho1, _, hs1⟩ := hsmall xs hk
    exact ⟨m1, v1, by simp only [pushed, hc, hp], hs1, ho1.size_eq, hcap_small m1 v1 hs1⟩
  · obtain ⟨ys, x, rfl⟩ : ∃ ys x, xs = ys ++ [x] := by
      rcases List.eq_nil_or_concat xs with h | ⟨ys, x, h⟩
      · subst h; simp at hk
      · exact ⟨ys, x, by simpa using h⟩
    have hys : ys.length = c.StackN := by simpa using hk
    obtain ⟨m1, v1, hp, ho1, hb1, hs1⟩ := hsmall ys (le_of_eq hys)
    have hcap1 := hcap_small m1 v1 hs1
    obtain ⟨m2, v2, hp2, ho2, _, _, hfull⟩ :=
      push_back_ok c m1 v1 ys x ho1 hb1 (by omega)
    obtain ⟨hh1, hh2⟩ := hfull (by omega)
    rw [hys] at hh2
    have hb := le_trans hN2 (pow_bits_bounds c).2.2
    have p1 : ∃ k, next_pow2 c (c.StackN + 1) = 2 ^ k :=
      ⟨_, next_pow2_eq c (c.StackN + 1) (by omega) hb⟩
    have p2 := next_pow2_ge c (c.StackN + 1) (by omega) hb
    refine ⟨m2, v2, ?_, hh1, ?_, hh2, ?_, ?_⟩
    · simp only [pushed, hc, push_back_all_append, hp, push_back_all, hp2]
    · rw [ho2.size_eq]; simp [hys]
    · rw [hh2]; exact p1
    · rw [hh2]; exact p2

theorem push_back_promotion_witness :
    (1 ≤ (⟨64, true, true⟩ : Config).StackN ∧
      (⟨64, true, true⟩ : Config).StackN + 1 ≤ 2 ^ (SIZE_BITS ⟨64, true, true⟩ - 2)) ∧
    (∃ m1 v1, pushed ⟨64, true, true⟩ ([] : Mem Nat) (List.range 64) = .ok (m1, v1) ∧
      v1.is_small = true ∧ v1.size = 64 ∧ v1.capacity ⟨64, true, true⟩ = 64) ∧
    (∃ m1 v1, pushed ⟨64, true, true⟩ ([] : Mem Nat) (List.range 65) = .ok (m1, v1) ∧
      v1.is_small = false ∧ v1.size = 65 ∧ v1.capacity ⟨64, true, true⟩ = 128) := by
  have h := push_back_promotion ⟨64, true, true⟩ ([] : Mem Nat)
  have e : next_pow2 ⟨64, true, true⟩ 65 = 128 := by decide
  obtain ⟨m1, v1, a1, a2, a3, a4⟩ := (h (List.range 64) (by decide) (by decide)).1 (by simp)
  obtain ⟨m2, v2, b1, b2, b3, b4, _⟩ := (h (List.range 65) (by decide) (by decide)).2 (by simp)
  exact ⟨⟨by decide, by decide⟩, ⟨m1, v1, a1, a2, by simpa using a3, a4⟩,
    ⟨m2, v2, b1, b2, b3, by rw [b4]; exact e⟩⟩

end claims_push


/-! ## What a successful run tells about the memory it ran on -/

section inversion
variable {T : Type}
open small_vector

theorem Mem.region_inv {m : Mem T} {p : Ptr} {r : Nat} {reg : Region T}
    (h : m.region p = .ok (r, reg)) : p.base = some r ∧ m[r]? = some reg ∧ reg.live = true := by
  unfold Mem.region at h
  split at h
  · cases h
  · rename_i r' hb
    split at h
    · cases h
    · rename_i reg' hr
      split at h
      · rename_i hl
        cases h
        exact ⟨hb, hr, hl⟩
      · cases h

theorem load_inv {m : Mem T} {p : Ptr} {x : T} (h : load m p = .ok x) :
    ∃ r reg, p.base = some r ∧ m[r]? = some reg ∧ reg.live = true ∧
      reg.cells[p.off]? = some (some x) := by
  unfold load at h
  split at h
  · cases h
  · rename_i r reg hreg
    obtain ⟨hb, hr, hl⟩ := Mem.region_inv hreg
    split at h
    · cases h
    · cases h
    · rename_i v hc
      cases h
      exact ⟨r, reg, hb, hr, hl, hc⟩

theorem construct_at_inv {m m1 : Mem T} {p : Ptr} {x : T} (h : construct_at m p x = .ok m1) :
    ∃ r reg, p.base = some r ∧ m[r]? = some reg ∧ reg.live = true ∧
      p.off < reg.cells.length ∧
      m1 = m.set r ⟨reg.cells.set p.off (some x), reg.live, reg.dyn⟩ := by
  unfold construct_at at h
  split at h
  · cases h
  · rename_i r reg hreg
    obtain ⟨hb, hr, hl⟩ := Mem.region_inv hreg
    split at h
    · rename_i ho
      cases h
      exact ⟨r, reg, hb, hr, hl, ho, rfl⟩
    · cases h

theorem destroy_at_inv {m m1 : Mem T} {p : Ptr} (h : destroy_at m p = .ok m1) :
    ∃ r reg, p.base = some r ∧ m[r]? = some reg ∧
      m1 = m.set r ⟨reg.cells.set p.off none, reg.live, reg.dyn⟩ := by
  unfold destroy_at at h
  split at h
  · cases h
  · rename_i r reg hreg
    obtain ⟨hb, hr, _⟩ := Mem.region_inv hreg
    split at h
    · cases h
    · cases h
    · cases h
      exact ⟨r, reg, hb, hr, rfl⟩

/-- Destroying elements through `p` leaves every other array as it was. -/
theorem _destruct_elements_loop_frame (n : Nat) :
    ∀ (m m1 : Mem T) (p : Ptr) (i : Nat), _destruct_elements_loop m p i n = .ok m1 →
      m1.length = m.length ∧ ∀ k, p.base ≠ some k → m1[k]? = m[k]? := by
  induction n with
  | zero =>
    intro m m1 p i h
    simp only [_destruct_elements_loop] at h
    cases h
    exact ⟨rfl, fun _ _ => rfl⟩
  | succ n ih =>
    intro m m1 p i h
    simp only [_destruct_elements_loop] at h
    split at h
    · cases h
    · rename_i m' hd
      obtain ⟨r, reg, hb, _, rfl⟩ := destroy_at_inv hd
      obtain ⟨h1, h2⟩ := ih _ _ _ _ h
      refine ⟨by rw [h1, List.length_set], fun k hk => ?_⟩
      rw [h2 k hk, getElem?_set_other]
      rintro rfl
      exact hk hb

theorem operator_delete_array_frame {m m1 : Mem T} {p : Ptr}
    (h : operator_delete_array m p = .ok m1) :
    m1.length = m.length ∧ ∀ k, p.base ≠ some k → m1[k]? = m[k]? := by
  unfold operator_delete_array at h
  split at h
  · split at h
    · cases h; exact ⟨rfl, fun _ _ => rfl⟩
    · cases h
  · rename_i r hb
    split at h
    · cases h
    · split at h
      · cases h
        refine ⟨List.length_set _ _ _, fun k hk => getElem?_set_other ?_⟩
        rintro rfl
        exact hk hb
      · cases h

/-- `_destruct` leaves every array but the one `m_ptr` points into as it was, and resets
the size. -/
theorem _destruct_frame {c : Config} {m m1 : Mem T} {v v1 : small_vector}
    (h : _destruct c m v = .ok (m1, v1)) :
    v1 = v._set_size 0 ∧ m1.length = m.length ∧ ∀ k, v.m_ptr.base ≠ some k → m1[k]? = m[k]? := by
  unfold _destruct _destruct_elements at h
  split at h
  · cases h
  · rename_i m' v' hde
    split at hde
    · cases hde
    · rename_i m'' hloop
      cases hde
      obtain ⟨l1, f1⟩ := _destruct_elements_loop_frame _ _ _ _ _ hloop
      split at h
      · unfold _destruct_heap_storage at h
        split at h
        · split at h
          · cases h
          · rename_i m3 hdel
            cases h
            obtain ⟨l2, f2⟩ := operator_delete_array_frame hdel
            have hp : (v._set_size 0).m_ptr = v.m_ptr := by
              unfold _set_size; split <;> rfl
            rw [hp] at f2
            exact ⟨rfl, by rw [l2, l1], fun k hk => by rw [f2 k hk, f1 k hk]⟩
        · cases h
          exact ⟨rfl, l1, f1⟩
      · unfold _destruct_stack_storage at h
        cases h
        exact ⟨rfl, l1, f1⟩

/-- After a successful copy loop the destination array has an object in each of the `n`
slots written, and is otherwise as before. -/
theorem uninitialized_copy_loop_inv (n : Nat) :
    ∀ (m m1 : Mem T) (src : Ptr) (r j : Nat) (reg : Region T),
      uninitialized_copy_loop m src ⟨some r, j⟩ n = .ok m1 → m[r]? = some reg →
      m1.length = m.length ∧
      ∃ reg1, m1[r]? = some reg1 ∧ reg1.live = reg.live ∧ reg1.dyn = reg.dyn ∧
        reg1.cells.length = reg.cells.length ∧
        (∀ k, j ≤ k → k < j + n → ∃ x, reg1.cells[k]? = some (some x)) ∧
        (∀ k, k < j → reg1.cells[k]? = reg.cells[k]?) := by
  induction n with
  | zero =>
    intro m m1 src r j reg h hr
    simp only [uninitialized_copy_loop] at h
    cases h
    exact ⟨rfl, reg, hr, rfl, rfl, rfl, fun k h1 h2 => by omega, fun _ _ => rfl⟩
  | succ n ih =>
    intro m m1 src r j reg h hr
    simp only [uninitialized_copy_loop] at h
    split at h
    · cases h
    · rename_i x _
      split at h
      · cases h
      · rename_i m' hcon
        obtain ⟨r', reg', hb, hr', _, ho, rfl⟩ := construct_at_inv hcon
        cases hb
        rw [hr] at hr'
        cases hr'
        simp only [Ptr.add_mk] at h
        obtain ⟨l1, reg1, g1, g2, g3, g4, g5, g6⟩ := ih _ _ _ _ _ _ h (getElem?_set_same hr)
        refine ⟨by rw [l1, List.length_set], reg1, g1, g2, g3, by simpa using g4, ?_, ?_⟩
        · intro k h1 h2
          by_cases hk : k = j
          · subst hk
            refine ⟨x, ?_⟩
            rw [g6 k (by omega)]
            simpa using List.getElem?_set_self ho
          · exact g5 k (by omega) (by omega)
        · intro k hk
          rw [g6 k (by omega)]
          simp only
          rw [getElem?_set_other (by omega)]

theorem all_some_eq_map : ∀ (l : List (Option T)),
    (∀ k, k < l.length → ∃ x, l[k]? = some (some x)) → ∃ xs : List T, l = xs.map some
  | [], _ => ⟨[], rfl⟩
  | a :: l, h => by
    obtain ⟨x, hx⟩ := h 0 (by simp)
    obtain ⟨xs, hxs⟩ := all_some_eq_map l (fun k hk => by
      obtain ⟨y, hy⟩ := h (k + 1) (by simp; omega)
      exact ⟨y, by simpa using hy⟩)
    simp at hx
    exact ⟨x :: xs, by simp [hx, hxs]⟩

end inversion


section claims_shrink
variable {T : Type}
open small_vector

/-- A successful `_realloc(size())` of a non-empty Heap container: the new array has
exactly `size()` slots, each holding an object, and the container is Heap with
`capacity() == size()`. -/
theorem _realloc_inv (c : Config) (m m1 : Mem T) (p : Ptr) (s cap inl : Nat) (v1 : small_vector)
    (hpos : 1 ≤ s) (h : _realloc c m ⟨p, .heap s cap, inl⟩ s = .ok (m1, v1)) :
    ∃ xs : List T, xs.length = s ∧ s ≤ PTRDIFF_MAX c ∧
      v1 = ⟨⟨some m.length, 0⟩, .heap s s, inl⟩ ∧
      m1[m.length]? = some ⟨xs.map some, true, true⟩ := by
  unfold _realloc operator_new_array at h
  split at h
  · cases h
  · rename_i m' ptr hnew
    split at hnew
    · rename_i ha
      cases hnew
      simp only at h
      split at h
      · cases h
      · rename_i m2 hmove
        split at h
        · cases h
        · rename_i m3 v3 hdes
          obtain ⟨hv3, _, hframe⟩ := _destruct_frame hdes
          subst hv3
          simp only [_set_size, is_small, Bool.false_eq_true, ↓reduceIte, _set_heap,
            small_vector.size] at h
          cases h
          -- the copy loop ran at least once, reading through `m_ptr`
          simp only [uninitialized_move, end_, begin, data, small_vector.size, Ptr.add,
            Nat.add_sub_cancel_left] at hmove
          have hfresh : (m ++ [(⟨List.replicate s none, true, true⟩ : Region T)])[m.length]?
              = some ⟨List.replicate s none, true, true⟩ :=
            getElem?_length_append_cons _ _ _
          obtain ⟨_, reg1, g1, g2, g3, g4, g5, _⟩ :=
            uninitialized_copy_loop_inv _ _ _ _ _ _ _ hmove hfresh
          have hsrc : p.base ≠ some m.length := by
            intro hb
            obtain ⟨n, rfl⟩ : ∃ n, s = n + 1 := ⟨s - 1, by omega⟩
            simp only [uninitialized_copy_loop] at hmove
            split at hmove
            · cases hmove
            · rename_i x hload
              obtain ⟨r, reg, hb', hr, _, hc⟩ := load_inv hload
              rw [hb] at hb'
              cases hb'
              rw [getElem?_length_append_cons] at hr
              cases hr
              rw [List.getElem?_replicate] at hc
              split at hc <;> cases hc
          obtain ⟨xs, hxs⟩ := all_some_eq_map reg1.cells (fun k hk => g5 k (by omega)
            (by simp at g4; omega))
          refine ⟨xs, ?_, ha, rfl, ?_⟩
          · have := congrArg List.length hxs
            simp at this g4
            omega
          · rw [hframe _ hsrc, g1]
            congr 1
            cases reg1
            simp_all
    · cases hnew

/-- C9. `shrink_to_fit` is idempotent: from every container state on which a call returns,
a second call returns as well and leaves what a caller can observe (mode, size,
capacity, the element sequence read through `data()`) the same as after the first. -/
theorem shrink_to_fit_idempotent (c : Config) (m m1 : Mem T) (v v1 : small_vector)
    (h : shrink_to_fit c m v = .ok (m1, v1)) :
    ∃ m2 v2, shrink_to_fit c m1 v1 = .ok (m2, v2) ∧ observe c m2 v2 = observe c m1 v1 := by
  obtain ⟨p, st, inl⟩ := v
  cases st with
  | stack s =>
    simp only [shrink_to_fit, is_small, ↓reduceIte] at h
    cases h
    exact ⟨m, _, by simp [shrink_to_fit, is_small], rfl⟩
  | heap s cap =>
    simp only [shrink_to_fit, is_small, Bool.false_eq_true, ↓reduceIte, small_vector.size] at h
    split at h
    · rename_i hfit
      have hN : c.StackN < s := by simpa [can_be_small] using hfit
      obtain ⟨xs, hlen, ha, rfl, hbuf⟩ := _realloc_inv c m m1 p s cap inl v1 (by omega) h
      have ho : Owns c m1 ⟨⟨some m.length, 0⟩, .heap s s, inl⟩ xs := by
        have := Owns.heap (c := c) (m := m1) inl m.length s xs [] (by simpa using hbuf)
        rwa [hlen] at this
      obtain ⟨m2, v2, hre, ho2, _, _, hs2, hc2, hz2⟩ :=
        _realloc_owns c m1 _ xs s ho (le_of_eq hlen) ha
      refine ⟨m2, v2, ?_, ?_⟩
      · simp only [shrink_to_fit, is_small, Bool.false_eq_true, ↓reduceIte,
          small_vector.size, hfit]
        exact hre
      · unfold observe
        rw [hs2, hc2, hz2, ho2.elements, ho.elements, hlen]
        rfl
    · rename_i hfit
      have hfit' : can_be_small c s = true := by simpa using hfit
      simp only [make_small, is_small, small_vector.size, hfit', Bool.not_true, Bool.or_self,
        Bool.false_eq_true, ↓reduceIte] at h
      split at h
      · cases h
      · split at h
        · cases h
        · split at h
          · cases h
          · cases h
            refine ⟨_, _, ?_, rfl⟩
            simp [shrink_to_fit, is_small, _set_size, _construct_stack_storage]

theorem shrink_to_fit_idempotent_witness :
    pushed cfg4 [] [1, 2, 3, 4, 5] = .ok (mem_heap5, vec_heap5) ∧
    shrink_to_fit cfg4 mem_heap5 vec_heap5 = .ok (mem_fit5, vec_fit5) ∧
    ∃ m2 v2, shrink_to_fit cfg4 mem_fit5 vec_fit5 = .ok (m2, v2) ∧
      observe cfg4 m2 v2 = observe cfg4 mem_fit5 vec_fit5 :=
  ⟨rfl, rfl, shrink_to_fit_idempotent cfg4 mem_heap5 mem_fit5 vec_heap5 vec_fit5 rfl⟩

end claims_shrink


/-! ## Demotion -/

section demote
variable {T : Type}
open small_vector

theorem clobber_of {m : Mem T} {r : Nat} {R : Region T} (h : m[r]? = some R) :
    m.clobber r = m.set r ⟨List.replicate R.cells.length none, R.live, R.dyn⟩ := by
  simp [Mem.clobber, h]

theorem leave_of {m : Mem T} {r : Nat} {R : Region T} (h : m[r]? = some R) :
    m.leave r = m.set r ⟨R.cells, false, R.dyn⟩ := by
  simp [Mem.leave, h]

theorem uninitialized_move_add (m : Mem T) (p d : Ptr) (n : Nat) :
    uninitialized_move m p (p.add n) d = uninitialized_copy_loop m p d n := by
  simp [uninitialized_move, Ptr.add]

/-- `_destruct` on a Heap container that holds `xs`: it returns, the size is reset, and
every array but the buffer is as before. -/
theorem _destruct_heap_ok (c : Config) (m : Mem T) (r cap inl : Nat) (xs : List T)
    (rest : List (Option T)) (hm : m[r]? = some ⟨xs.map some ++ rest, true, true⟩) :
    ∃ m1, _destruct c m ⟨⟨some r, 0⟩, .heap xs.length cap, inl⟩
        = .ok (m1, ⟨⟨some r, 0⟩, .heap 0 cap, inl⟩) ∧
      m1.length = m.length ∧ ∀ k, k ≠ r → m1[k]? = m[k]? := by
  have hdes := _destruct_elements_loop_ok xs m r _ [] rest hm rfl (by simp)
  simp only [List.length_nil, List.nil_append] at hdes
  by_cases hc0 : cap = 0
  · refine ⟨m.set r ⟨List.replicate xs.length none ++ rest, true, true⟩, ?_, by simp,
      fun k hk => getElem?_set_other (Ne.symm hk)⟩
    simp only [_destruct, _destruct_elements, small_vector.size, hdes, _set_size, is_small,
      Bool.not_false, ↓reduceIte, _destruct_heap_storage, capacity, hc0]
    rfl
  · have hdel : operator_delete_array
        (m.set r ⟨List.replicate xs.length none ++ rest, true, true⟩) ⟨some r, 0⟩
        = .ok ((m.set r ⟨List.replicate xs.length none ++ rest, true, true⟩).set r
            ⟨List.replicate xs.length none ++ rest, false, true⟩) := by
      simp only [operator_delete_array]
      rw [getElem?_set_same hm]
      simp
    refine ⟨(m.set r ⟨List.replicate xs.length none ++ rest, true, true⟩).set r
        ⟨List.replicate xs.length none ++ rest, false, true⟩, ?_, by simp, fun k hk => ?_⟩
    · simp only [_destruct, _destruct_elements, small_vector.size, hdes, _set_size, is_small,
        Bool.not_false, ↓reduceIte, _destruct_heap_storage, capacity, hc0, bne_iff_ne, ne_eq,
        not_false_eq_true, hdel]
    · rw [getElem?_set_other (Ne.symm hk), getElem?_set_other (Ne.symm hk)]

/-- `make_small` on a Heap container that holds `xs`, `xs` fitting the inline slots: it
returns, the container is Inline with the same size, and the inline array holds `xs`;
`m_ptr` is left as it was. -/
theorem make_small_ok (c : Config) (m : Mem T) (v : small_vector) (xs : List T)
    (h : Owns c m v xs) (hi : InlineOk c m v) (hs : v.is_small = false)
    (hfit : xs.length ≤ c.StackN) :
    ∃ m1, make_small c m v = .ok (m1, ⟨v.m_ptr, .stack xs.length, v.inl⟩) ∧
      m1[v.inl]? = some ⟨xs.map some ++ List.replicate (c.StackN - xs.length) none,
        true, false⟩ := by
  obtain ⟨R, hR, hR1, hR2, hR3⟩ := hi
  have hfit' : can_be_small c xs.length = true := by simpa [can_be_small] using hfit
  have hinl : v.inl < m.length := lt_of_getElem? hR
  cases h with
  | stack => simp [is_small] at hs
  | null inl cap =>
    simp only at hR hinl
    have hcl := clobber_of (getElem?_append_old m
      [(⟨List.replicate c.StackN none, true, false⟩ : Region T)] _ _ hR)
    have hlv : ((m ++ [(⟨List.replicate c.StackN none, true, false⟩ : Region T)]).set inl
        ⟨List.replicate R.cells.length none, R.live, R.dyn⟩)[m.length]?
        = some ⟨List.replicate c.StackN none, true, false⟩ := by
      rw [getElem?_set_other (by omega)]
      exact getElem?_length_append_cons _ _ _
    simp only [List.length_nil] at hfit'
    refine ⟨?_, ?_, ?_⟩
    rotate_left
    · simp only [make_small, is_small, small_vector.size, hfit', Bool.not_true, Bool.or_self,
        Bool.false_eq_true, ↓reduceIte, Mem.enter, end_, uninitialized_move_add,
        uninitialized_copy_loop, _destruct,
        _destruct_elements, _destruct_elements_loop, _set_size, Bool.not_false,
        _destruct_heap_storage, capacity, operator_delete_array, nullptr, ite_self,
        _construct_stack_storage, hcl, reinterpret_data,
        List.length_nil, leave_of hlv]
      exact rfl
    · dsimp only
      rw [getElem?_set_other (by omega), getElem?_set_same (getElem?_append_old _ _ _ _ hR)]
      simp [hR1, hR2, hR3]
  | heap inl r cap xs rest hm =>
    simp only at hR hinl
    have hne : r ≠ inl := by
      rintro rfl
      rw [hm] at hR
      cases hR
      simp at hR2
    have hr : r < m.length := lt_of_getElem? hm
    have hsplit : List.replicate c.StackN (none : Option T)
        = [] ++ List.replicate xs.length none ++ List.replicate (c.StackN - xs.length) none := by
      simp [← List.replicate_add, Nat.add_sub_cancel' hfit]
    by_cases hN : c.StackN = 0
    · -- no inline slots: nothing is held, both move loops run zero times
      have hx : xs = [] := List.length_eq_zero.1 (by omega)
      subst hx
      obtain ⟨m2, hdes, hlen, hfr⟩ := _destruct_heap_ok c
        (m ++ [(⟨List.replicate c.StackN none, true, false⟩ : Region T)]) r cap inl [] rest
        (getElem?_append_old _ _ _ _ hm)
      have hR' : m2[inl]? = some R := by
        rw [hfr inl (Ne.symm hne)]; exact getElem?_append_old _ _ _ _ hR
      have hS : (m2.set inl ⟨List.replicate R.cells.length none, R.live, R.dyn⟩)[m.length]?
          = some ⟨List.replicate c.StackN none, true, false⟩ := by
        rw [getElem?_set_other (by omega), hfr _ (by omega)]
        exact getElem?_length_append_cons _ _ _
      simp only [List.length_nil] at hfit' hdes
      refine ⟨?_, ?_, ?_⟩
      rotate_left
      · simp only [make_small, is_small, small_vector.size, hfit', Bool.not_true, Bool.or_self,
          Bool.false_eq_true, ↓reduceIte, Mem.enter, end_, uninitialized_move_add,
          uninitialized_copy_loop, List.length_nil, hdes, _construct_stack_storage,
          clobber_of hR', reinterpret_data, _set_size, leave_of hS]
        exact rfl
      · dsimp only
        rw [getElem?_set_other (by omega), getElem?_set_same hR']
        simp [hR1, hR2, hR3]
    · have hfresh : (m ++ [(⟨List.replicate c.StackN none, true, false⟩ : Region T)])[m.length]?
          = some ⟨List.replicate c.StackN none, true, false⟩ := getElem?_length_append_cons _ _ _
      have hmove1 := uninitialized_copy_loop_ok xs
        (m ++ [(⟨List.replicate c.StackN none, true, false⟩ : Region T)]) r m.length _ _ [] rest
        [] (List.replicate xs.length none) (List.replicate (c.StackN - xs.length) none)
        (by omega) (getElem?_append_old _ _ _ _ hm) rfl (by simp) hfresh rfl hsplit (by simp)
      simp only [List.length_nil, set_length_append_cons, List.nil_append] at hmove1
      obtain ⟨m2, hdes, hlen, hfr⟩ := _destruct_heap_ok c
        (m ++ [(⟨xs.map some ++ List.replicate (c.StackN - xs.length) none, true, false⟩ :
          Region T)]) r cap inl xs rest (getElem?_append_old _ _ _ _ hm)
      have hR' : m2[inl]? = some R := by
        rw [hfr inl (Ne.symm hne)]; exact getElem?_append_old _ _ _ _ hR
      have hS : (m2.set inl ⟨List.replicate R.cells.length none, R.live, R.dyn⟩)[m.length]?
          = some ⟨xs.map some ++ List.replicate (c.StackN - xs.length) none, true, false⟩ := by
        rw [getElem?_set_other (by omega), hfr _ (by omega)]
        exact getElem?_length_append_cons _ _ _
      have hmove2 := uninitialized_copy_loop_ok xs
        (m2.set inl ⟨List.replicate R.cells.length none, R.live, R.dyn⟩) m.length inl _ _ []
        (List.replicate (c.StackN - xs.length) none)
        [] (List.replicate xs.length none) (List.replicate (c.StackN - xs.length) none)
        (by omega) hS rfl (by simp) (getElem?_set_same hR') hR1 (by rw [hR3]; exact hsplit)
        (by simp)
      simp only [List.length_nil, List.nil_append, List.set_set] at hmove2
      have hS2 : (m2.set inl ⟨xs.map some ++ List.replicate (c.StackN - xs.length) none,
          R.live, R.dyn⟩)[m.length]?
          = some ⟨xs.map some ++ List.replicate (c.StackN - xs.length) none, true, false⟩ := by
        rw [getElem?_set_other (by omega), hfr _ (by omega)]
        exact getElem?_length_append_cons _ _ _
      refine ⟨?_, ?_, ?_⟩
      rotate_left
      · simp only [make_small, is_small, small_vector.size, hfit', Bool.not_true, Bool.or_self,
          Bool.false_eq_true, ↓reduceIte, Mem.enter, end_, uninitialized_move_add,
          reinterpret_unconstructed_data, hN, begin, data, hmove1,
          hdes, _construct_stack_storage, clobber_of hR',
          reinterpret_data, hmove2, _set_size, leave_of hS2]
        exact rfl
      · dsimp only
        rw [getElem?_set_other (by omega), getElem?_set_same hR']
        simp [hR1, hR2]

end demote


section reserve_lemmas
variable {T : Type}
open small_vector

/-- What `reserve` does on a container that holds `xs` with `size() ≤ capacity()`: nothing
when the target fits; otherwise, for a target of at most `2^(w-2)` (so that the rounded
capacity can be allocated), the container becomes Heap with capacity
`next_pow2(target)` and holds the same elements. -/
theorem reserve_spec (c : Config) (m : Mem T) (v : small_vector) (xs : List T) (target : Nat)
    (h : Owns c m v xs) (hsz : xs.length ≤ v.capacity c) :
    (target ≤ v.capacity c → reserve c m v target = .ok (m, v)) ∧
    (v.capacity c < target → target ≤ 2 ^ (SIZE_BITS c - 2) →
      ∃ m1 v1, reserve c m v target = .ok (m1, v1) ∧ v1.is_small = false ∧
        v1.capacity c = next_pow2 c target ∧ v1.size = xs.length ∧
        v1.elements m1 = .ok xs ∧ Owns c m1 v1 xs ∧ Backed c m1 v1 ∧
        (InlineOk c m v → InlineOk c m1 v1)) := by
  refine ⟨fun ht => by simp [reserve, ht], fun ht hk => ?_⟩
  obtain ⟨a1, a2, _⟩ := next_pow2_allocatable c target (by omega) hk
  obtain ⟨m1, v1, hre, ho, hb, hi, p1, p2, p3⟩ :=
    _realloc_owns c m v xs (next_pow2 c target) h (by omega) a2
  refine ⟨m1, v1, ?_, p1, p2, p3, ho.elements, ho, hb, hi⟩
  have : ¬ target ≤ v.capacity c := by omega
  simp only [reserve, this, ↓reduceIte, hre]

/-- The `reserve` scenario of the test suite: on an empty `small_vector<Nat, 64>`,
`reserve(64)` changes nothing, and `reserve(256)` gives a Heap container of size 0 and
capacity 256. -/
theorem reserve_scenario :
    ∃ m0 v0, ctor ⟨64, true, true⟩ ([] : Mem Nat) = .ok (m0, v0) ∧
      v0.is_small = true ∧ v0.capacity ⟨64, true, true⟩ = 64 ∧
      reserve ⟨64, true, true⟩ m0 v0 64 = .ok (m0, v0) ∧
      ∃ m1 v1, reserve ⟨64, true, true⟩ m0 v0 256 = .ok (m1, v1) ∧
        v1.is_small = false ∧ v1.size = 0 ∧ v1.capacity ⟨64, true, true⟩ = 256 := by
  obtain ⟨m0, v0, hc, ho, _, hs, hcap⟩ := ctor_owns ⟨64, true, true⟩ ([] : Mem Nat)
  obtain ⟨r1, r2⟩ := reserve_spec ⟨64, true, true⟩ m0 v0 [] 256 ho (by simp)
  obtain ⟨q1, _⟩ := reserve_spec ⟨64, true, true⟩ m0 v0 [] 64 ho (by simp)
  obtain ⟨m1, v1, hre, p1, p2, p3, _⟩ := r2 (by rw [hcap]; decide) (by decide)
  have e : next_pow2 ⟨64, true, true⟩ 256 = 256 := by decide
  exact ⟨m0, v0, hc, by rw [hs]; decide, hcap, q1 (by rw [hcap]), m1, v1, hre, p1,
    by simpa using p3, by rw [p2, e]⟩

end reserve_lemmas


section shrink_spec
variable {T : Type}
open small_vector

/-- What `shrink_to_fit` does on a container that holds `xs`: it returns with the size
unchanged; an Inline container is left as it is; a Heap container whose elements fit the
inline slots becomes Inline with capacity `N`; any other Heap container stays Heap with
capacity exactly `size()` and the same elements. -/
theorem shrink_to_fit_spec (c : Config) (m : Mem T) (v : small_vector) (xs : List T)
    (h : Owns c m v xs) (hi : InlineOk c m v) (ha : xs.length ≤ PTRDIFF_MAX c) :
    ∃ m1 v1, shrink_to_fit c m v = .ok (m1, v1) ∧ v1.size = xs.length ∧
      (v.is_small = true → m1 = m ∧ v1 = v) ∧
      (v.is_small = false → xs.length ≤ c.StackN →
        v1.is_small = true ∧ v1.capacity c = c.StackN) ∧
      (v.is_small = false → c.StackN < xs.length →
        v1.is_small = false ∧ v1.capacity c = xs.length ∧ v1.elements m1 = .ok xs) := by
  have hsz := h.size_eq
  cases hs : v.is_small with
  | true =>
    exact ⟨m, v, by simp [shrink_to_fit, hs], hsz, fun _ => ⟨rfl, rfl⟩, fun hh => by simp at hh,
      fun hh => by simp at hh⟩
  | false =>
    by_cases hfit : xs.length ≤ c.StackN
    · obtain ⟨m1, hmk, _⟩ := make_small_ok c m v xs h hi hs hfit
      refine ⟨m1, ⟨v.m_ptr, .stack xs.length, v.inl⟩, ?_, rfl, fun hh => by simp at hh,
        fun _ _ => ⟨rfl, rfl⟩, fun _ hh => absurd hfit (by omega)⟩
      simp only [shrink_to_fit, hs, Bool.false_eq_true, ↓reduceIte, hsz, can_be_small, hfit,
        decide_True, Bool.not_true, hmk]
    · obtain ⟨m1, v1, hre, ho, _, _, p1, p2, p3⟩ :=
        _realloc_owns c m v xs xs.length h (le_refl _) ha
      refine ⟨m1, v1, ?_, p3, fun hh => by simp at hh, fun _ hh => absurd hh hfit,
        fun _ _ => ⟨p1, p2, ho.elements⟩⟩
      simp only [shrink_to_fit, hs, Bool.false_eq_true, ↓reduceIte, hsz, can_be_small, hfit,
        decide_False, Bool.not_false, hre]

/-- On a container that holds `xs` with `size() ≤ capacity()`, and whose capacity is at
least `N` when it is Heap, `shrink_to_fit` does not increase the capacity. -/
theorem shrink_to_fit_capacity_le (c : Config) (m : Mem T) (v : small_vector) (xs : List T)
    (h : Owns c m v xs) (hi : InlineOk c m v) (ha : xs.length ≤ PTRDIFF_MAX c)
    (hsz : xs.length ≤ v.capacity c) (hcap : v.is_small = false → c.StackN ≤ v.capacity c) :
    ∃ m1 v1, shrink_to_fit c m v = .ok (m1, v1) ∧ v1.capacity c ≤ v.capacity c := by
  obtain ⟨m1, v1, hst, _, q1, q2, q3⟩ := shrink_to_fit_spec c m v xs h hi ha
  refine ⟨m1, v1, hst, ?_⟩
  cases hs : v.is_small with
  | true => rw [(q1 hs).2]
  | false =>
    by_cases hfit : xs.length ≤ c.StackN
    · rw [(q2 hs hfit).2]; exact hcap hs
    · rw [(q3 hs (by omega)).2.1]; exact hsz

/-- For a target `k` of at most `2^(w-2)`, `reserve(k); shrink_to_fit();` on a container
that holds `xs` returns with capacity `N` when `size() ≤ N` and capacity `size()`
otherwise. -/
theorem reserve_then_shrink_to_fit_spec (c : Config) (m : Mem T) (v : small_vector)
    (xs : List T) (k : Nat) (h : Owns c m v xs) (hi : InlineOk c m v)
    (hsz : xs.length ≤ v.capacity c) (hk : k ≤ 2 ^ (SIZE_BITS c - 2))
    (ha : xs.length ≤ PTRDIFF_MAX c) :
    ∃ m1 v1, reserve_then_shrink_to_fit c m v k = .ok (m1, v1) ∧ v1.size = xs.length ∧
      v1.capacity c = if xs.length ≤ c.StackN then c.StackN else xs.length := by
  have key : ∀ (m0 : Mem T) (v0 : small_vector), Owns c m0 v0 xs → InlineOk c m0 v0 →
      ∃ m1 v1, shrink_to_fit c m0 v0 = .ok (m1, v1) ∧ v1.size = xs.length ∧
        v1.capacity c = if xs.length ≤ c.StackN then c.StackN else xs.length := by
    intro m0 v0 h0 hi0
    obtain ⟨m1, v1, hst, hz, q1, q2, q3⟩ := shrink_to_fit_spec c m0 v0 xs h0 hi0 ha
    refine ⟨m1, v1, hst, hz, ?_⟩
    cases hs : v0.is_small with
    | true =>
      rw [(q1 hs).2]
      cases h0 with
      | stack inl xs rest _ _ hl =>
        have : xs.length ≤ c.StackN := by omega
        simp [capacity, this]
      | heap => simp [is_small] at hs
      | null => simp [is_small] at hs
    | false =>
      by_cases hfit : xs.length ≤ c.StackN
      · rw [(q2 hs hfit).2]; simp [hfit]
      · rw [(q3 hs (by omega)).2.1]; simp [hfit]
  obtain ⟨r1, r2⟩ := reserve_spec c m v xs k h hsz
  by_cases hkc : k ≤ v.capacity c
  · obtain ⟨m1, v1, hst, rest⟩ := key m v h hi
    exact ⟨m1, v1, by simp only [reserve_then_shrink_to_fit, r1 hkc, hst], rest⟩
  · obtain ⟨m0, v0, hre, _, _, _, _, ho, _, hi0⟩ := r2 (by omega) hk
    obtain ⟨m1, v1, hst, rest⟩ := key m0 v0 ho (hi0 hi)
    exact ⟨m1, v1, by simp only [reserve_then_shrink_to_fit, hre, hst], rest⟩

end shrink_spec


section claims_reserve
variable {T : Type}
open small_vector

/-- C7, the code at a failing input. An Inline `small_vector<Nat, 4>` holding 1, 2 (built
by two `push_back`s) and the target `2^64 - 1 > capacity()`: `next_pow2` wraps to 0,
`_realloc(0)` allocates an array of no slots and moves the first element past its end. -/
theorem reserve_wrapped_target_overruns :
    pushed cfg4 [] [1, 2] = .ok (mem_inline2, vec_inline2) ∧
    vec_inline2.capacity cfg4 < 2 ^ 64 - 1 ∧ 2 ^ 64 - 1 < SIZE_MOD cfg4 ∧
    next_pow2 cfg4 (2 ^ 64 - 1) = 0 ∧
    reserve cfg4 mem_inline2 vec_inline2 (2 ^ 64 - 1) = .error .out_of_bounds :=
  ⟨rfl, by decide, by decide, by decide, rfl⟩

/-- C8, the code at a failing input. A Heap `small_vector<Nat, 4>` holding 1..5 and
`k = 2^63 + 1`: `reserve(k)` followed by `shrink_to_fit()` does not return a container
of capacity `size()`; `reserve` already moves the elements past the end of a
zero-length array. -/
theorem reserve_then_shrink_overruns :
    pushed cfg4 [] [1, 2, 3, 4, 5] = .ok (mem_heap5, vec_heap5) ∧
    vec_heap5.capacity cfg4 < 2 ^ 63 + 1 ∧ 2 ^ 63 + 1 < SIZE_MOD cfg4 ∧
    reserve_then_shrink_to_fit cfg4 mem_heap5 vec_heap5 (2 ^ 63 + 1) = .error .out_of_bounds :=
  ⟨rfl, by decide, by decide, rfl⟩

/-- C10, the code at a failing input. A default-constructed `small_vector<Nat, 4>`,
`reserve(2^64 - 1)` (which returns: Heap, capacity 0), then `shrink_to_fit()`: the
capacity goes from 0 up to 4. -/
theorem shrink_to_fit_raises_capacity :
    ∃ m0 v0 m1 v1 m2 v2, ctor cfg4 ([] : Mem Nat) = .ok (m0, v0) ∧
      reserve cfg4 m0 v0 (2 ^ 64 - 1) = .ok (m1, v1) ∧
      shrink_to_fit cfg4 m1 v1 = .ok (m2, v2) ∧
      v1.is_small = false ∧ v1.size = 0 ∧ v1.capacity cfg4 = 0 ∧
      v2.is_small = true ∧ v2.size = 0 ∧ v2.capacity cfg4 = 4 :=
  ⟨[⟨[none, none, none, none], true, false⟩], ⟨⟨some 0, 0⟩, .stack 0, 0⟩,
    [⟨[none, none, none, none], true, false⟩, ⟨[], true, true⟩], ⟨⟨some 1, 0⟩, .heap 0 0, 0⟩,
    [⟨[none, none, none, none], true, false⟩, ⟨[], true, true⟩,
      ⟨[none, none, none, none], false, false⟩], ⟨⟨some 1, 0⟩, .stack 0, 0⟩,
    rfl, rfl, rfl, rfl, rfl, rfl, rfl, rfl, rfl⟩

end claims_reserve


/-! ## Copy construction and copy assignment -/

section copy
variable {T : Type}
open small_vector

/-- A container keeps what it holds when the memory changes only outside the arrays
present so far. -/
theorem Owns.mono {c : Config} {m m1 : Mem T} {v : small_vector} {xs : List T}
    (h : Owns c m v xs) (hm : ∀ (k : Nat) (R : Region T), m[k]? = some R → m1[k]? = some R) : Owns c m1 v xs := by
  cases h with
  | stack inl xs rest hN h1 hl => exact Owns.stack inl xs rest hN (hm _ _ h1) hl
  | heap inl r cap xs rest h1 => exact Owns.heap inl r cap xs rest (hm _ _ h1)
  | null inl cap => exact Owns.null inl cap

theorem ctor_copy_ensure_ok (c : Config) (m : Mem T) (v other : small_vector)
    (h1 : v.data.to_bool = true) (h2 : other.data.to_bool = true) (h3 : other.size = v.size)
    (h4 : other.capacity c = v.capacity c) :
    ctor_copy_ensure c m v other = .ok (m, v) := by
  simp [ctor_copy_ensure, SCN_ENSURE, h1, h2, h3, h4, SCN_ASSERT_true]

/-- The copy of an empty container: an Inline object of size 0 with a null `m_ptr`. -/
theorem ctor_copy_empty (c : Config) (m : Mem T) (other : small_vector) (h : other.size = 0) :
    ctor_copy c m other = .ok (m ++ [⟨List.replicate c.StackN none, true, false⟩],
      ⟨nullptr, .stack 0, m.length⟩) := by
  simp [ctor_copy, declare, Mem.enter, empty, h, _construct_stack_storage, clobber_fresh]

/-- The copy of a non-empty Inline container: the elements are copied into the inline
array of the new object. -/
theorem ctor_copy_stack (c : Config) (m : Mem T) (inl : Nat) (xs : List T)
    (rest : List (Option T)) (hx : xs ≠ []) (hN : c.StackN ≠ 0)
    (hm : m[inl]? = some ⟨xs.map some ++ rest, true, false⟩)
    (hl : xs.length + rest.length = c.StackN) :
    ctor_copy c m ⟨⟨some inl, 0⟩, .stack xs.length, inl⟩
      = .ok (m ++ [⟨xs.map some ++ List.replicate (c.StackN - xs.length) none, true, false⟩],
        ⟨⟨some m.length, 0⟩, .stack xs.length, m.length⟩) := by
  have hx0 : xs.length ≠ 0 := fun h0 => hx (List.length_eq_zero.1 h0)
  have hle : xs.length ≤ c.StackN := by omega
  have hlt := lt_of_getElem? hm
  have hcopy := uninitialized_copy_loop_ok xs
    (m ++ [(⟨List.replicate c.StackN none, true, false⟩ : Region T)]) inl m.length _ _ [] rest []
    (List.replicate xs.length none) (List.replicate (c.StackN - xs.length) none)
    (by omega) (getElem?_append_old _ _ _ _ hm) rfl (by simp)
    (getElem?_length_append_cons _ _ _) rfl
    (by simp [← List.replicate_add, Nat.add_sub_cancel' hle]) (by simp)
  simp only [List.length_nil, set_length_append_cons, List.nil_append] at hcopy
  simp only [ctor_copy, declare, Mem.enter, empty, small_vector.size, beq_iff_eq, hx0,
    ↓reduceIte, is_small, Bool.not_true, Bool.false_eq_true, _construct_stack_storage,
    clobber_fresh, data, reinterpret_unconstructed_data, hN, uninitialized_copy, Ptr.add_mk,
    Nat.zero_add, Nat.sub_zero, hcopy, _set_size, reinterpret_data]
  exact ctor_copy_ensure_ok _ _ _ _ rfl rfl rfl rfl

/-- The copy of a non-empty Heap container whose capacity can be allocated: a fresh array
of `capacity()` slots receives the elements. -/
theorem ctor_copy_heap (c : Config) (m : Mem T) (inl r cap : Nat) (xs : List T)
    (rest : List (Option T)) (hx : xs ≠ [])
    (hm : m[r]? = some ⟨xs.map some ++ rest, true, true⟩)
    (hcap : xs.length ≤ cap) (ha : cap ≤ PTRDIFF_MAX c) :
    ctor_copy c m ⟨⟨some r, 0⟩, .heap xs.length cap, inl⟩
      = .ok (m ++ [⟨List.replicate c.StackN none, true, false⟩,
          ⟨xs.map some ++ List.replicate (cap - xs.length) none, true, true⟩],
        ⟨⟨some (m.length + 1), 0⟩, .heap xs.length cap, m.length⟩) := by
  have hx0 : xs.length ≠ 0 := fun h0 => hx (List.length_eq_zero.1 h0)
  have hlt := lt_of_getElem? hm
  have hfresh := getElem?_length_append_cons
    (m ++ [(⟨List.replicate c.StackN none, true, false⟩ : Region T)])
    (⟨List.replicate cap none, true, true⟩ : Region T) []
  have hcopy := uninitialized_copy_loop_ok xs
    ((m ++ [(⟨List.replicate c.StackN none, true, false⟩ : Region T)]) ++
      [(⟨List.replicate cap none, true, true⟩ : Region T)]) r (m.length + 1) _ _ [] rest []
    (List.replicate xs.length none) (List.replicate (cap - xs.length) none)
    (by omega) (getElem?_append_old _ _ _ _ (getElem?_append_old _ _ _ _ hm)) rfl (by simp)
    (by simpa using hfresh) rfl
    (by simp [← List.replicate_add, Nat.add_sub_cancel' hcap]) (by simp)
  have hset := set_length_append_cons
    (m ++ [(⟨List.replicate c.StackN none, true, false⟩ : Region T)])
    (⟨List.replicate cap none, true, true⟩ : Region T)
    ⟨xs.map some ++ List.replicate (cap - xs.length) none, true, true⟩ []
  simp only [List.length_append, List.length_singleton] at hset
  simp only [List.length_nil, List.nil_append, hset] at hcopy
  simp only [ctor_copy, declare, Mem.enter, empty, small_vector.size, beq_iff_eq, hx0,
    ↓reduceIte, is_small, Bool.not_false, _construct_heap_storage,
    clobber_fresh, data, capacity, operator_new_array, ha, List.length_append,
    List.length_singleton, uninitialized_copy, Ptr.add_mk,
    Nat.zero_add, Nat.sub_zero, hcopy, _set_heap]
  simp only [List.append_assoc, List.singleton_append]
  exact ctor_copy_ensure_ok _ _ _ _ rfl rfl rfl rfl

end copy


section assign
variable {T : Type}
open small_vector

/-- `_destruct_elements` on a container whose `size()` elements are the first objects of
the live array `m_ptr` points to: every one is destroyed and the size is reset. -/
theorem _destruct_elements_ok (m : Mem T) (v : small_vector) (r : Nat) (d : Bool)
    (ys : List T) (rest : List (Option T)) (hp : v.m_ptr = ⟨some r, 0⟩)
    (hs : v.size = ys.length) (hm : m[r]? = some ⟨ys.map some ++ rest, true, d⟩) :
    _destruct_elements m v
      = .ok (m.set r ⟨List.replicate ys.length none ++ rest, true, d⟩, v._set_size 0) := by
  have hdes := _destruct_elements_loop_ok ys m r _ [] rest hm rfl (by simp)
  simp only [List.length_nil, List.nil_append] at hdes
  simp only [_destruct_elements, hp, hs, hdes]

/-- `_destruct_elements` on an empty container touches nothing. -/
theorem _destruct_elements_empty (m : Mem T) (v : small_vector) (hs : v.size = 0) :
    _destruct_elements m v = .ok (m, v._set_size 0) := by
  simp [_destruct_elements, hs, _destruct_elements_loop]

/-- Copy assignment from an empty source: the elements of the target are destroyed and
nothing else happens. -/
theorem assign_copy_empty (c : Config) (m m1 : Mem T) (v v1 other : small_vector)
    (hd : _destruct_elements m v = .ok (m1, v1)) (ho : other.size = 0) :
    assign_copy c m v other = .ok (m1, v1) := by
  simp [assign_copy, hd, empty, ho]

/-- Copy assignment, Inline target and non-empty Heap source: the target becomes Heap with
a fresh array of `next_pow2(other.size())` slots that receives the elements. -/
theorem assign_copy_stack_heap (c : Config) (m : Mem T) (inl oinl r cap : Nat)
    (ys xs : List T) (rest orest : List (Option T)) (hx : xs ≠ [])
    (hv : m[inl]? = some ⟨ys.map some ++ rest, true, false⟩)
    (ho : m[r]? = some ⟨xs.map some ++ orest, true, true⟩)
    (hk : xs.length ≤ 2 ^ (SIZE_BITS c - 2)) :
    assign_copy c m ⟨⟨some inl, 0⟩, .stack ys.length, inl⟩ ⟨⟨some r, 0⟩, .heap xs.length cap, oinl⟩
      = .ok (m.set inl ⟨List.replicate (ys.length + rest.length) none, true, false⟩ ++
          [⟨xs.map some ++ List.replicate (next_pow2 c xs.length - xs.length) none, true, true⟩],
        ⟨⟨some m.length, 0⟩, .heap xs.length (next_pow2 c xs.length), inl⟩) := by
  have hx0 : xs.length ≠ 0 := fun h0 => hx (List.length_eq_zero.1 h0)
  obtain ⟨a1, a2, _⟩ := next_pow2_allocatable c xs.length (by omega) hk
  have hne : inl ≠ r := by
    rintro rfl
    rw [hv] at ho
    simp at ho
  have hlt := lt_of_getElem? ho
  have hdes := _destruct_elements_ok m ⟨⟨some inl, 0⟩, .stack ys.length, inl⟩ inl false ys rest
    rfl rfl hv
  have hclob : Mem.clobber (m.set inl ⟨List.replicate ys.length none ++ rest, true, false⟩) inl
      = m.set inl ⟨List.replicate (ys.length + rest.length) none, true, false⟩ := by
    rw [clobber_of (getElem?_set_same hv)]
    simp
  have hsrc : (m.set inl (⟨List.replicate (ys.length + rest.length) none, true, false⟩ :
      Region T))[r]? = some ⟨xs.map some ++ orest, true, true⟩ := by
    rw [getElem?_set_other hne]; exact ho
  have hfresh := getElem?_length_append_cons
    (m.set inl (⟨List.replicate (ys.length + rest.length) none, true, false⟩ : Region T))
    (⟨List.replicate (next_pow2 c xs.length) none, true, true⟩ : Region T) []
  simp only [List.length_set] at hfresh
  have hcopy := uninitialized_copy_loop_ok xs
    (m.set inl (⟨List.replicate (ys.length + rest.length) none, true, false⟩ : Region T) ++
      [(⟨List.replicate (next_pow2 c xs.length) none, true, true⟩ : Region T)]) r m.length _ _
    [] orest [] (List.replicate xs.length none)
    (List.replicate (next_pow2 c xs.length - xs.length) none)
    (by omega) (getElem?_append_old _ _ _ _ hsrc) rfl (by simp)
    hfresh rfl
    (by simp [← List.replicate_add, Nat.add_sub_cancel' a1]) (by simp)
  have hset := set_length_append_cons
    (m.set inl (⟨List.replicate (ys.length + rest.length) none, true, false⟩ : Region T))
    (⟨List.replicate (next_pow2 c xs.length) none, true, true⟩ : Region T)
    ⟨xs.map some ++ List.replicate (next_pow2 c xs.length - xs.length) none, true, true⟩ []
  simp only [List.length_set] at hset
  simp only [List.length_nil, List.nil_append, hset] at hcopy
  simp only [assign_copy, hdes, _set_size, empty, small_vector.size, beq_iff_eq, hx0,
    ↓reduceIte, beq_self_eq_true, SCN_ASSERT_true, is_small, Bool.not_true, Bool.or_self,
    Bool.false_eq_true, _destruct_stack_storage, _construct_heap_storage, hclob,
    operator_new_array, a2, List.length_set, data, uninitialized_copy, Ptr.add_mk, Nat.zero_add,
    Nat.sub_zero, hcopy, _set_heap]

/-- Copy assignment on the branch that copies into the array the target already has
(Heap target, or both Inline), for a non-empty source in another array: when that array
has at least `other.size()` slots the elements are copied to its start, `m_ptr` is kept,
and a Heap source also overwrites the recorded capacity with its own. -/
theorem assign_copy_in_place (c : Config) (m : Mem T) (v other : small_vector) (rt rs : Nat)
    (dt ds : Bool) (ys xs : List T) (rest orest : List (Option T)) (hx : xs ≠ [])
    (hvp : v.m_ptr = ⟨some rt, 0⟩) (hvs : v.size = ys.length)
    (hop : other.m_ptr = ⟨some rs, 0⟩) (hos : other.size = xs.length)
    (hbr : v.is_small = false ∨ other.is_small = true) (hne : rs ≠ rt)
    (hv : m[rt]? = some ⟨ys.map some ++ rest, true, dt⟩)
    (ho : m[rs]? = some ⟨xs.map some ++ orest, true, ds⟩)
    (hfit : xs.length ≤ ys.length + rest.length) :
    assign_copy c m v other
      = .ok (m.set rt ⟨xs.map some ++ (List.replicate ys.length none ++ rest).drop xs.length,
            true, dt⟩,
          if other.is_small then (v._set_size 0)._set_size xs.length
          else ((v._set_size 0)._set_size xs.length)._set_heap_cap (other.capacity c)) := by
  have hx0 : xs.length ≠ 0 := fun h0 => hx (List.length_eq_zero.1 h0)
  have hdes := _destruct_elements_ok m v rt dt ys rest hvp hvs hv
  have hsrc : (m.set rt (⟨List.replicate ys.length none ++ rest, true, dt⟩ : Region T))[rs]?
      = some ⟨xs.map some ++ orest, true, ds⟩ := by
    rw [getElem?_set_other (Ne.symm hne)]; exact ho
  have hcopy := uninitialized_copy_loop_ok xs
    (m.set rt (⟨List.replicate ys.length none ++ rest, true, dt⟩ : Region T)) rs rt _ _
    [] orest [] ((List.replicate ys.length none ++ rest).take xs.length)
    ((List.replicate ys.length none ++ rest).drop xs.length)
    hne hsrc rfl (by simp) (getElem?_set_same hv) rfl
    (by simp only [List.nil_append, List.take_append_drop])
    (by simp only [List.length_take, List.length_append, List.length_replicate]; omega)
  simp only [List.length_nil, List.nil_append, List.set_set] at hcopy
  obtain ⟨p, st, inl⟩ := v
  dsimp only at hvp
  subst hvp
  cases st with
  | stack s =>
    have hos2 : other.is_small = true := by
      rcases hbr with h | h
      · simp [is_small] at h
      · exact h
    have hz : small_vector.size ⟨⟨some rt, 0⟩, .stack 0, inl⟩ = 0 := rfl
    have hsm : is_small ⟨⟨some rt, 0⟩, .stack 0, inl⟩ = true := rfl
    simp only [assign_copy, hdes, _set_size, empty, hos, beq_iff_eq, hx0, hz, hsm,
      ↓reduceIte, beq_self_eq_true, SCN_ASSERT_true, hos2, Bool.not_true,
      Bool.or_true, data, hop, uninitialized_copy, Ptr.add_mk, Nat.zero_add, Nat.sub_zero,
      hcopy, Bool.false_eq_true]
  | heap s cap =>
    have hz : small_vector.size ⟨⟨some rt, 0⟩, .heap 0 cap, inl⟩ = 0 := rfl
    have hsm : is_small ⟨⟨some rt, 0⟩, .heap 0 cap, inl⟩ = false := rfl
    simp only [assign_copy, hdes, _set_size, empty, hos, beq_iff_eq, hx0, hz, hsm,
      ↓reduceIte, beq_self_eq_true, SCN_ASSERT_true, Bool.not_false,
      Bool.true_or, data, hop, uninitialized_copy, Ptr.add_mk, Nat.zero_add, Nat.sub_zero,
      hcopy]
    cases other.is_small <;> rfl

end assign


/-! ## Move construction and move assignment -/

section move
variable {T : Type}
open small_vector

/-- Move construction from an empty source: an Inline object of size 0 with a null
`m_ptr`; the source is not touched. -/
theorem ctor_move_empty (c : Config) (m : Mem T) (other : small_vector) (h : other.size = 0) :
    ctor_move c m other = .ok (m ++ [⟨List.replicate c.StackN none, true, false⟩],
      ⟨nullptr, .stack 0, m.length⟩, other) := by
  simp [ctor_move, declare, Mem.enter, empty, h, _construct_stack_storage, clobber_fresh]

/-- Move construction from a non-empty Heap source: the new object adopts pointer, size
and capacity; the source keeps its size and capacity and gets a null `m_ptr`. -/
theorem ctor_move_heap (c : Config) (m : Mem T) (p : Ptr) (s cap oinl : Nat) (hs : s ≠ 0)
    (hp : p.to_bool = true) :
    ctor_move c m ⟨p, .heap s cap, oinl⟩
      = .ok (m ++ [⟨List.replicate c.StackN none, true, false⟩],
        ⟨p, .heap s cap, m.length⟩, ⟨nullptr, .heap s cap, oinl⟩) := by
  simp [ctor_move, declare, Mem.enter, empty, small_vector.size, hs, is_small,
    _construct_heap_storage, clobber_fresh, data, capacity, _set_heap, ctor_move_finish,
    SCN_ENSURE, hp, SCN_ASSERT_true]

/-- Move construction from a non-empty Inline source that holds `xs`: the elements are
moved into the inline array of the new object and destroyed in the source, but `m_ptr` of
the new object is never assigned. The closing `SCN_ENSURE(data())` fails when the
assertion macros are compiled in; otherwise the new object is returned with a null
`data()`. -/
theorem ctor_move_stack (c : Config) (m : Mem T) (inl : Nat) (xs : List T)
    (rest : List (Option T)) (hx : xs ≠ []) (hN : c.StackN ≠ 0)
    (hm : m[inl]? = some ⟨xs.map some ++ rest, true, false⟩)
    (hl : xs.length + rest.length = c.StackN) :
    ctor_move c m ⟨⟨some inl, 0⟩, .stack xs.length, inl⟩
      = if c.checks then .error .contract
        else .ok ((m ++ [(⟨xs.map some ++ List.replicate (c.StackN - xs.length) none, true,
              false⟩ : Region T)]).set inl ⟨List.replicate xs.length none ++ rest, true, false⟩,
            ⟨nullptr, .stack xs.length, m.length⟩, ⟨nullptr, .stack 0, inl⟩) := by
  have hx0 : xs.length ≠ 0 := fun h0 => hx (List.length_eq_zero.1 h0)
  have hle : xs.length ≤ c.StackN := by omega
  have hlt := lt_of_getElem? hm
  have hmove := uninitialized_copy_loop_ok xs
    (m ++ [(⟨List.replicate c.StackN none, true, false⟩ : Region T)]) inl m.length _ _ [] rest []
    (List.replicate xs.length none) (List.replicate (c.StackN - xs.length) none)
    (by omega) (getElem?_append_old _ _ _ _ hm) rfl (by simp)
    (getElem?_length_append_cons _ _ _) rfl
    (by simp [← List.replicate_add, Nat.add_sub_cancel' hle]) (by simp)
  simp only [List.length_nil, set_length_append_cons, List.nil_append] at hmove
  have hdes := _destruct_elements_ok
    (m ++ [(⟨xs.map some ++ List.replicate (c.StackN - xs.length) none, true, false⟩ : Region T)])
    ⟨⟨some inl, 0⟩, .stack xs.length, inl⟩ inl false xs rest rfl rfl
    (getElem?_append_old _ _ _ _ hm)
  simp only [ctor_move, declare, Mem.enter, empty, small_vector.size, beq_iff_eq, hx0,
    ↓reduceIte, is_small, Bool.not_true, Bool.false_eq_true, _construct_stack_storage,
    clobber_fresh, data, reinterpret_unconstructed_data, hN, uninitialized_move, Ptr.add_mk,
    Nat.zero_add, Nat.sub_zero, hmove, hdes, _set_size, ctor_move_finish, SCN_ENSURE,
    SCN_ASSERT, nullptr, Ptr.to_bool]
  cases c.checks <;> simp

/-- Move assignment from an empty source: the elements of the target are destroyed and
nothing else happens. -/
theorem assign_move_empty (c : Config) (m m1 : Mem T) (v v1 other : small_vector)
    (hd : _destruct_elements m v = .ok (m1, v1)) (ho : other.size = 0) :
    assign_move c m v other = .ok (m1, v1, other) := by
  simp [assign_move, hd, empty, ho]

/-- Move assignment, both Heap, the target holding `ys` in its own array and the source
non-empty: the target's elements are destroyed, its array is released unless its recorded
capacity is 0, and pointer, capacity and size of the source are adopted. The source keeps
its size and capacity and gets a null `m_ptr`. -/
theorem assign_move_heap_heap (c : Config) (m : Mem T) (rt capt inl : Nat) (p : Ptr)
    (s cap oinl : Nat) (ys : List T) (rest : List (Option T)) (hs : s ≠ 0)
    (hv : m[rt]? = some ⟨ys.map some ++ rest, true, true⟩) :
    assign_move c m ⟨⟨some rt, 0⟩, .heap ys.length capt, inl⟩ ⟨p, .heap s cap, oinl⟩
      = .ok (m.set rt ⟨List.replicate ys.length none ++ rest, decide (capt = 0), true⟩,
        ⟨p, .heap s cap, inl⟩, ⟨nullptr, .heap s cap, oinl⟩) := by
  have hdes := _destruct_elements_ok m ⟨⟨some rt, 0⟩, .heap ys.length capt, inl⟩ rt true ys rest
    rfl rfl hv
  by_cases hc : capt = 0
  · subst hc
    simp [assign_move, hdes, _set_size, empty, small_vector.size, hs, SCN_ASSERT_true,
      is_small, capacity, data, _set_heap_cap]
  · have hdel : operator_delete_array
        (m.set rt (⟨List.replicate ys.length none ++ rest, true, true⟩ : Region T)) ⟨some rt, 0⟩
        = .ok (m.set rt ⟨List.replicate ys.length none ++ rest, false, true⟩) := by
      simp [operator_delete_array, getElem?_set_same hv]
    simp [assign_move, hdes, _set_size, empty, small_vector.size, hs, SCN_ASSERT_true,
      is_small, capacity, hc, data, _set_heap_cap, hdel]

/-- Move assignment, Inline target and non-empty Heap source: the target's elements are
destroyed and pointer, capacity and size of the source are adopted. The source keeps its
size and capacity and gets a null `m_ptr`. -/
theorem assign_move_stack_heap (c : Config) (m : Mem T) (inl : Nat) (p : Ptr)
    (s cap oinl : Nat) (ys : List T) (rest : List (Option T)) (hs : s ≠ 0)
    (hv : m[inl]? = some ⟨ys.map some ++ rest, true, false⟩) :
    assign_move c m ⟨⟨some inl, 0⟩, .stack ys.length, inl⟩ ⟨p, .heap s cap, oinl⟩
      = .ok (m.set inl ⟨List.replicate (ys.length + rest.length) none, true, false⟩,
        ⟨p, .heap s cap, inl⟩, ⟨nullptr, .heap s cap, oinl⟩) := by
  have hdes := _destruct_elements_ok m ⟨⟨some inl, 0⟩, .stack ys.length, inl⟩ inl false ys rest
    rfl rfl hv
  have hclob : Mem.clobber (m.set inl ⟨List.replicate ys.length none ++ rest, true, false⟩) inl
      = m.set inl ⟨List.replicate (ys.length + rest.length) none, true, false⟩ := by
    rw [clobber_of (getElem?_set_same hv)]
    simp
  simp [assign_move, hdes, _set_size, empty, small_vector.size, hs, SCN_ASSERT_true,
    is_small, _destruct_stack_storage, _construct_heap_storage, hclob, data, capacity,
    _set_heap]

/-- Move assignment, both Heap, the target empty with a null `m_ptr` (a default-constructed
`small_vector<T, 0>`): nothing is released and pointer, capacity and size of the source
are adopted. -/
theorem assign_move_null_heap (c : Config) (m : Mem T) (capt inl : Nat) (p : Ptr)
    (s cap oinl : Nat) (hs : s ≠ 0) :
    assign_move c m ⟨nullptr, .heap 0 capt, inl⟩ ⟨p, .heap s cap, oinl⟩
      = .ok (m, ⟨p, .heap s cap, inl⟩, ⟨nullptr, .heap s cap, oinl⟩) := by
  unfold nullptr
  have hdes := _destruct_elements_empty m ⟨⟨none, 0⟩, .heap 0 capt, inl⟩ rfl
  by_cases hc : capt = 0
  · subst hc
    simp [assign_move, hdes, _set_size, empty, small_vector.size, hs, SCN_ASSERT_true,
      is_small, capacity, data, _set_heap_cap]
    rfl
  · simp [assign_move, hdes, _set_size, empty, small_vector.size, hs, SCN_ASSERT_true,
      is_small, capacity, hc, data, _set_heap_cap, operator_delete_array]
    rfl

/-- Move assignment from a non-empty Inline source into the array the target already has
(in another array than the source's): when that array has at least `other.size()` slots
the elements are moved to its start and destroyed in the source; the source ends with
size 0 and a null `m_ptr`. -/
theorem assign_move_in_place (c : Config) (m : Mem T) (v : small_vector) (rt rs oinl : Nat)
    (dt ds : Bool) (ys xs : List T) (rest orest : List (Option T)) (hx : xs ≠ [])
    (hvp : v.m_ptr = ⟨some rt, 0⟩) (hvs : v.size = ys.length) (hne : rs ≠ rt)
    (hv : m[rt]? = some ⟨ys.map some ++ rest, true, dt⟩)
    (ho : m[rs]? = some ⟨xs.map some ++ orest, true, ds⟩)
    (hfit : xs.length ≤ ys.length + rest.length) :
    assign_move c m v ⟨⟨some rs, 0⟩, .stack xs.length, oinl⟩
      = .ok ((m.set rt ⟨xs.map some ++ (List.replicate ys.length none ++ rest).drop xs.length,
            true, dt⟩).set rs ⟨List.replicate xs.length none ++ orest, true, ds⟩,
          (v._set_size 0)._set_size xs.length, ⟨nullptr, .stack 0, oinl⟩) := by
  have hx0 : xs.length ≠ 0 := fun h0 => hx (List.length_eq_zero.1 h0)
  have hdes := _destruct_elements_ok m v rt dt ys rest hvp hvs hv
  have hsrc : (m.set rt (⟨List.replicate ys.length none ++ rest, true, dt⟩ : Region T))[rs]?
      = some ⟨xs.map some ++ orest, true, ds⟩ := by
    rw [getElem?_set_other (Ne.symm hne)]; exact ho
  have hmove := uninitialized_copy_loop_ok xs
    (m.set rt (⟨List.replicate ys.length none ++ rest, true, dt⟩ : Region T)) rs rt _ _
    [] orest [] ((List.replicate ys.length none ++ rest).take xs.length)
    ((List.replicate ys.length none ++ rest).drop xs.length)
    hne hsrc rfl (by simp) (getElem?_set_same hv) rfl
    (by simp only [List.nil_append, List.take_append_drop])
    (by simp only [List.length_take, List.length_append, List.length_replicate]; omega)
  simp only [List.length_nil, List.nil_append, List.set_set] at hmove
  have hsrc2 : (m.set rt (⟨xs.map some ++ (List.replicate ys.length none ++ rest).drop xs.length,
      true, dt⟩ : Region T))[rs]? = some ⟨xs.map some ++ orest, true, ds⟩ := by
    rw [getElem?_set_other (Ne.symm hne)]; exact ho
  have hdes2 := _destruct_elements_ok _ ⟨⟨some rs, 0⟩, .stack xs.length, oinl⟩ rs ds xs orest
    rfl rfl hsrc2
  obtain ⟨p, st, inl⟩ := v
  dsimp only at hvp
  subst hvp
  cases st with
  | stack s =>
    have hz : small_vector.size ⟨⟨some rt, 0⟩, .stack 0, inl⟩ = 0 := rfl
    have hsm : is_small ⟨⟨some rt, 0⟩, .stack 0, inl⟩ = true := rfl
    have hoz : small_vector.size ⟨⟨some rs, 0⟩, .stack xs.length, oinl⟩ = xs.length := rfl
    have hos : is_small ⟨⟨some rs, 0⟩, .stack xs.length, oinl⟩ = true := rfl
    simp only [assign_move, hdes, _set_size, empty, hoz, beq_iff_eq, hx0, hz, hsm, hos,
      ↓reduceIte, beq_self_eq_true, SCN_ASSERT_true, Bool.not_true, Bool.and_self,
      Bool.or_true, Bool.false_eq_true, data, uninitialized_move, Ptr.add_mk, Nat.zero_add,
      Nat.sub_zero, hmove, hdes2]
  | heap s cap =>
    have hz : small_vector.size ⟨⟨some rt, 0⟩, .heap 0 cap, inl⟩ = 0 := rfl
    have hsm : is_small ⟨⟨some rt, 0⟩, .heap 0 cap, inl⟩ = false := rfl
    have hoz : small_vector.size ⟨⟨some rs, 0⟩, .stack xs.length, oinl⟩ = xs.length := rfl
    have hos : is_small ⟨⟨some rs, 0⟩, .stack xs.length, oinl⟩ = true := rfl
    simp only [assign_move, hdes, _set_size, empty, hoz, beq_iff_eq, hx0, hz, hsm, hos,
      ↓reduceIte, beq_self_eq_true, SCN_ASSERT_true, Bool.not_true, Bool.not_false,
      Bool.and_false, Bool.true_or, Bool.false_eq_true, data, uninitialized_move, Ptr.add_mk,
      Nat.zero_add, Nat.sub_zero, hmove, hdes2]

/-- `push_back` on a container whose `m_ptr` is null faults, unless both `size()` and
`capacity()` are 0: the new element is constructed at `nullptr + size()`, or the growth
step moves `size()` elements out of the null pointer (or cannot allocate). -/
theorem push_back_null_data (c : Config) (m : Mem T) (v : small_vector) (x : T)
    (hp : v.m_ptr = ⟨none, 0⟩) (h : v.size ≠ 0 ∨ v.size ≠ v.capacity c) :
    push_back c m v x = .error .null_deref ∨ push_back c m v x = .error .bad_alloc := by
  by_cases hfull : v.size = v.capacity c
  · have hs : v.size ≠ 0 := by
      rcases h with h | h
      · exact h
      · exact absurd hfull h
    obtain ⟨n, hn⟩ := Nat.exists_eq_succ_of_ne_zero hs
    have hbeq : (v.size == v.capacity c) = true := by simp [hfull]
    by_cases ha : next_pow2 c ((v.size + 1) % SIZE_MOD c) ≤ PTRDIFF_MAX c
    · left
      simp only [push_back, _prepare_push_back, hbeq, ↓reduceIte, _realloc, operator_new_array,
        ha, uninitialized_move, begin, end_, data, hp, Ptr.add_mk, Nat.zero_add, Nat.sub_zero]
      rw [hn]
      simp [uninitialized_copy_loop, load, Mem.region]
    · right
      simp only [push_back, _prepare_push_back, hbeq, ↓reduceIte, _realloc, operator_new_array,
        ha]
  · left
    have hbeq : (v.size == v.capacity c) = false := by simp [hfull]
    simp [push_back, _prepare_push_back, hbeq, construct_at, Mem.region, hp]

/-- `_destruct_elements` on a non-empty container whose `m_ptr` is null destroys an object
through the null pointer. -/
theorem _destruct_elements_null (m : Mem T) (v : small_vector) (hp : v.m_ptr = ⟨none, 0⟩)
    (hs : v.size ≠ 0) : _destruct_elements m v = .error .null_deref := by
  obtain ⟨n, hn⟩ := Nat.exists_eq_succ_of_ne_zero hs
  simp [_destruct_elements, hp, hn, _destruct_elements_loop, destroy_at, Mem.region]

/-- `swap` with a non-empty Heap argument: `tmp` adopts the buffer, the argument keeps its
size with a null `m_ptr`, and the move assignment to it destroys that many elements
through the null pointer. -/
theorem swap_heap_other (c : Config) (m : Mem T) (v : small_vector) (r s cap oinl : Nat)
    (hs : s ≠ 0) : swap c m v ⟨⟨some r, 0⟩, .heap s cap, oinl⟩ = .error .null_deref := by
  have h1 := ctor_move_heap c m ⟨some r, 0⟩ s cap oinl hs rfl
  have h2 := _destruct_elements_null (m ++ [(⟨List.replicate c.StackN none, true, false⟩ :
    Region T)]) ⟨⟨none, 0⟩, .heap s cap, oinl⟩ rfl hs
  simp only [swap, h1, nullptr, assign_move, h2]

/-- `swap` with a non-empty Inline argument, assertion macros compiled in: the move
construction of `tmp` fails its closing `SCN_ENSURE(data())`. -/
theorem swap_stack_other_checked (c : Config) (m : Mem T) (v : small_vector) (inl : Nat)
    (xs : List T) (rest : List (Option T)) (hx : xs ≠ []) (hN : c.StackN ≠ 0)
    (hm : m[inl]? = some ⟨xs.map some ++ rest, true, false⟩)
    (hl : xs.length + rest.length = c.StackN) (hc : c.checks = true) :
    swap c m v ⟨⟨some inl, 0⟩, .stack xs.length, inl⟩ = .error .contract := by
  simp only [swap, ctor_move_stack c m inl xs rest hx hN hm hl, hc, ↓reduceIte]

end move


/-! ## Move assignment between containers that hold their elements -/

section move_spec
variable {T : Type}
open small_vector

/-- Move assignment `b = move(a)` between two containers that hold their elements (`b`
holds `ys`, `a` holds the non-empty `xs`) in different arrays; when `a` is Inline and `b`
is Heap, the array of `b` is assumed to have `capacity()` slots, at least `a.size()` of
them. The call returns, `b` holds `xs`, `b` is Inline exactly when both were, and
`a.data()` is null. -/
theorem assign_move_owns (c : Config) (m : Mem T) (v other : small_vector) (ys xs : List T)
    (hv : Owns c m v ys) (ho : Owns c m other xs) (hx : xs ≠ [])
    (hne : v.m_ptr.base ≠ other.m_ptr.base)
    (hfit : v.is_small = false → other.is_small = true →
      Backed c m v ∧ xs.length ≤ v.capacity c) :
    ∃ m1 v1 o1, assign_move c m v other = .ok (m1, v1, o1) ∧ Owns c m1 v1 xs ∧
      v1.size = xs.length ∧ v1.elements m1 = .ok xs ∧
      v1.is_small = (v.is_small && other.is_small) ∧ o1.data = nullptr := by
  have hx0 : xs.length ≠ 0 := fun h0 => hx (List.length_eq_zero.1 h0)
  cases ho with
  | null => exact absurd rfl hx
  | stack oinl xs orest hN hmo hlo =>
    cases hv with
    | stack inl ys rest _ hmv hlv =>
      have hne2 : oinl ≠ inl := fun h => hne (by rw [h])
      have hres : ((m.set inl (⟨xs.map some ++
          (List.replicate ys.length none ++ rest).drop xs.length, true, false⟩ : Region T)).set oinl
          ⟨List.replicate xs.length none ++ orest, true, false⟩)[inl]?
          = some ⟨xs.map some ++ (List.replicate ys.length none ++ rest).drop xs.length, true,
            false⟩ := by
        rw [getElem?_set_other hne2]
        exact getElem?_set_same hmv
      have hown := Owns.stack (c := c) inl xs _ hN hres
        (by simp only [List.length_drop, List.length_append, List.length_replicate]; omega)
      exact ⟨_, _, _, assign_move_in_place c m _ inl oinl oinl false false ys xs rest orest hx rfl
        rfl hne2 hmv hmo (by omega), hown, rfl, hown.elements, rfl, rfl⟩
    | heap inl rt capt ys rest hmv =>
      have hne2 : oinl ≠ rt := fun h => hne (by rw [h])
      obtain ⟨⟨R, hR, hRl⟩, hle⟩ := hfit rfl rfl
      have hslots : xs.length ≤ ys.length + rest.length := by
        have h1 : m[rt]? = some R := hR
        rw [hmv] at h1
        cases h1
        simp only [capacity, List.length_append, List.length_map] at hRl hle
        omega
      have hres : ((m.set rt (⟨xs.map some ++
          (List.replicate ys.length none ++ rest).drop xs.length, true, true⟩ : Region T)).set oinl
          ⟨List.replicate xs.length none ++ orest, true, false⟩)[rt]?
          = some ⟨xs.map some ++ (List.replicate ys.length none ++ rest).drop xs.length, true,
            true⟩ := by
        rw [getElem?_set_other hne2]
        exact getElem?_set_same hmv
      have hown := Owns.heap (c := c) inl rt capt xs _ hres
      exact ⟨_, _, _, assign_move_in_place c m _ rt oinl oinl true false ys xs rest orest hx rfl
        rfl hne2 hmv hmo hslots, hown, rfl, hown.elements, rfl, rfl⟩
    | null inl capt =>
      obtain ⟨hb, hle⟩ := hfit rfl rfl
      have : capt = 0 := hb
      simp only [capacity] at hle
      omega
  | heap oinl r cap xs orest hmo =>
    cases hv with
    | stack inl ys rest _ hmv hlv =>
      have hne2 : inl ≠ r := by
        rintro rfl
        rw [hmv] at hmo
        simp at hmo
      have hres : (m.set inl (⟨List.replicate (ys.length + rest.length) none, true, false⟩ :
          Region T))[r]? = some ⟨xs.map some ++ orest, true, true⟩ := by
        rw [getElem?_set_other hne2]; exact hmo
      have hown := Owns.heap (c := c) inl r cap xs orest hres
      exact ⟨_, _, _, assign_move_stack_heap c m inl ⟨some r, 0⟩ xs.length cap oinl ys rest hx0
        hmv, hown, rfl, hown.elements, rfl, rfl⟩
    | heap inl rt capt ys rest hmv =>
      have hne2 : rt ≠ r := fun h => hne (by rw [h])
      have hres : (m.set rt (⟨List.replicate ys.length none ++ rest, decide (capt = 0), true⟩ :
          Region T))[r]? = some ⟨xs.map some ++ orest, true, true⟩ := by
        rw [getElem?_set_other hne2]; exact hmo
      have hown := Owns.heap (c := c) inl r cap xs orest hres
      exact ⟨_, _, _, assign_move_heap_heap c m rt capt inl ⟨some r, 0⟩ xs.length cap oinl ys
        rest hx0 hmv, hown, rfl, hown.elements, rfl, rfl⟩
    | null inl capt =>
      have hown := Owns.heap (c := c) inl r cap xs orest hmo
      exact ⟨_, _, _, assign_move_null_heap c m capt inl ⟨some r, 0⟩ xs.length cap oinl hx0,
        hown, rfl, hown.elements, rfl, rfl⟩

end move_spec

section demotion_data
variable {T : Type}
open small_vector

/-- `make_small` on a Heap container that holds `xs`, `xs` fitting the inline slots: the
container becomes Inline with the same size, and `data()` is what it was before the call,
which is not the start of the container's inline array. -/
theorem make_small_data_not_inline (c : Config) (m : Mem T) (v : small_vector) (xs : List T)
    (h : Owns c m v xs) (hi : InlineOk c m v) (hs : v.is_small = false)
    (hfit : xs.length ≤ c.StackN) :
    ∃ m1 v1, make_small c m v = .ok (m1, v1) ∧ v1.is_small = true ∧ v1.size = xs.length ∧
      v1.data = v.data ∧ v1.data ≠ ⟨some v1.inl, 0⟩ ∧
      m1[v1.inl]? = some ⟨xs.map some ++ List.replicate (c.StackN - xs.length) none,
        true, false⟩ := by
  obtain ⟨m1, hmk, hreg⟩ := make_small_ok c m v xs h hi hs hfit
  refine ⟨m1, _, hmk, rfl, rfl, rfl, ?_, hreg⟩
  obtain ⟨R, hR, _, hR2, _⟩ := hi
  cases h with
  | stack => simp [is_small] at hs
  | null inl cap => simp [data, nullptr]
  | heap inl r cap xs rest hm =>
    simp only [data, ne_eq, Ptr.mk.injEq, Option.some.injEq, and_true]
    rintro rfl
    simp only at hR
    rw [hm] at hR
    cases hR
    simp at hR2

end demotion_data


/-! ## Demotion, copy construction and copy assignment -/

section claims_demotion_copy
variable {T : Type}
open small_vector

/-- C11, the code at a failing input. A `small_vector<Nat, 4>` made Heap by `reserve(5)`
and holding 1, 2: `make_small()`, and `shrink_to_fit()` which calls it, return an Inline
container of size 2 whose inline array holds 1, 2; but `data()` is still the address of
the heap buffer, which has been released, and not the start of the inline array: reading
the elements through `data()` or `operator[]` is a use after free. -/
theorem make_small_leaves_data_dangling :
    reserved_pushed cfg4 [] 5 [1, 2] = .ok (mem_roomy2, vec_roomy2) ∧
    vec_roomy2.is_small = false ∧ vec_roomy2.size = 2 ∧
    vec_roomy2.elements mem_roomy2 = .ok [1, 2] ∧
    ∃ m v, make_small cfg4 mem_roomy2 vec_roomy2 = .ok (m, v) ∧
      shrink_to_fit cfg4 mem_roomy2 vec_roomy2 = .ok (m, v) ∧
      v.is_small = true ∧ v.size = 2 ∧
      m[v.inl]? = some ⟨[some 1, some 2, none, none], true, false⟩ ∧
      v.data = vec_roomy2.data ∧ v.data ≠ reinterpret_data cfg4 v ∧
      v.elements m = .error .dangling ∧
      deref m (operator_index cfg4 v 0) = .error .dangling :=
  ⟨rfl, rfl, rfl, rfl, _, _, rfl, rfl, rfl, rfl, rfl, rfl, by decide, rfl, rfl⟩

/-- C12, a source the claim fails at. An empty `small_vector<Nat, 4>` made Heap by
`reserve(5)` (capacity 8): its copy is Inline with capacity 4. -/
theorem copy_ctor_of_empty_heap_is_inline :
    ∃ m a m1 b, reserved_pushed cfg4 ([] : Mem Nat) 5 [] = .ok (m, a) ∧
      a.is_small = false ∧ a.size = 0 ∧ a.capacity cfg4 = 8 ∧
      ctor_copy cfg4 m a = .ok (m1, b) ∧
      b.is_small = true ∧ b.size = 0 ∧ b.capacity cfg4 = 4 :=
  ⟨_, _, _, _, rfl, rfl, rfl, rfl, rfl, rfl, rfl, rfl⟩

/-- C12 (amended). The copy constructor on a source that holds `xs` returns a container
of the same size holding `xs`; when the source is not empty or is Inline the copy has the
storage mode and the capacity of the source (a Heap copy needs an array of `capacity()`
slots from `new[]`); the copy of an empty Heap source is, for `N ≥ 1`, Inline with
capacity `N`; the arrays present before the call, those of the source among them, are
unchanged. -/
theorem copy_ctor_preserves (c : Config) (m : Mem T) (other : small_vector) (xs : List T)
    (h : Owns c m other xs) (hcap : xs.length ≤ other.capacity c)
    (ha : xs ≠ [] → other.is_small = false → other.capacity c ≤ PTRDIFF_MAX c) :
    ∃ m1 v1, ctor_copy c m other = .ok (m1, v1) ∧
      v1.size = other.size ∧ v1.elements m1 = .ok xs ∧
      (xs ≠ [] ∨ other.is_small = true →
        v1.is_small = other.is_small ∧ v1.capacity c = other.capacity c) ∧
      (xs ≠ [] → Owns c m1 v1 xs) ∧
      (xs = [] → other.is_small = false → c.StackN ≠ 0 →
        v1.is_small = true ∧ v1.capacity c = c.StackN) ∧
      (∀ (k : Nat) (R : Region T), m[k]? = some R → m1[k]? = some R) ∧ other.elements m1 = .ok xs := by
  have hold : ∀ (l : Mem T) (k : Nat) (R : Region T), m[k]? = some R → (m ++ l)[k]? = some R :=
    fun l k R hk => getElem?_append_old _ _ _ _ hk
  cases h with
  | null inl cap =>
    refine ⟨_, _, ctor_copy_empty c m _ rfl, rfl, rfl, fun hh => ?_, fun hh => absurd rfl hh,
      fun _ _ _ => ⟨rfl, rfl⟩, hold _, rfl⟩
    rcases hh with hh | hh
    · exact absurd rfl hh
    · simp [is_small] at hh
  | stack inl xs rest hN hm hl =>
    by_cases hx : xs = []
    · subst hx
      exact ⟨_, _, ctor_copy_empty c m _ rfl, rfl, rfl, fun _ => ⟨rfl, rfl⟩,
        fun hh => absurd rfl hh, fun _ hh => by simp [is_small] at hh, hold _,
        ((Owns.stack (c := c) inl [] rest hN hm hl).mono (hold _)).elements⟩
    · refine ⟨_, _, ctor_copy_stack c m inl xs rest hx hN hm hl, rfl, ?_,
        fun _ => ⟨rfl, rfl⟩, fun _ => ?_, fun hh => absurd hh hx, hold _,
        ((Owns.stack inl xs rest hN hm hl).mono (hold _)).elements⟩
      · exact read_range_ok xs _ m.length _ [] (List.replicate (c.StackN - xs.length) none)
          (getElem?_length_append_cons _ _ _) rfl (by simp)
      · exact Owns.stack m.length xs _ hN (getElem?_length_append_cons _ _ _) (by simp; omega)
  | heap inl r cap xs rest hm =>
    by_cases hx : xs = []
    · subst hx
      refine ⟨_, _, ctor_copy_empty c m _ rfl, rfl, rfl, fun hh => ?_, fun hh => absurd rfl hh,
        fun _ _ _ => ⟨rfl, rfl⟩, hold _,
        ((Owns.heap (c := c) inl r cap [] rest hm).mono (hold _)).elements⟩
      rcases hh with hh | hh
      · exact absurd rfl hh
      · simp [is_small] at hh
    · have hnew : (m ++ [(⟨List.replicate c.StackN none, true, false⟩ : Region T),
          ⟨xs.map some ++ List.replicate (cap - xs.length) none, true, true⟩])[m.length + 1]?
          = some ⟨xs.map some ++ List.replicate (cap - xs.length) none, true, true⟩ := by
        have := getElem?_length_append_cons
          (m ++ [(⟨List.replicate c.StackN none, true, false⟩ : Region T)])
          (⟨xs.map some ++ List.replicate (cap - xs.length) none, true, true⟩ : Region T) []
        simpa using this
      refine ⟨_, _, ctor_copy_heap c m inl r cap xs rest hx hm hcap (ha hx rfl), rfl, ?_,
        fun _ => ⟨rfl, rfl⟩, fun _ => ?_, fun hh => absurd hh hx, hold _,
        ((Owns.heap (c := c) inl r cap xs rest hm).mono (hold _)).elements⟩
      · exact read_range_ok xs _ (m.length + 1) _ [] (List.replicate (cap - xs.length) none)
          hnew rfl (by simp)
      · exact Owns.heap m.length (m.length + 1) cap xs _ hnew

theorem copy_ctor_preserves_witness :
    pushed cfg4 [] [1, 2, 3, 4, 5] = .ok (mem_heap5, vec_heap5) ∧
    ∃ m1 v1, ctor_copy cfg4 mem_heap5 vec_heap5 = .ok (m1, v1) ∧
      v1.size = vec_heap5.size ∧ v1.elements m1 = .ok [1, 2, 3, 4, 5] ∧
      (([1, 2, 3, 4, 5] : List Nat) ≠ [] ∨ vec_heap5.is_small = true →
        v1.is_small = vec_heap5.is_small ∧ v1.capacity cfg4 = vec_heap5.capacity cfg4) ∧
      (([1, 2, 3, 4, 5] : List Nat) ≠ [] → Owns cfg4 m1 v1 [1, 2, 3, 4, 5]) ∧
      (([1, 2, 3, 4, 5] : List Nat) = [] → vec_heap5.is_small = false → cfg4.StackN ≠ 0 →
        v1.is_small = true ∧ v1.capacity cfg4 = cfg4.StackN) ∧
      (∀ (k : Nat) (R : Region Nat), mem_heap5[k]? = some R → m1[k]? = some R) ∧
      vec_heap5.elements m1 = .ok [1, 2, 3, 4, 5] :=
  ⟨rfl, copy_ctor_preserves cfg4 mem_heap5 vec_heap5 [1, 2, 3, 4, 5]
    (Owns.heap 0 1 8 [1, 2, 3, 4, 5] [none, none, none] rfl) (by decide)
    (fun _ _ => by decide)⟩

/-- C13, the code at a failing input. Target `a`: a Heap `small_vector<Nat, 4>` holding
1..5 in a buffer of 8 slots. Source `b`: Heap, holding the nine values 11..19. The copy
assignment `a = b` copies into the buffer of `a` without comparing its capacity with
`b.size()`: the ninth element is constructed past the end of the buffer. -/
theorem copy_assign_heap_overruns :
    pushed cfg4 [] [1, 2, 3, 4, 5] = .ok (mem_heap5, vec_heap5) ∧
    vec_heap5.is_small = false ∧ vec_heap5.capacity cfg4 = 8 ∧
    ∃ m b, pushed cfg4 mem_heap5 [11, 12, 13, 14, 15, 16, 17, 18, 19] = .ok (m, b) ∧
      b.is_small = false ∧ b.size = 9 ∧
      vec_heap5.elements m = .ok [1, 2, 3, 4, 5] ∧
      b.elements m = .ok [11, 12, 13, 14, 15, 16, 17, 18, 19] ∧
      assign_copy cfg4 m vec_heap5 b = .error .out_of_bounds :=
  ⟨rfl, rfl, rfl, _, _, rfl, rfl, rfl, rfl, rfl, rfl⟩

/-- C14, sources the claim fails at. Target: a default-constructed (Inline)
`small_vector<Nat, 4>`. With the Heap source holding 1, 2 (size 2 ≤ 4, capacity 8) the
target does not stay Inline: it becomes Heap with capacity `next_pow2(2) = 2`. With the
Heap source holding 1..5 in a buffer shrunk to capacity 5, the target becomes Heap with
capacity `next_pow2(5) = 8`, not 5. -/
theorem inline_target_heap_source_reallocates :
    (∃ m a m1 a1, ctor cfg4 mem_roomy2 = .ok (m, a) ∧ a.is_small = true ∧
      vec_roomy2.is_small = false ∧ vec_roomy2.size = 2 ∧ vec_roomy2.capacity cfg4 = 8 ∧
      assign_copy cfg4 m a vec_roomy2 = .ok (m1, a1) ∧
      a1.is_small = false ∧ a1.capacity cfg4 = 2 ∧ a1.elements m1 = .ok [1, 2]) ∧
    (∃ m a m1 a1, ctor cfg4 mem_fit5 = .ok (m, a) ∧ a.is_small = true ∧
      vec_fit5.is_small = false ∧ vec_fit5.size = 5 ∧ vec_fit5.capacity cfg4 = 5 ∧
      assign_copy cfg4 m a vec_fit5 = .ok (m1, a1) ∧
      a1.is_small = false ∧ a1.capacity cfg4 = 8 ∧ a1.elements m1 = .ok [1, 2, 3, 4, 5]) :=
  ⟨⟨_, _, _, _, rfl, rfl, rfl, rfl, rfl, rfl, rfl, rfl, rfl⟩,
    ⟨_, _, _, _, rfl, rfl, rfl, rfl, rfl, rfl, rfl, rfl, rfl⟩⟩

/-- C14 (amended). Copy assignment with an Inline target and a non-empty Heap source
holding `xs` (at most `2^(w-2)` elements, so that the array can be allocated): whatever
the size of the source, the target becomes Heap with capacity `next_pow2(source.size())`,
backed by an array of exactly that many slots, and holds `xs`; the source still holds
`xs`. -/
theorem copy_assign_inline_from_heap (c : Config) (m : Mem T) (v other : small_vector)
    (ys xs : List T) (hv : Owns c m v ys) (ho : Owns c m other xs)
    (hvs : v.is_small = true) (hos : other.is_small = false) (hx : xs ≠ [])
    (hk : xs.length ≤ 2 ^ (SIZE_BITS c - 2)) :
    ∃ m1 v1, assign_copy c m v other = .ok (m1, v1) ∧ v1.is_small = false ∧
      v1.capacity c = next_pow2 c xs.length ∧ v1.size = xs.length ∧
      v1.elements m1 = .ok xs ∧ Owns c m1 v1 xs ∧ Backed c m1 v1 ∧
      other.elements m1 = .ok xs := by
  cases hv with
  | heap => simp [is_small] at hvs
  | null => simp [is_small] at hvs
  | stack inl ys rest hN hmv hl =>
    cases ho with
    | stack => simp [is_small] at hos
    | null => exact absurd rfl hx
    | heap oinl r cap xs orest hmo =>
      have hx0 : xs.length ≠ 0 := fun h0 => hx (List.length_eq_zero.1 h0)
      obtain ⟨a1, _, _⟩ := next_pow2_allocatable c xs.length (by omega) hk
      have hne : inl ≠ r := by
        rintro rfl
        rw [hmv] at hmo
        simp at hmo
      have hnew : (m.set inl (⟨List.replicate (ys.length + rest.length) none, true, false⟩ :
          Region T) ++ [⟨xs.map some ++ List.replicate (next_pow2 c xs.length - xs.length) none,
            true, true⟩])[m.length]?
          = some ⟨xs.map some ++ List.replicate (next_pow2 c xs.length - xs.length) none,
            true, true⟩ := by
        have := getElem?_length_append_cons
          (m.set inl (⟨List.replicate (ys.length + rest.length) none, true, false⟩ : Region T))
          (⟨xs.map some ++ List.replicate (next_pow2 c xs.length - xs.length) none, true, true⟩ :
            Region T) []
        simp only [List.length_set] at this
        exact this
      have hsrc : (m.set inl (⟨List.replicate (ys.length + rest.length) none, true, false⟩ :
          Region T) ++ [⟨xs.map some ++ List.replicate (next_pow2 c xs.length - xs.length) none,
            true, true⟩])[r]? = some ⟨xs.map some ++ orest, true, true⟩ := by
        apply getElem?_append_old
        rw [getElem?_set_other hne]
        exact hmo
      have hown := Owns.heap (c := c) inl m.length (next_pow2 c xs.length) xs _ hnew
      refine ⟨_, _, assign_copy_stack_heap c m inl oinl r cap ys xs rest orest hx hmv hmo hk,
        rfl, rfl, rfl, hown.elements, hown, ⟨_, hnew, ?_⟩,
        (Owns.heap (c := c) oinl r cap xs orest hsrc).elements⟩
      simp only [List.length_append, List.length_map, List.length_replicate, capacity]
      omega

theorem copy_assign_inline_from_heap_witness :
    ∃ m1 v1, assign_copy cfg4 (mem_roomy2 ++ [⟨[none, none, none, none], true, false⟩])
        ⟨⟨some 2, 0⟩, .stack 0, 2⟩ vec_roomy2 = .ok (m1, v1) ∧ v1.is_small = false ∧
      v1.capacity cfg4 = next_pow2 cfg4 ([1, 2] : List Nat).length ∧
      v1.size = ([1, 2] : List Nat).length ∧
      v1.elements m1 = .ok [1, 2] ∧ Owns cfg4 m1 v1 [1, 2] ∧ Backed cfg4 m1 v1 ∧
      vec_roomy2.elements m1 = .ok [1, 2] :=
  copy_assign_inline_from_heap cfg4 (mem_roomy2 ++ [⟨[none, none, none, none], true, false⟩])
    ⟨⟨some 2, 0⟩, .stack 0, 2⟩ vec_roomy2 [] [1, 2]
    (Owns.stack 2 [] [none, none, none, none] (by decide) rfl rfl)
    (Owns.heap 0 1 8 [1, 2] [none, none, none, none, none, none] rfl) rfl rfl (by decide)
    (by decide)

/-- C15, the code at failing inputs. Target `a`: a Heap `small_vector<Nat, 4>` holding
1..5 in a buffer of exactly 5 slots (after `shrink_to_fit`). With the Heap source
6..11 (size 6 > 5) no new buffer is allocated: the sixth element is constructed past
the end of the 5-slot buffer. With the Heap source 6..10 (size 5, capacity 8) the
elements fit, and `a` then reports capacity 8 over the same 5-slot buffer. -/
theorem copy_assign_heap_ignores_capacity :
    shrink_to_fit cfg4 mem_heap5 vec_heap5 = .ok (mem_fit5, vec_fit5) ∧
    vec_fit5.is_small = false ∧ vec_fit5.capacity cfg4 = 5 ∧
    mem_fit5[2]? = some ⟨[some 1, some 2, some 3, some 4, some 5], true, true⟩ ∧
    (∃ m b, pushed cfg4 mem_fit5 [6, 7, 8, 9, 10, 11] = .ok (m, b) ∧ b.size = 6 ∧
      assign_copy cfg4 m vec_fit5 b = .error .out_of_bounds) ∧
    (∃ m b m1 a1, pushed cfg4 mem_fit5 [6, 7, 8, 9, 10] = .ok (m, b) ∧ b.size = 5 ∧
      b.capacity cfg4 = 8 ∧ assign_copy cfg4 m vec_fit5 b = .ok (m1, a1) ∧
      a1.data = vec_fit5.data ∧
      m1[2]? = some ⟨[some 6, some 7, some 8, some 9, some 10], true, true⟩ ∧
      a1.capacity cfg4 = 8) :=
  ⟨rfl, rfl, rfl, rfl, ⟨_, _, rfl, rfl, rfl⟩, ⟨_, _, _, _, rfl, rfl, rfl, rfl, rfl, rfl, rfl⟩⟩

end claims_demotion_copy


/-! ## Moved-from containers and `swap` -/

section claims_move
open small_vector

/-- C16, the code at failing inputs. Source `a`: a Heap `small_vector<Nat, 4>` holding
1..5. After the move construction `b(move(a))`, after the move assignment to an Inline
target, and after the move assignment to a Heap target, `a.size()` is still 5 (and
`a.data()` is null): the branches that adopt the buffer never reset the size of the
source. -/
theorem move_from_heap_keeps_source_size :
    pushed cfg4 [] [1, 2, 3, 4, 5] = .ok (mem_heap5, vec_heap5) ∧
    vec_heap5.is_small = false ∧ vec_heap5.size = 5 ∧
    (∃ m b a, ctor_move cfg4 mem_heap5 vec_heap5 = .ok (m, b, a) ∧
      a.size = 5 ∧ a.data = nullptr) ∧
    (∃ m0 b0 m b a, ctor cfg4 mem_heap5 = .ok (m0, b0) ∧ b0.is_small = true ∧
      assign_move cfg4 m0 b0 vec_heap5 = .ok (m, b, a) ∧ a.size = 5 ∧ a.data = nullptr) ∧
    (∃ m0 b0 m b a, pushed cfg4 mem_heap5 [6, 7, 8, 9, 10] = .ok (m0, b0) ∧
      b0.is_small = false ∧
      assign_move cfg4 m0 b0 vec_heap5 = .ok (m, b, a) ∧ a.size = 5 ∧ a.data = nullptr) :=
  ⟨rfl, rfl, rfl, ⟨_, _, _, rfl, rfl, rfl⟩, ⟨_, _, _, _, _, rfl, rfl, rfl, rfl, rfl⟩,
    ⟨_, _, _, _, _, rfl, rfl, rfl, rfl, rfl⟩⟩

/-- C17, the code at failing inputs. After `b = move(a)` with `a` an Inline
`small_vector<Nat, 4>` holding 1, 2, `a` is Inline with size 0 and a null `data()`, and
`a.push_back(9)` constructs the value through the null pointer. After `b = move(a)` or
`b(move(a))` with `a` Heap holding 1..5, `a` keeps size 5 with a null `data()`, and
`a.push_back(9)` again writes through the null pointer. -/
theorem push_back_after_move_faults :
    pushed cfg4 [] [1, 2] = .ok (mem_inline2, vec_inline2) ∧
    pushed cfg4 [] [1, 2, 3, 4, 5] = .ok (mem_heap5, vec_heap5) ∧
    (∃ m0 b0 m b a, ctor cfg4 mem_inline2 = .ok (m0, b0) ∧
      assign_move cfg4 m0 b0 vec_inline2 = .ok (m, b, a) ∧
      a.is_small = true ∧ a.size = 0 ∧ a.data = nullptr ∧
      push_back cfg4 m a 9 = .error .null_deref) ∧
    (∃ m0 b0 m b a, ctor cfg4 mem_heap5 = .ok (m0, b0) ∧
      assign_move cfg4 m0 b0 vec_heap5 = .ok (m, b, a) ∧
      a.is_small = false ∧ a.size = 5 ∧ a.data = nullptr ∧
      push_back cfg4 m a 9 = .error .null_deref) ∧
    (∃ m b a, ctor_move cfg4 mem_heap5 vec_heap5 = .ok (m, b, a) ∧
      a.is_small = false ∧ a.size = 5 ∧ a.data = nullptr ∧
      push_back cfg4 m a 9 = .error .null_deref) :=
  ⟨rfl, rfl, ⟨_, _, _, _, _, rfl, rfl, rfl, rfl, rfl, rfl⟩,
    ⟨_, _, _, _, _, rfl, rfl, rfl, rfl, rfl, rfl⟩, ⟨_, _, _, rfl, rfl, rfl, rfl, rfl⟩⟩

/-- C18, the code at failing inputs. Target `b`: an Inline `small_vector<Nat, 4>` that
was the source of an earlier move assignment (size 0, `data()` null), or the copy of an
empty container (the same state). Source `a`: Inline, holding 7. The move assignment
`b = move(a)` move-constructs the element at `b.data()`, a null pointer. -/
theorem move_assign_to_null_data_faults :
    (∃ m0 x0 m1 y1 m2 y2 b m3 a, pushed cfg4 ([] : Mem Nat) [1] = .ok (m0, x0) ∧
      ctor cfg4 m0 = .ok (m1, y1) ∧ assign_move cfg4 m1 y1 x0 = .ok (m2, y2, b) ∧
      b.is_small = true ∧ b.size = 0 ∧ b.data = nullptr ∧
      pushed cfg4 m2 [7] = .ok (m3, a) ∧ a.is_small = true ∧ a.elements m3 = .ok [7] ∧
      assign_move cfg4 m3 b a = .error .null_deref) ∧
    (∃ m0 e m1 b m2 a, ctor cfg4 ([] : Mem Nat) = .ok (m0, e) ∧
      ctor_copy cfg4 m0 e = .ok (m1, b) ∧
      b.is_small = true ∧ b.size = 0 ∧ b.data = nullptr ∧
      pushed cfg4 m1 [7] = .ok (m2, a) ∧ a.is_small = true ∧ a.elements m2 = .ok [7] ∧
      assign_move cfg4 m2 b a = .error .null_deref) :=
  ⟨⟨_, _, _, _, _, _, _, _, _, rfl, rfl, rfl, rfl, rfl, rfl, rfl, rfl, rfl, rfl⟩,
    ⟨_, _, _, _, _, _, rfl, rfl, rfl, rfl, rfl, rfl, rfl, rfl, rfl⟩⟩

/-- C19, the code at a failing input. Source `a`: an Inline `small_vector<Nat, 4>`
holding 1, 2. The move constructor relocates the elements into the inline array of `b`
but never sets `b.m_ptr`: with the assertion macros compiled in, the closing
`SCN_ENSURE(data())` fails; with them compiled out, `b` is returned with size 2 and a
null `data()`, through which no element can be read. -/
theorem move_ctor_inline_leaves_data_null :
    pushed cfg4 [] [1, 2] = .ok (mem_inline2, vec_inline2) ∧
    vec_inline2.is_small = true ∧
    ctor_move cfg4 mem_inline2 vec_inline2 = .error .contract ∧
    ∃ m b a, ctor_move cfg4_unchecked mem_inline2 vec_inline2 = .ok (m, b, a) ∧
      b.is_small = true ∧ b.size = 2 ∧
      m[b.inl]? = some ⟨[some 1, some 2, none, none], true, false⟩ ∧
      b.data = nullptr ∧ b.elements m = .error .null_deref :=
  ⟨rfl, rfl, rfl, _, _, _, rfl, rfl, rfl, rfl, rfl, rfl⟩

/-- C20, the code at failing inputs. `a.swap(b)` with `a` holding 1, 2 and `b` holding 7,
both Inline `small_vector<Nat, 4>`: the move construction of `tmp` fails its closing
`SCN_ENSURE(data())`; with the assertion macros compiled out, `b = move(a)` then writes
through the null `b.data()`. With `a` holding 1..5 and `b` holding 6..10, both Heap,
`b = move(a)` destroys five elements through the null `b.data()`. -/
theorem swap_faults :
    pushed cfg4 [] [1, 2] = .ok (mem_inline2, vec_inline2) ∧
    pushed cfg4 [] [1, 2, 3, 4, 5] = .ok (mem_heap5, vec_heap5) ∧
    (∃ m b, pushed cfg4 mem_inline2 [7] = .ok (m, b) ∧
      vec_inline2.is_small = true ∧ b.is_small = true ∧
      swap cfg4 m vec_inline2 b = .error .contract ∧
      swap cfg4_unchecked m vec_inline2 b = .error .null_deref) ∧
    (∃ m b, pushed cfg4 mem_heap5 [6, 7, 8, 9, 10] = .ok (m, b) ∧
      vec_heap5.is_small = false ∧ b.is_small = false ∧
      swap cfg4 m vec_heap5 b = .error .null_deref ∧
      swap cfg4_unchecked m vec_heap5 b = .error .null_deref) :=
  ⟨rfl, rfl, ⟨_, _, rfl, rfl, rfl, rfl, rfl⟩, ⟨_, _, rfl, rfl, rfl, rfl, rfl⟩⟩

end claims_move


/-! ## The shrinking mutators: `clear`, `pop_back`, `resize`, `erase` -/

section shrink_ops
variable {T : Type}
open small_vector

/-- One pass of the loop of `erase` on two neighbouring objects: the left one is destroyed
and rebuilt from the right one. -/
theorem erase_step (m : Mem T) (r : Nat) (reg : Region T) (a : List (Option T)) (u w : T)
    (t : List (Option T)) (h : m[r]? = some reg) (hl : reg.live = true)
    (hc : reg.cells = a ++ some u :: some w :: t) (n : Nat) :
    erase_loop m ⟨some r, 0⟩ a.length (n + 1)
      = erase_loop (m.set r ⟨a ++ some w :: some w :: t, reg.live, reg.dyn⟩) ⟨some r, 0⟩
          (a.length + 1) n := by
  have h0 : reg.cells[a.length]? = some (some u) := by rw [hc]; exact getElem?_prefix_cons _ _ _
  have hd := destroy_at_ok h hl h0
  have hset : reg.cells.set a.length none = a ++ none :: some w :: t := by
    rw [hc]; exact set_length_append_cons _ _ _ _
  rw [hset] at hd
  have h1 : (m.set r (⟨a ++ none :: some w :: t, reg.live, reg.dyn⟩ : Region T))[r]?
      = some ⟨a ++ none :: some w :: t, reg.live, reg.dyn⟩ := getElem?_set_same h
  have hw : (a ++ none :: some w :: t)[a.length + 1]? = some (some w) := by
    have := getElem?_prefix_cons (a ++ [none]) (some w) t
    simpa using this
  have hld := load_ok (x := w) h1 hl hw
  have hco := construct_at_ok w h1 hl (o := a.length) (by simp)
  have hset2 : (a ++ none :: some w :: t).set a.length (some w) = a ++ some w :: some w :: t :=
    set_length_append_cons _ _ _ _
  simp only [hset2, List.set_set] at hco
  simp only [erase_loop, Ptr.add_mk, Nat.zero_add, hd, hld, hco]

/-- The loop of `erase` over the objects `x :: ys` when the slot after them holds an object
`y`: every object moves one slot to the left and `y` is duplicated. -/
theorem erase_loop_ok (ys : List T) :
    ∀ (m : Mem T) (r : Nat) (reg : Region T) (a : List (Option T)) (x y : T)
      (rest : List (Option T)), m[r]? = some reg → reg.live = true →
      reg.cells = a ++ some x :: (ys.map some ++ some y :: rest) →
      erase_loop m ⟨some r, 0⟩ a.length (ys.length + 1)
        = .ok (m.set r ⟨a ++ ((ys ++ [y]).map some ++ some y :: rest), reg.live, reg.dyn⟩) := by
  induction ys with
  | nil =>
    intro m r reg a x y rest h hl hc
    rw [List.length_nil, erase_step m r reg a x y rest h hl (by simpa using hc) 0]
    simp [erase_loop]
  | cons z ys ih =>
    intro m r reg a x y rest h hl hc
    rw [List.length_cons, erase_step m r reg a x z (ys.map some ++ some y :: rest) h hl
      (by simpa using hc) (ys.length + 1)]
    have := ih (m.set r ⟨a ++ some z :: some z :: (ys.map some ++ some y :: rest), reg.live,
      reg.dyn⟩) r _ (a ++ [some z]) z y rest (getElem?_set_same h) hl (by simp)
    simp only [List.length_append, List.length_singleton, List.set_set] at this
    rw [this]
    simp

/-- The loop of `erase` over the objects `x :: ys` when the slot after them is raw or is
not a slot of the array: the last pass reads it. -/
theorem erase_loop_faults (ys : List T) :
    ∀ (m : Mem T) (r : Nat) (reg : Region T) (a : List (Option T)) (x : T)
      (tail : List (Option T)), m[r]? = some reg → reg.live = true →
      reg.cells = a ++ some x :: (ys.map some ++ tail) →
      (∀ y, tail.head? ≠ some (some y)) →
      erase_loop m ⟨some r, 0⟩ a.length (ys.length + 1)
        = .error (if tail.isEmpty then .out_of_bounds else .uninit_read) := by
  induction ys with
  | nil =>
    intro m r reg a x tail h hl hc hraw
    have h0 : reg.cells[a.length]? = some (some x) := by rw [hc]; exact getElem?_prefix_cons _ _ _
    have hd := destroy_at_ok h hl h0
    have hset : reg.cells.set a.length none = a ++ none :: tail := by
      rw [hc]; exact set_length_append_cons _ _ _ _
    rw [hset] at hd
    have h1 : (m.set r (⟨a ++ none :: tail, reg.live, reg.dyn⟩ : Region T))[r]?
        = some ⟨a ++ none :: tail, reg.live, reg.dyn⟩ := getElem?_set_same h
    have hreg := Mem.region_ok (o := a.length + 1) h1 hl
    have hidx : (a ++ none :: tail)[a.length + 1]? = tail.head? := by
      rw [List.getElem?_append_right (by omega)]
      cases tail <;> simp
    simp only [List.length_nil, erase_loop, Ptr.add_mk, Nat.zero_add, hd, load, hreg, hidx]
    cases tail with
    | nil => rfl
    | cons q t =>
      cases q with
      | none => rfl
      | some y => exact absurd rfl (hraw y)
  | cons z ys ih =>
    intro m r reg a x tail h hl hc hraw
    rw [List.length_cons, erase_step m r reg a x z (ys.map some ++ tail) h hl
      (by simpa using hc) (ys.length + 1)]
    have := ih (m.set r ⟨a ++ some z :: some z :: (ys.map some ++ tail), reg.live,
      reg.dyn⟩) r _ (a ++ [some z]) z tail (getElem?_set_same h) hl (by simp) hraw
    simp only [List.length_append, List.length_singleton] at this
    exact this

theorem size_pred_mod (c : Config) (n : Nat) (h1 : 1 ≤ n) (h2 : n ≤ SIZE_MOD c) :
    (n + SIZE_MOD c - 1) % SIZE_MOD c = n - 1 := by
  have : n + SIZE_MOD c - 1 = (n - 1) + SIZE_MOD c := by omega
  rw [this, Nat.add_mod_right, Nat.mod_eq_of_lt (by omega)]

/-- `erase` at the position of `x` in a container that holds `pre ++ x :: ys`, when the
slot at index `size()` holds an object `y`: `x` is removed, the order of the others is
kept, and the returned iterator is the position. -/
theorem erase_ok (c : Config) (m : Mem T) (v : small_vector) (r : Nat) (d : Bool)
    (pre ys : List T) (x y : T) (rest : List (Option T)) (hp : v.m_ptr = ⟨some r, 0⟩)
    (hs : v.size = (pre ++ x :: ys).length) (hM : (pre ++ x :: ys).length ≤ SIZE_MOD c)
    (hm : m[r]? = some ⟨(pre ++ x :: ys).map some ++ some y :: rest, true, d⟩) :
    erase c m v pre.length
      = .ok (m.set r ⟨(pre ++ ys).map some ++ none :: some y :: rest, true, d⟩,
          v._set_size ((pre ++ x :: ys).length - 1), ⟨some r, pre.length⟩) := by
  have hlen : (pre ++ x :: ys).length = pre.length + (ys.length + 1) := by simp
  have hne : (pre.length == v.size) = false := by rw [hs, hlen]; simp
  have hlt : ¬ v.size < pre.length := by rw [hs, hlen]; omega
  have hcnt : v.size - pre.length = ys.length + 1 := by rw [hs, hlen]; omega
  have hloop := erase_loop_ok ys m r _ (pre.map some) x y rest hm rfl (by simp)
  simp only [List.length_map] at hloop
  have hsub : (⟨some r, v.size⟩ : Ptr).sub 1 = .ok ⟨some r, pre.length + ys.length⟩ := by
    simp [Ptr.sub, hs]
  have hcell : (pre.map some ++ ((ys ++ [y]).map some ++ some y :: rest))[pre.length + ys.length]?
      = some (some y) := by
    have := getElem?_prefix_cons (pre.map some ++ ys.map some) (some y) (some y :: rest)
    simpa [Nat.add_comm] using this
  have hdes := destroy_at_ok (x := y) (o := pre.length + ys.length)
    (getElem?_set_same hm (b := (⟨pre.map some ++ ((ys ++ [y]).map some ++ some y :: rest),
      true, d⟩ : Region T))) rfl hcell
  have hset : (pre.map some ++ ((ys ++ [y]).map some ++ some y :: rest)).set
      (pre.length + ys.length) none = (pre ++ ys).map some ++ none :: some y :: rest := by
    simp [Nat.add_comm]
  simp only [hset, List.set_set] at hdes
  simp only [erase, hne, Bool.false_eq_true, ↓reduceIte, hlt, begin, data, hp, hcnt, hloop,
    end_, Ptr.add_mk, Nat.zero_add, hsub, hdes]
  rw [hs, size_pred_mod c _ (by rw [hlen]; omega) hM]

/-- `erase` at the position of `x` in a container that holds `pre ++ x :: ys`, when the
slot at index `size()` is raw or the array ends at `size()`: the last pass of the loop
reads that slot. -/
theorem erase_faults (c : Config) (m : Mem T) (v : small_vector) (r : Nat) (d : Bool)
    (pre ys : List T) (x : T) (tail : List (Option T)) (hp : v.m_ptr = ⟨some r, 0⟩)
    (hs : v.size = (pre ++ x :: ys).length)
    (hm : m[r]? = some ⟨(pre ++ x :: ys).map some ++ tail, true, d⟩)
    (hraw : ∀ y, tail.head? ≠ some (some y)) :
    erase c m v pre.length
      = .error (if tail.isEmpty then .out_of_bounds else .uninit_read) := by
  have hlen : (pre ++ x :: ys).length = pre.length + (ys.length + 1) := by simp
  have hne : (pre.length == v.size) = false := by rw [hs, hlen]; simp
  have hlt : ¬ v.size < pre.length := by rw [hs, hlen]; omega
  have hcnt : v.size - pre.length = ys.length + 1 := by rw [hs, hlen]; omega
  have hloop := erase_loop_faults ys m r _ (pre.map some) x tail hm rfl (by simp) hraw
  simp only [List.length_map] at hloop
  simp only [erase, hne, Bool.false_eq_true, ↓reduceIte, hlt, begin, data, hp, hcnt, hloop]

/-- `pop_back` on a container that holds `ys ++ [x]`: the last object is destroyed and the
size goes down by one. -/
theorem pop_back_ok (c : Config) (m : Mem T) (v : small_vector) (r : Nat) (d : Bool)
    (ys : List T) (x : T) (rest : List (Option T)) (hp : v.m_ptr = ⟨some r, 0⟩)
    (hs : v.size = (ys ++ [x]).length) (hM : (ys ++ [x]).length ≤ SIZE_MOD c)
    (hm : m[r]? = some ⟨(ys ++ [x]).map some ++ rest, true, d⟩) :
    pop_back c m v
      = .ok (m.set r ⟨ys.map some ++ none :: rest, true, d⟩, v._set_size ys.length) := by
  have hlen : (ys ++ [x]).length = ys.length + 1 := by simp
  have hback := back_ok c v (some r) hp (by rw [hs, hlen]; omega)
  have hcell : ((ys ++ [x]).map some ++ rest)[v.size - 1]? = some (some x) := by
    have := getElem?_prefix_cons (ys.map some) (some x) rest
    rw [hs, hlen]
    simpa using this
  have hdes := destroy_at_ok (x := x) (o := v.size - 1) hm rfl hcell
  have hset : ((ys ++ [x]).map some ++ rest).set (v.size - 1) none
      = ys.map some ++ none :: rest := by
    rw [hs, hlen]
    simp
  simp only [hset] at hdes
  simp only [pop_back, hback, hdes]
  rw [hs, size_pred_mod c _ (by rw [hlen]; omega) hM, hlen, Nat.add_sub_cancel]

/-- `resize(count)` with `count ≤ size()` on a container that holds `xs`: the objects from
index `count` on are destroyed and the size becomes `count`. -/
theorem resize_ok (m : Mem T) (v : small_vector) (r : Nat) (d : Bool) (xs : List T)
    (count : Nat) (rest : List (Option T)) (hp : v.m_ptr = ⟨some r, 0⟩)
    (hs : v.size = xs.length) (hc : count ≤ xs.length)
    (hm : m[r]? = some ⟨xs.map some ++ rest, true, d⟩) :
    resize m v count
      = .ok (m.set r ⟨(xs.take count).map some ++
          (List.replicate (xs.length - count) none ++ rest), true, d⟩, v._set_size count) := by
  have hcells : xs.map some ++ rest
      = (xs.take count).map some ++ (xs.drop count).map some ++ rest := by
    rw [← List.map_append, List.take_append_drop]
  have hloop := _destruct_elements_loop_ok (xs.drop count) m r _ ((xs.take count).map some)
    rest hm rfl hcells
  simp only [List.length_map, List.length_take, List.length_drop, Nat.min_eq_left hc] at hloop
  have hgt : ¬ count > xs.length := by omega
  simp only [resize, hs, hgt, ↓reduceIte, begin, data, hp, hloop, List.append_assoc]

/-- `resize(count)` with `count > size()` does nothing. -/
theorem resize_grow (m : Mem T) (v : small_vector) (count : Nat) (h : v.size < count) :
    resize m v count = .ok (m, v) := by
  simp [resize, h]

/-- `resize(0)` on an empty container does nothing but store the size. -/
theorem resize_empty (m : Mem T) (v : small_vector) (h : v.size = 0) :
    resize m v 0 = .ok (m, v._set_size 0) := by
  simp [resize, h, _destruct_elements_loop]

theorem split_at_index (xs : List T) (i : Nat) (hi : i < xs.length) :
    ∃ pre x ys, xs = pre ++ x :: ys ∧ pre.length = i ∧ xs.eraseIdx i = pre ++ ys := by
  refine ⟨xs.take i, xs[i], xs.drop (i + 1), ?_, ?_, ?_⟩
  · rw [← List.drop_eq_getElem_cons hi, List.take_append_drop]
  · simp [List.length_take]; omega
  · exact List.eraseIdx_eq_take_drop_succ xs i

theorem head?_of_load {m : Mem T} {r : Nat} {d : Bool} {xs : List T} {rest : List (Option T)}
    (hm : m[r]? = some ⟨xs.map some ++ rest, true, d⟩) (y : T)
    (hh : rest.head? = some (some y)) : load m ⟨some r, xs.length⟩ = .ok y := by
  cases rest with
  | nil => simp at hh
  | cons q t =>
    simp only [List.head?_cons, Option.some.injEq] at hh
    subst hh
    refine load_ok hm rfl ?_
    have := getElem?_prefix_cons (xs.map some) (some y) t
    simpa using this

theorem load_at_length {m : Mem T} {r : Nat} {d : Bool} {xs : List T}
    {rest : List (Option T)} {y : T} (hm : m[r]? = some ⟨xs.map some ++ rest, true, d⟩)
    (hy : load m ⟨some r, xs.length⟩ = .ok y) : ∃ t, rest = some y :: t := by
  have hidx : (xs.map some ++ rest)[xs.length]? = rest.head? := by
    rw [List.getElem?_append_right (by simp)]
    cases rest <;> simp
  simp only [load, Mem.region_ok hm rfl, hidx] at hy
  cases rest with
  | nil => simp at hy
  | cons q t =>
    cases q with
    | none => simp at hy
    | some z =>
      simp only [List.head?_cons, Except.ok.injEq] at hy
      subst hy
      exact ⟨t, rfl⟩

/-- `erase(begin() + i)` with `i < size()` on a container that holds `xs`, when the slot at
index `size()` holds an object: it returns a container that holds `xs` without its
`i`-th element, in the same mode and with the same capacity. -/
theorem erase_owns (c : Config) (m : Mem T) (v : small_vector) (xs : List T) (i : Nat) (y : T)
    (h : Owns c m v xs) (hi : i < xs.length) (hM : xs.length ≤ SIZE_MOD c)
    (hy : load m v.end_ = .ok y) :
    ∃ m1 v1 p, erase c m v i = .ok (m1, v1, p) ∧ Owns c m1 v1 (xs.eraseIdx i) ∧
      v1.size = xs.length - 1 ∧ v1.is_small = v.is_small ∧ v1.capacity c = v.capacity c ∧
      p = v.begin.add i := by
  cases h with
  | null => simp at hi
  | stack inl xs rest hN hm hl =>
    obtain ⟨pre, x, ys, rfl, rfl, hers⟩ := split_at_index xs i hi
    rw [hers]
    have hlen : (pre ++ x :: ys).length - 1 = (pre ++ ys).length := by simp
    have hrest := load_at_length hm (by simpa [end_, begin, data, small_vector.size] using hy)
    obtain ⟨t, rfl⟩ := hrest
    have hres := erase_ok c m ⟨⟨some inl, 0⟩, .stack (pre ++ x :: ys).length, inl⟩ inl false pre ys
      x y t rfl rfl hM hm
    have hown := Owns.stack (c := c) inl (pre ++ ys) (none :: some y :: t) hN
      (getElem?_set_same hm (b := (⟨(pre ++ ys).map some ++ none :: some y :: t, true, false⟩ :
        Region T))) (by simp at hl ⊢; omega)
    rw [← hlen] at hown
    exact ⟨_, _, _, hres, hown, rfl, rfl, rfl, by simp [begin, data]⟩
  | heap inl r cap xs rest hm =>
    obtain ⟨pre, x, ys, rfl, rfl, hers⟩ := split_at_index xs i hi
    rw [hers]
    have hlen : (pre ++ x :: ys).length - 1 = (pre ++ ys).length := by simp
    have hrest := load_at_length hm (by simpa [end_, begin, data, small_vector.size] using hy)
    obtain ⟨t, rfl⟩ := hrest
    have hres := erase_ok c m ⟨⟨some r, 0⟩, .heap (pre ++ x :: ys).length cap, inl⟩ r true pre ys
      x y t rfl rfl hM hm
    have hown := Owns.heap (c := c) inl r cap (pre ++ ys) (none :: some y :: t)
      (getElem?_set_same hm (b := (⟨(pre ++ ys).map some ++ none :: some y :: t, true, true⟩ :
        Region T)))
    rw [← hlen] at hown
    exact ⟨_, _, _, hres, hown, rfl, rfl, rfl, by simp [begin, data]⟩

/-- `erase(begin() + i)` with `i < size()` on a container that holds `xs`, when the slot at
index `size()` holds no object: the call reads that slot, a raw slot or, when the array
has exactly `size()` slots, the memory after the array. -/
theorem erase_owns_faults (c : Config) (m : Mem T) (v : small_vector) (xs : List T) (i : Nat)
    (h : Owns c m v xs) (hi : i < xs.length) (hy : ∀ y, load m v.end_ ≠ .ok y) :
    (erase c m v i = .error .uninit_read ∨ erase c m v i = .error .out_of_bounds) ∧
      (Backed c m v → xs.length = v.capacity c → erase c m v i = .error .out_of_bounds) := by
  cases h with
  | null => simp at hi
  | stack inl xs rest hN hm hl =>
    obtain ⟨pre, x, ys, rfl, rfl, _⟩ := split_at_index xs i hi
    have hraw : ∀ y, rest.head? ≠ some (some y) := by
      intro y hh
      have := head?_of_load hm y hh
      exact hy y (by simpa [end_, begin, data, small_vector.size] using this)
    have hres := erase_faults c m ⟨⟨some inl, 0⟩, .stack (pre ++ x :: ys).length, inl⟩ inl false
      pre ys x rest rfl rfl hm hraw
    rw [hres]
    refine ⟨?_, fun _ hfull => ?_⟩
    · cases rest.isEmpty <;> simp
    · have : rest = [] := by
        simp only [capacity] at hfull
        exact List.length_eq_zero.1 (by omega)
      simp [this]
  | heap inl r cap xs rest hm =>
    obtain ⟨pre, x, ys, rfl, rfl, _⟩ := split_at_index xs i hi
    have hraw : ∀ y, rest.head? ≠ some (some y) := by
      intro y hh
      have := head?_of_load hm y hh
      exact hy y (by simpa [end_, begin, data, small_vector.size] using this)
    have hres := erase_faults c m ⟨⟨some r, 0⟩, .heap (pre ++ x :: ys).length cap, inl⟩ r true
      pre ys x rest rfl rfl hm hraw
    rw [hres]
    refine ⟨?_, fun hb hfull => ?_⟩
    · cases rest.isEmpty <;> simp
    · obtain ⟨R, hR, hRl⟩ := hb
      have h1 : m[r]? = some R := hR
      rw [hm] at h1
      cases h1
      have : rest = [] := by
        simp only [capacity, List.length_append, List.length_map] at hRl hfull
        exact List.length_eq_zero.1 (by omega)
      simp [this]

/-- `pop_back` on a non-empty container that holds `xs`: it returns a container that holds
`xs` without its last element, in the same mode and with the same capacity. -/
theorem pop_back_owns (c : Config) (m : Mem T) (v : small_vector) (xs : List T)
    (h : Owns c m v xs) (hx : xs ≠ []) (hM : xs.length ≤ SIZE_MOD c) :
    ∃ m1 v1, pop_back c m v = .ok (m1, v1) ∧ Owns c m1 v1 xs.dropLast ∧
      v1.size = xs.length - 1 ∧ v1.is_small = v.is_small ∧ v1.capacity c = v.capacity c := by
  cases h with
  | null => exact absurd rfl hx
  | stack inl xs rest hN hm hl =>
    obtain ⟨ys, x, rfl⟩ : ∃ ys x, xs = ys ++ [x] :=
      ⟨xs.dropLast, xs.getLast hx, (List.dropLast_append_getLast hx).symm⟩
    have hres := pop_back_ok c m ⟨⟨some inl, 0⟩, .stack (ys ++ [x]).length, inl⟩ inl false ys x
      rest rfl rfl hM hm
    have hown := Owns.stack (c := c) inl ys (none :: rest) hN
      (getElem?_set_same hm (b := (⟨ys.map some ++ none :: rest, true, false⟩ : Region T)))
      (by simp at hl ⊢; omega)
    rw [List.dropLast_concat]
    exact ⟨_, _, hres, hown, by simp [_set_size, small_vector.size], rfl, rfl⟩
  | heap inl r cap xs rest hm =>
    obtain ⟨ys, x, rfl⟩ : ∃ ys x, xs = ys ++ [x] :=
      ⟨xs.dropLast, xs.getLast hx, (List.dropLast_append_getLast hx).symm⟩
    have hres := pop_back_ok c m ⟨⟨some r, 0⟩, .heap (ys ++ [x]).length cap, inl⟩ r true ys x
      rest rfl rfl hM hm
    have hown := Owns.heap (c := c) inl r cap ys (none :: rest)
      (getElem?_set_same hm (b := (⟨ys.map some ++ none :: rest, true, true⟩ : Region T)))
    rw [List.dropLast_concat]
    exact ⟨_, _, hres, hown, by simp [_set_size, small_vector.size], rfl, rfl⟩

/-- `resize(count)` with `count ≤ size()` on a container that holds `xs`: it returns a
container that holds the first `count` elements, in the same mode and with the same
capacity. -/
theorem resize_owns (c : Config) (m : Mem T) (v : small_vector) (xs : List T) (count : Nat)
    (h : Owns c m v xs) (hc : count ≤ xs.length) :
    ∃ m1 v1, resize m v count = .ok (m1, v1) ∧ Owns c m1 v1 (xs.take count) ∧
      v1.size = count ∧ v1.is_small = v.is_small ∧ v1.capacity c = v.capacity c := by
  have hlen : (xs.take count).length = count := by simp [List.length_take, hc]
  cases h with
  | null inl cap =>
    have : count = 0 := by simpa using hc
    subst this
    exact ⟨_, _, resize_empty m _ rfl, Owns.null inl cap, rfl, rfl, rfl⟩
  | stack inl xs rest hN hm hl =>
    have hres := resize_ok m ⟨⟨some inl, 0⟩, .stack xs.length, inl⟩ inl false xs count rest rfl
      rfl hc hm
    have hown := Owns.stack (c := c) inl (xs.take count)
      (List.replicate (xs.length - count) none ++ rest) hN
      (getElem?_set_same hm (b := (⟨(xs.take count).map some ++
        (List.replicate (xs.length - count) none ++ rest), true, false⟩ : Region T)))
      (by simp [List.length_take]; omega)
    rw [hlen] at hown
    exact ⟨_, _, hres, hown, rfl, rfl, rfl⟩
  | heap inl r cap xs rest hm =>
    have hres := resize_ok m ⟨⟨some r, 0⟩, .heap xs.length cap, inl⟩ r true xs count rest rfl
      rfl hc hm
    have hown := Owns.heap (c := c) inl r cap (xs.take count)
      (List.replicate (xs.length - count) none ++ rest)
      (getElem?_set_same hm (b := (⟨(xs.take count).map some ++
        (List.replicate (xs.length - count) none ++ rest), true, true⟩ : Region T)))
    rw [hlen] at hown
    exact ⟨_, _, hres, hown, rfl, rfl, rfl⟩

/-- `clear()` on a container that holds `xs`: it returns an empty container in the same
mode and with the same capacity. -/
theorem clear_owns (c : Config) (m : Mem T) (v : small_vector) (xs : List T)
    (h : Owns c m v xs) :
    ∃ m1 v1, clear m v = .ok (m1, v1) ∧ Owns c m1 v1 [] ∧
      v1.size = 0 ∧ v1.is_small = v.is_small ∧ v1.capacity c = v.capacity c := by
  cases h with
  | null inl cap => exact ⟨_, _, _destruct_elements_empty m _ rfl, Owns.null inl cap, rfl, rfl, rfl⟩
  | stack inl xs rest hN hm hl =>
    have hres := _destruct_elements_ok m ⟨⟨some inl, 0⟩, .stack xs.length, inl⟩ inl false xs rest
      rfl rfl hm
    have hown := Owns.stack (c := c) inl [] (List.replicate xs.length none ++ rest) hN
      (getElem?_set_same hm (b := (⟨List.replicate xs.length none ++ rest, true, false⟩ :
        Region T))) (by simpa using hl)
    exact ⟨_, _, hres, hown, rfl, rfl, rfl⟩
  | heap inl r cap xs rest hm =>
    have hres := _destruct_elements_ok m ⟨⟨some r, 0⟩, .heap xs.length cap, inl⟩ r true xs rest
      rfl rfl hm
    have hown := Owns.heap (c := c) inl r cap [] (List.replicate xs.length none ++ rest)
      (getElem?_set_same hm (b := (⟨List.replicate xs.length none ++ rest, true, true⟩ :
        Region T)))
    exact ⟨_, _, hres, hown, rfl, rfl, rfl⟩

theorem is_small_set_size (v : small_vector) (n : Nat) : (v._set_size n).is_small = v.is_small := by
  obtain ⟨p, st, inl⟩ := v
  cases st <;> rfl

theorem capacity_set_size (c : Config) (v : small_vector) (n : Nat) :
    (v._set_size n).capacity c = v.capacity c := by
  obtain ⟨p, st, inl⟩ := v
  cases st <;> rfl

/-- Whatever the state, a call of `erase` that returns has only stored a new size. -/
theorem erase_frame {c : Config} {m m1 : Mem T} {v v1 : small_vector} {i : Nat} {p : Ptr}
    (h : erase c m v i = .ok (m1, v1, p)) : ∃ n, v1 = v._set_size n := by
  simp only [erase] at h
  repeat' split at h
  all_goals first | (cases h; exact ⟨_, rfl⟩) | cases h

end shrink_ops


/-! ## `size() ≤ capacity()` on containers that hold their elements -/

section size_capacity
variable {T : Type}
open small_vector

/-- A container that holds its elements in an array of `capacity()` slots has
`size() ≤ capacity()`. -/
theorem Owns.size_le_capacity {c : Config} {m : Mem T} {v : small_vector} {xs : List T}
    (h : Owns c m v xs) (hb : Backed c m v) : v.size ≤ v.capacity c := by
  cases h with
  | null => simp [small_vector.size]
  | stack inl xs rest hN hm hl =>
    simp only [small_vector.size, capacity]
    omega
  | heap inl r cap xs rest hm =>
    obtain ⟨R, hR, hRl⟩ := hb
    have h1 : m[r]? = some R := hR
    rw [hm] at h1
    cases h1
    simp only [capacity, List.length_append, List.length_map] at hRl
    simp only [small_vector.size, capacity]
    omega

/-- `emplace_back` on a container that holds `xs` in an array of `capacity()` slots: it
returns what `push_back` returns, together with a reference to the new last element. -/
theorem emplace_back_ok (c : Config) (m : Mem T) (v : small_vector) (xs : List T) (x : T)
    (h : Owns c m v xs) (hb : Backed c m v) (hk : xs.length + 1 ≤ 2 ^ (SIZE_BITS c - 2)) :
    ∃ m1 v1 p, emplace_back c m v x = .ok (m1, v1, p) ∧ push_back c m v x = .ok (m1, v1) ∧
      load m1 p = .ok x ∧ Owns c m1 v1 (xs ++ [x]) ∧ Backed c m1 v1 := by
  obtain ⟨m1, v1, hres, ho, hb1, _⟩ := push_back_ok c m v xs x h hb hk
  have hback := ho.back
  cases hbk : v1.back c with
  | error e => simp [hbk, deref] at hback
  | ok p =>
    refine ⟨m1, v1, p, ?_, hres, by simpa [hbk, deref] using hback, ho, hb1⟩
    simp only [push_back] at hres
    simp only [emplace_back]
    split at hres
    · cases hres
    · rename_i m2 v2 q hprep
      split at hres
      · cases hres
      · rename_i m3 hcon
        cases hres
        simp only [hcon, hbk]

/-- On a container that holds `xs` in an array of `capacity()` slots, each of
`push_back`, `emplace_back`, `pop_back`, `clear`, `resize`, `reserve` with a target up to
`2^(w-2)` and `shrink_to_fit` returns a container with `size() ≤ capacity()`. -/
theorem size_le_capacity_kept (c : Config) (m : Mem T) (v : small_vector) (xs : List T)
    (h : Owns c m v xs) (hb : Backed c m v) (hi : InlineOk c m v)
    (hk : xs.length + 1 ≤ 2 ^ (SIZE_BITS c - 2)) :
    v.size ≤ v.capacity c ∧
    (∀ x, ∃ m1 v1, push_back c m v x = .ok (m1, v1) ∧ v1.size ≤ v1.capacity c) ∧
    (∀ x, ∃ m1 v1 p, emplace_back c m v x = .ok (m1, v1, p) ∧ v1.size ≤ v1.capacity c) ∧
    (xs ≠ [] → ∃ m1 v1, pop_back c m v = .ok (m1, v1) ∧ v1.size ≤ v1.capacity c) ∧
    (∃ m1 v1, clear m v = .ok (m1, v1) ∧ v1.size ≤ v1.capacity c) ∧
    (∀ count, ∃ m1 v1, resize m v count = .ok (m1, v1) ∧ v1.size ≤ v1.capacity c) ∧
    (∀ k, k ≤ 2 ^ (SIZE_BITS c - 2) →
      ∃ m1 v1, reserve c m v k = .ok (m1, v1) ∧ v1.size ≤ v1.capacity c) ∧
    (∃ m1 v1, shrink_to_fit c m v = .ok (m1, v1) ∧ v1.size ≤ v1.capacity c) := by
  have hle := h.size_le_capacity hb
  have hsz := h.size_eq
  obtain ⟨b1, b2, _⟩ := pow_bits_bounds c
  have hM : xs.length ≤ SIZE_MOD c := by omega
  refine ⟨hle, fun x => ?_, fun x => ?_, fun hx => ?_, ?_, fun count => ?_, fun k hkk => ?_, ?_⟩
  · obtain ⟨m1, v1, hres, ho, hb1, _⟩ := push_back_ok c m v xs x h hb hk
    exact ⟨m1, v1, hres, ho.size_le_capacity hb1⟩
  · obtain ⟨m1, v1, p, hres, _, _, ho, hb1⟩ := emplace_back_ok c m v xs x h hb hk
    exact ⟨m1, v1, p, hres, ho.size_le_capacity hb1⟩
  · obtain ⟨m1, v1, hres, _, hs, _, hcap⟩ := pop_back_owns c m v xs h hx hM
    exact ⟨m1, v1, hres, by rw [hs, hcap]; omega⟩
  · obtain ⟨m1, v1, hres, _, hs, _, hcap⟩ := clear_owns c m v xs h
    exact ⟨m1, v1, hres, by rw [hs]; omega⟩
  · by_cases hc : count ≤ xs.length
    · obtain ⟨m1, v1, hres, _, hs, _, hcap⟩ := resize_owns c m v xs count h hc
      exact ⟨m1, v1, hres, by rw [hs, hcap]; omega⟩
    · exact ⟨m, v, resize_grow m v count (by rw [hsz]; omega), hle⟩
  · obtain ⟨r1, r2⟩ := reserve_spec c m v xs k h (by rw [← hsz]; exact hle)
    by_cases hkc : k ≤ v.capacity c
    · exact ⟨m, v, r1 hkc, hle⟩
    · obtain ⟨m1, v1, hres, _, _, _, _, ho, hb1, _⟩ := r2 (by omega) hkk
      exact ⟨m1, v1, hres, ho.size_le_capacity hb1⟩
  · obtain ⟨m1, v1, hres, hs, q1, q2, q3⟩ := shrink_to_fit_spec c m v xs h hi (by omega)
    refine ⟨m1, v1, hres, ?_⟩
    cases hsm : v.is_small with
    | true => rw [(q1 hsm).2]; exact hle
    | false =>
      by_cases hfit : xs.length ≤ c.StackN
      · rw [hs, (q2 hsm hfit).2]; exact hfit
      · rw [hs, (q3 hsm (by omega)).2.1]

end size_capacity


/-! ## Move assignment and the arrays from `new[]` -/

section move_buffers
variable {T : Type}
open small_vector

theorem allocated_of {m : Mem T} {r : Nat} {R : Region T} (h : m[r]? = some R) :
    m.allocated r = (R.live && R.dyn) := by
  simp [Mem.allocated, h]

theorem allocated_set_other (m : Mem T) (r k : Nat) (R : Region T) (h : r ≠ k) :
    Mem.allocated (m.set r R) k = m.allocated k := by
  simp [Mem.allocated, getElem?_set_other h]

theorem allocated_set_same {m : Mem T} {r : Nat} {R0 : Region T} (R : Region T)
    (h : m[r]? = some R0) : Mem.allocated (m.set r R) r = (R.live && R.dyn) :=
  allocated_of (getElem?_set_same h)

/-- Storing into an array without changing its flags leaves every allocation as it is. -/
theorem allocated_set_flags {m : Mem T} {r : Nat} {R0 : Region T} (cells : List (Option T))
    (h : m[r]? = some R0) (k : Nat) :
    Mem.allocated (m.set r ⟨cells, R0.live, R0.dyn⟩) k = m.allocated k := by
  by_cases hk : r = k
  · subst hk
    rw [allocated_set_same _ h, allocated_of h]
  · exact allocated_set_other m r k _ hk

/-- Storing into two arrays without changing their flags leaves every allocation as it
is. -/
theorem allocated_set_flags_two {m : Mem T} {rt rs : Nat} {Rt Rs : Region T}
    (ct cs : List (Option T)) (hne : rs ≠ rt) (ht : m[rt]? = some Rt) (hs : m[rs]? = some Rs)
    (k : Nat) :
    Mem.allocated ((m.set rt ⟨ct, Rt.live, Rt.dyn⟩).set rs ⟨cs, Rs.live, Rs.dyn⟩) k
      = m.allocated k := by
  have h2 : (m.set rt (⟨ct, Rt.live, Rt.dyn⟩ : Region T))[rs]? = some Rs := by
    rw [getElem?_set_other (Ne.symm hne)]; exact hs
  rw [allocated_set_flags cs h2 k, allocated_set_flags ct ht k]

/-- Move assignment from an empty source on a target that holds `ys`: the target's
elements are destroyed, the source is not touched, no array changes hands. -/
theorem assign_move_empty_source (c : Config) (m : Mem T) (v other : small_vector)
    (ys : List T) (hv : Owns c m v ys) (ho : other.size = 0) :
    ∃ m1, assign_move c m v other = .ok (m1, v._set_size 0, other) ∧
      ∀ k, m1.allocated k = m.allocated k := by
  cases hv with
  | null inl cap =>
    exact ⟨m, assign_move_empty c m m _ _ other (_destruct_elements_empty m _ rfl) ho,
      fun _ => rfl⟩
  | stack inl ys rest hN hm hl =>
    exact ⟨_, assign_move_empty c m _ _ _ other
      (_destruct_elements_ok m ⟨⟨some inl, 0⟩, .stack ys.length, inl⟩ inl false ys rest rfl rfl hm)
      ho, fun k => allocated_set_flags _ hm k⟩
  | heap inl r cap ys rest hm =>
    exact ⟨_, assign_move_empty c m _ _ _ other
      (_destruct_elements_ok m ⟨⟨some r, 0⟩, .heap ys.length cap, inl⟩ r true ys rest rfl rfl hm)
      ho, fun k => allocated_set_flags _ hm k⟩

theorem buffer_set_size (v : small_vector) (n : Nat) : (v._set_size n).buffer = v.buffer := by
  obtain ⟨p, st, inl⟩ := v
  cases st <;> rfl

/-- Move assignment `b = move(a)` neither leaks nor frees twice, on containers that hold
their elements in arrays of their own, a Heap target with an array having
`capacity() ≠ 0`: the call returns; the array `b` held is still held by `b` or has been
released; every allocated array that `b` or `a` held is afterwards held by exactly one of
them; and the allocation state of an array changes only by the release of the one `b`
held. -/
theorem assign_move_no_leak (c : Config) (m : Mem T) (v other : small_vector)
    (ys xs : List T) (hv : Owns c m v ys) (ho : Owns c m other xs)
    (hne : ∀ r, v.m_ptr.base = some r → other.m_ptr.base ≠ some r)
    (hfit : v.is_small = false → other.is_small = true → xs ≠ [] →
      Backed c m v ∧ xs.length ≤ v.capacity c)
    (hcap : ∀ r, v.buffer = some r → v.capacity c ≠ 0) :
    ∃ m1 v1 o1, assign_move c m v other = .ok (m1, v1, o1) ∧
      (∀ r, v.buffer = some r →
        (v1.buffer = some r ∧ m1.allocated r = true) ∨ m1.allocated r = false) ∧
      (∀ r, v.buffer = some r ∨ other.buffer = some r → m1.allocated r = true →
        (v1.buffer = some r ∧ o1.buffer ≠ some r) ∨
          (v1.buffer ≠ some r ∧ o1.buffer = some r)) ∧
      (∀ r, m1.allocated r = m.allocated r ∨ (v.buffer = some r ∧ m1.allocated r = false)) := by
  by_cases hx : xs = []
  · subst hx
    obtain ⟨m1, hres, hal⟩ := assign_move_empty_source c m v other ys hv ho.size_eq
    refine ⟨m1, _, _, hres, fun r hr => ?_, fun r hr ha => ?_, fun r => Or.inl (hal r)⟩
    · rw [buffer_set_size, hal]
      cases hv with
      | null inl cap => simp [buffer, is_small, nullptr] at hr
      | stack inl ys rest hN hm hl => simp [buffer, is_small] at hr
      | heap inl rt cap ys rest hm =>
        simp only [buffer, is_small, Bool.false_eq_true, ↓reduceIte, Option.some.injEq] at hr
        subst hr
        exact Or.inl ⟨rfl, by simp [allocated_of hm]⟩
    · rw [buffer_set_size]
      rcases hr with hr | hr
      · refine Or.inl ⟨hr, fun ho1 => ?_⟩
        have hvb : v.m_ptr.base = some r := by
          unfold buffer at hr
          split at hr
          · cases hr
          · exact hr
        have hob : other.m_ptr.base = some r := by
          unfold buffer at ho1
          split at ho1
          · cases ho1
          · exact ho1
        exact hne r hvb hob
      · refine Or.inr ⟨fun hv1 => ?_, hr⟩
        have hvb : v.m_ptr.base = some r := by
          unfold buffer at hv1
          split at hv1
          · cases hv1
          · exact hv1
        have hob : other.m_ptr.base = some r := by
          unfold buffer at hr
          split at hr
          · cases hr
          · exact hr
        exact hne r hvb hob
  · have hx0 : xs.length ≠ 0 := fun h0 => hx (List.length_eq_zero.1 h0)
    cases ho with
    | null => exact absurd rfl hx
    | stack oinl xs orest hN hmo hlo =>
      cases hv with
      | stack inl ys rest _ hmv hlv =>
        have hne2 : oinl ≠ inl := fun h => hne inl rfl (by rw [h])
        refine ⟨_, _, _, assign_move_in_place c m _ inl oinl oinl false false ys xs rest orest hx
          rfl rfl hne2 hmv hmo (by omega), fun r hr => ?_, fun r hr => ?_,
          fun r => Or.inl (allocated_set_flags_two _ _ hne2 hmv hmo r)⟩
        · simp [buffer, is_small] at hr
        · simp [buffer, is_small] at hr
      | heap inl rt capt ys rest hmv =>
        have hne2 : oinl ≠ rt := fun h => hne rt rfl (by rw [h])
        obtain ⟨⟨R, hR, hRl⟩, hle⟩ := hfit rfl rfl hx
        have hslots : xs.length ≤ ys.length + rest.length := by
          have h1 : m[rt]? = some R := hR
          rw [hmv] at h1
          cases h1
          simp only [capacity, List.length_append, List.length_map] at hRl hle
          omega
        have hal : ∀ k, Mem.allocated ((m.set rt (⟨xs.map some ++
            (List.replicate ys.length none ++ rest).drop xs.length, true, true⟩ : Region T)).set
            oinl ⟨List.replicate xs.length none ++ orest, true, false⟩) k
            = m.allocated k :=
          fun k => allocated_set_flags_two _ _ hne2 hmv hmo k
        refine ⟨_, _, _, assign_move_in_place c m _ rt oinl oinl true false ys xs rest orest hx
          rfl rfl hne2 hmv hmo hslots, fun r hr => ?_, fun r hr ha => ?_, fun r => Or.inl (hal r)⟩
        · simp only [buffer, is_small, Bool.false_eq_true, ↓reduceIte, Option.some.injEq] at hr
          subst hr
          exact Or.inl ⟨rfl, by rw [hal, allocated_of hmv]; rfl⟩
        · simp only [buffer, is_small, Bool.false_eq_true, ↓reduceIte, Option.some.injEq] at hr
          rcases hr with hr | hr
          · subst hr
            exact Or.inl ⟨rfl, by simp [buffer, is_small]⟩
          · cases hr
      | null inl capt =>
        obtain ⟨hb, hle⟩ := hfit rfl rfl hx
        have : capt = 0 := hb
        simp only [capacity] at hle
        omega
    | heap oinl r cap xs orest hmo =>
      cases hv with
      | stack inl ys rest _ hmv hlv =>
        have hne2 : inl ≠ r := fun h => hne inl rfl (by rw [h])
        have hal : ∀ k, Mem.allocated (m.set inl (⟨List.replicate (ys.length + rest.length) none,
            true, false⟩ : Region T)) k = m.allocated k :=
          fun k => allocated_set_flags _ hmv k
        refine ⟨_, _, _, assign_move_stack_heap c m inl ⟨some r, 0⟩ xs.length cap oinl ys rest hx0
          hmv, fun r' hr => ?_, fun r' hr ha => ?_, fun r' => Or.inl (hal r')⟩
        · simp [buffer, is_small] at hr
        · simp only [buffer, is_small, ↓reduceIte, Bool.false_eq_true, Option.some.injEq] at hr
          rcases hr with hr | hr
          · cases hr
          · subst hr
            exact Or.inl ⟨rfl, by simp [buffer, is_small, nullptr]⟩
      | heap inl rt capt ys rest hmv =>
        have hne2 : rt ≠ r := fun h => hne rt rfl (by rw [h])
        have hc0 : capt ≠ 0 := hcap rt rfl
        have hrel : Mem.allocated (m.set rt (⟨List.replicate ys.length none ++ rest,
            decide (capt = 0), true⟩ : Region T)) rt = false := by
          rw [allocated_set_same _ hmv]
          simp [hc0]
        refine ⟨_, _, _, assign_move_heap_heap c m rt capt inl ⟨some r, 0⟩ xs.length cap oinl ys
          rest hx0 hmv, fun r' hr => ?_, fun r' hr ha => ?_, fun r' => ?_⟩
        · simp only [buffer, is_small, Bool.false_eq_true, ↓reduceIte, Option.some.injEq] at hr
          subst hr
          exact Or.inr hrel
        · simp only [buffer, is_small, Bool.false_eq_true, ↓reduceIte, Option.some.injEq] at hr
          rcases hr with hr | hr
          · subst hr
            rw [hrel] at ha
            cases ha
          · subst hr
            exact Or.inl ⟨rfl, by simp [buffer, is_small, nullptr]⟩
        · by_cases hk : rt = r'
          · subst hk
            exact Or.inr ⟨rfl, hrel⟩
          · exact Or.inl (allocated_set_other m rt r' _ hk)
      | null inl capt =>
        refine ⟨_, _, _, assign_move_null_heap c m capt inl ⟨some r, 0⟩ xs.length cap oinl hx0,
          fun r' hr => ?_, fun r' hr ha => ?_, fun r' => Or.inl rfl⟩
        · simp [buffer, is_small, nullptr] at hr
        · simp only [buffer, is_small, Bool.false_eq_true, ↓reduceIte, nullptr,
            Option.some.injEq] at hr
          rcases hr with hr | hr
          · cases hr
          · subst hr
            exact Or.inl ⟨rfl, by simp [buffer, is_small, nullptr]⟩

end move_buffers


/-! ## `erase`, `resize` and the frame of the shrinking mutators -/

section claims_shrink_ops
variable {T : Type}
open small_vector

/-- C21, the code at failing inputs. `erase` at an index below `size()` on containers
built by `push_back`: an Inline `small_vector<Nat, 4>` holding 1, 2, 3 (position 1), a
full Inline one holding 1, 2, 3, 4 (position 0) and a Heap one holding 1..5 (position 4,
the last element). The last pass of the loop move-constructs from `*(it + 1)`, the slot
at index `size()`: a raw slot, or the memory after the array when it is full. No
container without the erased element is returned. -/
theorem erase_after_push_back_faults :
    (∃ m v, pushed cfg4 ([] : Mem Nat) [1, 2, 3] = .ok (m, v) ∧
      v.elements m = .ok [1, 2, 3] ∧ erase cfg4 m v 1 = .error .uninit_read) ∧
    (∃ m v, pushed cfg4 ([] : Mem Nat) [1, 2, 3, 4] = .ok (m, v) ∧
      v.elements m = .ok [1, 2, 3, 4] ∧ v.size = v.capacity cfg4 ∧
      erase cfg4 m v 0 = .error .out_of_bounds) ∧
    (pushed cfg4 [] [1, 2, 3, 4, 5] = .ok (mem_heap5, vec_heap5) ∧
      vec_heap5.elements mem_heap5 = .ok [1, 2, 3, 4, 5] ∧
      erase cfg4 mem_heap5 vec_heap5 4 = .error .uninit_read) :=
  ⟨⟨_, _, rfl, rfl, rfl⟩, ⟨_, _, rfl, rfl, rfl, rfl⟩, ⟨rfl, rfl, rfl⟩⟩

/-- C22. `resize` only shrinks: on a container that holds `xs`, `resize(count)` with
`count ≤ size()` returns a container of size `count` that holds the first `count`
elements of `xs` in order (mode and capacity as before); with `count > size()` it returns
with the memory and the container exactly as they were. -/
theorem resize_shrinks_only (c : Config) (m : Mem T) (v : small_vector) (xs : List T)
    (count : Nat) (h : Owns c m v xs) :
    (count ≤ v.size → ∃ m1 v1, resize m v count = .ok (m1, v1) ∧ v1.size = count ∧
      v1.elements m1 = .ok (xs.take count) ∧ v1.is_small = v.is_small ∧
      v1.capacity c = v.capacity c) ∧
    (v.size < count → resize m v count = .ok (m, v)) := by
  refine ⟨fun hc => ?_, fun hc => resize_grow m v count hc⟩
  rw [h.size_eq] at hc
  obtain ⟨m1, v1, hres, hown, hs, hmode, hcap⟩ := resize_owns c m v xs count h hc
  exact ⟨m1, v1, hres, hs, hown.elements, hmode, hcap⟩

theorem resize_shrinks_only_witness :
    (2 ≤ vec_heap5.size → ∃ m1 v1, resize mem_heap5 vec_heap5 2 = .ok (m1, v1) ∧ v1.size = 2 ∧
      v1.elements m1 = .ok (([1, 2, 3, 4, 5] : List Nat).take 2) ∧
      v1.is_small = vec_heap5.is_small ∧ v1.capacity cfg4 = vec_heap5.capacity cfg4) ∧
    (vec_heap5.size < 2 → resize mem_heap5 vec_heap5 2 = .ok (mem_heap5, vec_heap5)) :=
  resize_shrinks_only cfg4 mem_heap5 vec_heap5 [1, 2, 3, 4, 5] 2
    (Owns.heap 0 1 8 [1, 2, 3, 4, 5] [none, none, none] rfl)

/-- The shrinking mutators on a container that holds `xs`: `clear()` returns with size 0;
`pop_back()` on a non-empty one returns with size `size() - 1` and the elements before the
last; `resize` returns for every count; each leaves `is_small()` and `capacity()` as they
were. `erase` stores nothing but a new size: every call that returns, from any state,
leaves `is_small()` and `capacity()` as they were, and a call with an index below `size()`
returns whenever the slot at index `size()` can be read. -/
theorem shrinking_keeps_mode_and_capacity (c : Config) (m : Mem T) (v : small_vector)
    (xs : List T) (h : Owns c m v xs) (hM : xs.length ≤ SIZE_MOD c) :
    (∃ m1 v1, clear m v = .ok (m1, v1) ∧ v1.size = 0 ∧ v1.is_small = v.is_small ∧
      v1.capacity c = v.capacity c) ∧
    (xs ≠ [] → ∃ m1 v1, pop_back c m v = .ok (m1, v1) ∧ v1.size = v.size - 1 ∧
      v1.elements m1 = .ok xs.dropLast ∧ v1.is_small = v.is_small ∧
      v1.capacity c = v.capacity c) ∧
    (∀ count, ∃ m1 v1, resize m v count = .ok (m1, v1) ∧ v1.is_small = v.is_small ∧
      v1.capacity c = v.capacity c) ∧
    (∀ i m1 v1 p, erase c m v i = .ok (m1, v1, p) →
      v1.is_small = v.is_small ∧ v1.capacity c = v.capacity c) ∧
    (∀ i y, i < v.size → load m v.end_ = .ok y → ∃ m1 v1 p, erase c m v i = .ok (m1, v1, p) ∧
      v1.size = v.size - 1 ∧ v1.is_small = v.is_small ∧ v1.capacity c = v.capacity c) := by
  have hsz := h.size_eq
  refine ⟨?_, fun hx => ?_, fun count => ?_, fun i m1 v1 p he => ?_, fun i y hi hy => ?_⟩
  · obtain ⟨m1, v1, hres, _, hs, hmode, hcap⟩ := clear_owns c m v xs h
    exact ⟨m1, v1, hres, hs, hmode, hcap⟩
  · obtain ⟨m1, v1, hres, hown, hs, hmode, hcap⟩ := pop_back_owns c m v xs h hx hM
    exact ⟨m1, v1, hres, by rw [hs, hsz], hown.elements, hmode, hcap⟩
  · by_cases hc : count ≤ xs.length
    · obtain ⟨m1, v1, hres, _, _, hmode, hcap⟩ := resize_owns c m v xs count h hc
      exact ⟨m1, v1, hres, hmode, hcap⟩
    · exact ⟨m, v, resize_grow m v count (by rw [hsz]; omega), rfl, rfl⟩
  · obtain ⟨n, rfl⟩ := erase_frame he
    exact ⟨is_small_set_size v n, capacity_set_size c v n⟩
  · rw [hsz] at hi
    obtain ⟨m1, v1, p, hres, _, hs, hmode, hcap, _⟩ := erase_owns c m v xs i y h hi hM hy
    exact ⟨m1, v1, p, hres, by rw [hs, hsz], hmode, hcap⟩

theorem shrinking_keeps_mode_and_capacity_witness :
    (∃ m1 v1, clear mem_heap5 vec_heap5 = .ok (m1, v1) ∧ v1.size = 0 ∧
      v1.is_small = vec_heap5.is_small ∧ v1.capacity cfg4 = vec_heap5.capacity cfg4) ∧
    (([1, 2, 3, 4, 5] : List Nat) ≠ [] → ∃ m1 v1, pop_back cfg4 mem_heap5 vec_heap5 = .ok (m1, v1) ∧
      v1.size = vec_heap5.size - 1 ∧
      v1.elements m1 = .ok ([1, 2, 3, 4, 5] : List Nat).dropLast ∧
      v1.is_small = vec_heap5.is_small ∧ v1.capacity cfg4 = vec_heap5.capacity cfg4) ∧
    (∀ count, ∃ m1 v1, resize mem_heap5 vec_heap5 count = .ok (m1, v1) ∧
      v1.is_small = vec_heap5.is_small ∧ v1.capacity cfg4 = vec_heap5.capacity cfg4) ∧
    (∀ i m1 v1 p, erase cfg4 mem_heap5 vec_heap5 i = .ok (m1, v1, p) →
      v1.is_small = vec_heap5.is_small ∧ v1.capacity cfg4 = vec_heap5.capacity cfg4) ∧
    (∀ i y, i < vec_heap5.size → load mem_heap5 vec_heap5.end_ = .ok y →
      ∃ m1 v1 p, erase cfg4 mem_heap5 vec_heap5 i = .ok (m1, v1, p) ∧
      v1.size = vec_heap5.size - 1 ∧ v1.is_small = vec_heap5.is_small ∧
      v1.capacity cfg4 = vec_heap5.capacity cfg4) :=
  shrinking_keeps_mode_and_capacity cfg4 mem_heap5 vec_heap5 [1, 2, 3, 4, 5]
    (Owns.heap 0 1 8 [1, 2, 3, 4, 5] [none, none, none] rfl) (by decide)

/-- C23, the code at failing inputs. The Heap `small_vector<Nat, 4>` built by five
`push_back` calls (size 5, capacity 8) and the Inline one built by two (size 2, capacity
4): `erase` at every index below `size()` faults on the read of the slot at index
`size()`, which holds no object, so no container with the mode and the capacity of before
is returned. On the same Heap container `clear()`, `pop_back()` and `resize(2)` return a
Heap container of capacity 8, of size 0, 4 and 2, `pop_back()` with the first four
elements. -/
theorem erase_in_bounds_returns_no_container :
    (pushed cfg4 [] [1, 2, 3, 4, 5] = .ok (mem_heap5, vec_heap5) ∧
      vec_heap5.size = 5 ∧ vec_heap5.is_small = false ∧ vec_heap5.capacity cfg4 = 8 ∧
      vec_heap5.elements mem_heap5 = .ok [1, 2, 3, 4, 5] ∧
      ∀ i : Fin 5, erase cfg4 mem_heap5 vec_heap5 i.val = .error .uninit_read) ∧
    (pushed cfg4 [] [1, 2] = .ok (mem_inline2, vec_inline2) ∧
      vec_inline2.size = 2 ∧ vec_inline2.is_small = true ∧ vec_inline2.capacity cfg4 = 4 ∧
      vec_inline2.elements mem_inline2 = .ok [1, 2] ∧
      ∀ i : Fin 2, erase cfg4 mem_inline2 vec_inline2 i.val = .error .uninit_read) ∧
    (∃ m1 v1, clear mem_heap5 vec_heap5 = .ok (m1, v1) ∧ v1.size = 0 ∧
      v1.is_small = false ∧ v1.capacity cfg4 = 8) ∧
    (∃ m1 v1, pop_back cfg4 mem_heap5 vec_heap5 = .ok (m1, v1) ∧ v1.size = 4 ∧
      v1.elements m1 = .ok [1, 2, 3, 4] ∧ v1.is_small = false ∧ v1.capacity cfg4 = 8) ∧
    (∃ m1 v1, resize mem_heap5 vec_heap5 2 = .ok (m1, v1) ∧ v1.size = 2 ∧
      v1.elements m1 = .ok [1, 2] ∧ v1.is_small = false ∧ v1.capacity cfg4 = 8) :=
  ⟨⟨rfl, rfl, rfl, rfl, rfl, fun i => by fin_cases i <;> rfl⟩,
    ⟨rfl, rfl, rfl, rfl, rfl, fun i => by fin_cases i <;> rfl⟩,
    ⟨_, _, rfl, rfl, rfl, rfl⟩, ⟨_, _, rfl, rfl, rfl, rfl, rfl⟩, ⟨_, _, rfl, rfl, rfl, rfl, rfl⟩⟩

/-- C28. `erase` at an index below `size()` reads the slot at index `size()`: on every
container that holds its elements, the call returns when that slot holds an object and
faults on the read when it does not, with a read outside the array when the array has
exactly `size()` slots. -/
theorem erase_reads_slot_at_size (c : Config) (m : Mem T) (v : small_vector) (xs : List T)
    (i : Nat) (h : Owns c m v xs) (hi : i < v.size) (hM : xs.length ≤ SIZE_MOD c) :
    (∀ y, load m v.end_ = .ok y → ∃ m1 v1 p, erase c m v i = .ok (m1, v1, p)) ∧
    ((∀ y, load m v.end_ ≠ .ok y) →
      (erase c m v i = .error .uninit_read ∨ erase c m v i = .error .out_of_bounds) ∧
      (Backed c m v → v.size = v.capacity c → erase c m v i = .error .out_of_bounds)) := by
  have hsz := h.size_eq
  rw [hsz] at hi
  refine ⟨fun y hy => ?_, fun hraw => ?_⟩
  · obtain ⟨m1, v1, p, hres, _⟩ := erase_owns c m v xs i y h hi hM hy
    exact ⟨m1, v1, p, hres⟩
  · rw [hsz]
    exact erase_owns_faults c m v xs i h hi hraw

theorem erase_reads_slot_at_size_witness :
    (∀ y, load mem_inline2 vec_inline2.end_ = .ok y →
      ∃ m1 v1 p, erase cfg4 mem_inline2 vec_inline2 0 = .ok (m1, v1, p)) ∧
    ((∀ y, load mem_inline2 vec_inline2.end_ ≠ .ok y) →
      (erase cfg4 mem_inline2 vec_inline2 0 = .error .uninit_read ∨
        erase cfg4 mem_inline2 vec_inline2 0 = .error .out_of_bounds) ∧
      (Backed cfg4 mem_inline2 vec_inline2 → vec_inline2.size = vec_inline2.capacity cfg4 →
        erase cfg4 mem_inline2 vec_inline2 0 = .error .out_of_bounds)) :=
  erase_reads_slot_at_size cfg4 mem_inline2 vec_inline2 [1, 2] 0
    (Owns.stack 0 [1, 2] [none, none] (by decide) rfl rfl) (by decide) (by decide)

end claims_shrink_ops


/-! ## Invariants of the representation -/

section claims_invariants
variable {T : Type}
open small_vector

/-- C24, the code at a failing input. A Heap `small_vector<Nat, 4>` holding 1..5 (size 5,
capacity 8) and the argument `max_size()`: `next_pow2` wraps to 0, so `reserve` calls
`_realloc(0)`, which moves the five elements past the end of an array of no slots; the
assignments `heap.size = n; heap.cap = new_cap` that end `_realloc` record size 5 and
capacity 0. -/
theorem reserve_max_size_breaks_invariant :
    pushed cfg4 [] [1, 2, 3, 4, 5] = .ok (mem_heap5, vec_heap5) ∧
    vec_heap5.size ≤ vec_heap5.capacity cfg4 ∧
    max_size cfg4 = 2 ^ 64 - 1 ∧ next_pow2 cfg4 (max_size cfg4) = 0 ∧
    reserve cfg4 mem_heap5 vec_heap5 (max_size cfg4) = _realloc cfg4 mem_heap5 vec_heap5 0 ∧
    _realloc cfg4 mem_heap5 vec_heap5 0 = .error .out_of_bounds ∧
    (vec_heap5._set_heap vec_heap5.size 0).size = 5 ∧
    (vec_heap5._set_heap vec_heap5.size 0).capacity cfg4 = 0 :=
  ⟨rfl, by decide, by decide, by decide, rfl, rfl, rfl, rfl⟩

/-- C25, the code at failing inputs. The size constructor and the size+value constructor
of `small_vector<Nat, 4>` with `count = 5`: the array from `new[]` has 5 slots while
`capacity()` is `next_pow2(5) = 8`, so `push_back` with `size() < capacity()` constructs
the value at index 5, past the end of the array. -/
theorem counted_ctor_capacity_exceeds_array :
    (∃ m v, ctor_count cfg4 ([] : Mem Nat) 5 = .ok (m, v) ∧ v.is_small = false ∧
      v.size = 5 ∧ v.capacity cfg4 = 8 ∧ v.data = ⟨some 1, 0⟩ ∧
      m[1]? = some ⟨[some 0, some 0, some 0, some 0, some 0], true, true⟩ ∧
      push_back cfg4 m v 1 = .error .out_of_bounds) ∧
    (∃ m v, ctor_count_value cfg4 ([] : Mem Nat) 5 7 = .ok (m, v) ∧ v.is_small = false ∧
      v.size = 5 ∧ v.capacity cfg4 = 8 ∧ v.data = ⟨some 1, 0⟩ ∧
      m[1]? = some ⟨[some 7, some 7, some 7, some 7, some 7], true, true⟩ ∧
      push_back cfg4 m v 1 = .error .out_of_bounds) :=
  ⟨⟨_, _, rfl, rfl, rfl, rfl, rfl, rfl, rfl⟩, ⟨_, _, rfl, rfl, rfl, rfl, rfl, rfl, rfl⟩⟩

/-- C26, the code at failing inputs. `small_vector<Nat, 0>`: the default constructor gives
a Heap container of size 0 and capacity 0 with a null `data()`. The size constructor and
the size+value constructor with `count = 0` take the inline branch: with the assertion
macros compiled in the closing `SCN_ENSURE(data())` fails, with them compiled out the
container reports `is_small() == true`. Copy and move construction from the
default-constructed container give `is_small() == true` as well. -/
theorem zero_capacity_ctors_are_inline :
    (∃ m v, ctor cfg0 ([] : Mem Nat) = .ok (m, v) ∧ v.is_small = false ∧ v.size = 0 ∧
      v.capacity cfg0 = 0 ∧ v.data = nullptr) ∧
    ctor_count cfg0 ([] : Mem Nat) 0 = .error .contract ∧
    ctor_count_value cfg0 ([] : Mem Nat) 0 7 = .error .contract ∧
    (∃ m v, ctor_count cfg0_unchecked ([] : Mem Nat) 0 = .ok (m, v) ∧ v.is_small = true) ∧
    (∃ m v, ctor_count_value cfg0_unchecked ([] : Mem Nat) 0 7 = .ok (m, v) ∧
      v.is_small = true) ∧
    (∃ m a m1 b, ctor cfg0 ([] : Mem Nat) = .ok (m, a) ∧ ctor_copy cfg0 m a = .ok (m1, b) ∧
      b.is_small = true) ∧
    (∃ m a m1 b a1, ctor cfg0 ([] : Mem Nat) = .ok (m, a) ∧
      ctor_move cfg0 m a = .ok (m1, b, a1) ∧ b.is_small = true) :=
  ⟨⟨_, _, rfl, rfl, rfl, rfl, rfl⟩, rfl, rfl, ⟨_, _, rfl, rfl⟩, ⟨_, _, rfl, rfl⟩,
    ⟨_, _, _, _, rfl, rfl, rfl⟩, ⟨_, _, _, _, _, rfl, rfl, rfl⟩⟩

/-- C27, the code at a failing input. Target `b`: an empty `small_vector<Nat, 4>` after
`reserve(max_size())`, which is Heap with capacity 0 and holds a zero-length array from
`new[]`. Source `a`: Heap, holding 1..5. The move assignment `b = move(a)` skips
`delete[]` because `capacity() == 0` and overwrites `m_ptr`: afterwards the old array of
`b` is still allocated and neither `b` nor `a` holds it. -/
theorem move_assign_leaks_zero_length_array :
    ∃ m0 b0 m b m1 b1 a1, ctor cfg4 mem_heap5 = .ok (m0, b0) ∧
      reserve cfg4 m0 b0 (max_size cfg4) = .ok (m, b) ∧
      b.is_small = false ∧ b.size = 0 ∧ b.capacity cfg4 = 0 ∧ b.buffer = some 3 ∧
      m.allocated 3 = true ∧ vec_heap5.buffer = some 1 ∧ m.allocated 1 = true ∧
      assign_move cfg4 m b vec_heap5 = .ok (m1, b1, a1) ∧
      b1.buffer = some 1 ∧ a1.buffer = none ∧ m1.allocated 1 = true ∧
      m1.allocated 3 = true ∧ leaked m1 a1 b1 3 = true :=
  ⟨_, _, _, _, _, _, _, rfl, rfl, rfl, rfl, rfl, rfl, rfl, rfl, rfl, rfl, rfl, rfl, rfl, rfl,
    rfl⟩

/-- C29. The size+value constructor with `count` below the inline capacity `N`
constructs an element in every one of the `N` inline slots: the container has size
`count`, and each slot at an index in `[0, N)`, those in `[size(), capacity())` included,
holds a copy of the value. -/
theorem ctor_count_value_fills_all_inline_slots (c : Config) (m : Mem T) (count : Nat)
    (x : T) (hN : c.StackN ≠ 0) (hn : count < c.StackN) :
    ∃ m1 v1, ctor_count_value c m count x = .ok (m1, v1) ∧ v1.is_small = true ∧
      v1.size = count ∧ v1.capacity c = c.StackN ∧
      ∀ i, i < v1.capacity c → load m1 (v1.data.add i) = .ok x := by
  refine ⟨_, _, ctor_count_value_stack c m count x hN (le_of_lt hn), rfl, rfl, rfl, ?_⟩
  intro i hi
  refine load_ok (getElem?_length_append_cons _ _ _) rfl ?_
  simp only [capacity] at hi
  simp [data, hi]

theorem ctor_count_value_fills_all_inline_slots_witness :
    ∃ m1 v1, ctor_count_value cfg4 ([] : Mem Nat) 2 7 = .ok (m1, v1) ∧ v1.is_small = true ∧
      v1.size = 2 ∧ v1.capacity cfg4 = cfg4.StackN ∧
      ∀ i, i < v1.capacity cfg4 → load m1 (v1.data.add i) = .ok 7 :=
  ctor_count_value_fills_all_inline_slots cfg4 ([] : Mem Nat) 2 7 (by decide) (by decide)

/-- C30. For every inline capacity `N ≥ 1`, a container copy-constructed or
move-constructed from an empty source is Inline with size 0 and a null `data()`, and
`push_back` on it constructs the value through the null pointer. -/
theorem push_back_after_empty_source_ctor (c : Config) (m : Mem T) (other : small_vector)
    (x : T) (hN : c.StackN ≠ 0) (he : other.size = 0) :
    (∃ m1 b, ctor_copy c m other = .ok (m1, b) ∧ b.is_small = true ∧ b.size = 0 ∧
      b.data = nullptr ∧ push_back c m1 b x = .error .null_deref) ∧
    (∃ m1 b o1, ctor_move c m other = .ok (m1, b, o1) ∧ b.is_small = true ∧ b.size = 0 ∧
      b.data = nullptr ∧ push_back c m1 b x = .error .null_deref) := by
  have hpush : ∀ (m1 : Mem T) (inl : Nat),
      push_back c m1 ⟨nullptr, .stack 0, inl⟩ x = .error .null_deref := by
    intro m1 inl
    have hne : (0 == c.StackN) = false := by
      simp only [beq_eq_false_iff_ne, ne_eq]
      exact fun h => hN h.symm
    simp [push_back, _prepare_push_back, small_vector.size, capacity, hne, construct_at,
      Mem.region, nullptr]
  exact ⟨⟨_, _, ctor_copy_empty c m other he, rfl, rfl, rfl, hpush _ _⟩,
    ⟨_, _, _, ctor_move_empty c m other he, rfl, rfl, rfl, hpush _ _⟩⟩

theorem push_back_after_empty_source_ctor_witness :
    (∃ m1 b, ctor_copy cfg4 ([⟨[none, none, none, none], true, false⟩] : Mem Nat)
        ⟨⟨some 0, 0⟩, .stack 0, 0⟩ = .ok (m1, b) ∧ b.is_small = true ∧ b.size = 0 ∧
      b.data = nullptr ∧ push_back cfg4 m1 b 9 = .error .null_deref) ∧
    (∃ m1 b o1, ctor_move cfg4 ([⟨[none, none, none, none], true, false⟩] : Mem Nat)
        ⟨⟨some 0, 0⟩, .stack 0, 0⟩ = .ok (m1, b, o1) ∧ b.is_small = true ∧ b.size = 0 ∧
      b.data = nullptr ∧ push_back cfg4 m1 b 9 = .error .null_deref) :=
  push_back_after_empty_source_ctor cfg4 [⟨[none, none, none, none], true, false⟩]
    ⟨⟨some 0, 0⟩, .stack 0, 0⟩ 9 (by decide) rfl

end claims_invariants


/-! ## The subcases of `test/small_vector.cpp`, replayed on the model -/

section test_suite
open small_vector

/-- Subcases "default construct stack" and "default construct heap". -/
theorem test_default_construct :
    (∃ m v, ctor ⟨64, true, true⟩ ([] : Mem Nat) = .ok (m, v) ∧
      v.is_small = true ∧ v.size = 0 ∧ v.capacity ⟨64, true, true⟩ = 64) ∧
    (∃ m v, ctor ⟨0, true, true⟩ ([] : Mem Nat) = .ok (m, v) ∧
      v.is_small = false ∧ v.size = 0 ∧ v.capacity ⟨0, true, true⟩ = 0 ∧ v.data = nullptr) :=
  ⟨⟨_, _, rfl, rfl, rfl, rfl⟩, ⟨_, _, rfl, rfl, rfl, rfl, rfl⟩⟩

set_option maxRecDepth 100000 in
/-- Subcases "size construct stack" and "size construct heap". -/
theorem test_size_construct :
    (∃ m v, ctor_count ⟨64, true, true⟩ ([] : Mem Nat) 32 = .ok (m, v) ∧
      v.is_small = true ∧ v.size = 32 ∧ v.capacity ⟨64, true, true⟩ = 64 ∧
      deref m (v.front ⟨64, true, true⟩) = .ok 0 ∧ deref m (v.back ⟨64, true, true⟩) = .ok 0 ∧
      v.elements m = .ok (List.replicate 32 0)) ∧
    (∃ m v, ctor_count ⟨64, true, true⟩ ([] : Mem Nat) 128 = .ok (m, v) ∧
      v.is_small = false ∧ v.size = 128 ∧ v.size ≤ v.capacity ⟨64, true, true⟩ ∧
      deref m (v.front ⟨64, true, true⟩) = .ok 0 ∧ deref m (v.back ⟨64, true, true⟩) = .ok 0 ∧
      v.elements m = .ok (List.replicate 128 0)) :=
  ⟨⟨_, _, rfl, rfl, rfl, rfl, rfl, rfl, rfl⟩, ⟨_, _, rfl, rfl, rfl, by decide, rfl, rfl, rfl⟩⟩

set_option maxRecDepth 100000 in
/-- Subcases "size+value construct stack" and "size+value construct heap". -/
theorem test_size_value_construct :
    (∃ m v, ctor_count_value ⟨64, true, true⟩ ([] : Mem Nat) 32 42 = .ok (m, v) ∧
      v.is_small = true ∧ v.size = 32 ∧ v.capacity ⟨64, true, true⟩ = 64 ∧
      deref m (v.front ⟨64, true, true⟩) = .ok 42 ∧
      deref m (v.back ⟨64, true, true⟩) = .ok 42 ∧
      v.elements m = .ok (List.replicate 32 42)) ∧
    (∃ m v, ctor_count_value ⟨64, true, true⟩ ([] : Mem Nat) 128 42 = .ok (m, v) ∧
      v.is_small = false ∧ v.size = 128 ∧ v.size ≤ v.capacity ⟨64, true, true⟩ ∧
      deref m (v.front ⟨64, true, true⟩) = .ok 42 ∧
      deref m (v.back ⟨64, true, true⟩) = .ok 42 ∧
      v.elements m = .ok (List.replicate 128 42)) :=
  ⟨⟨_, _, rfl, rfl, rfl, rfl, rfl, rfl, rfl⟩, ⟨_, _, rfl, rfl, rfl, by decide, rfl, rfl, rfl⟩⟩

set_option maxRecDepth 100000 in
/-- Subcase "push_back overflow". -/
theorem test_push_back_overflow :
    ∃ m0 v0 m1 v1 m2 v2, ctor_count ⟨64, true, true⟩ ([] : Mem Nat) 64 = .ok (m0, v0) ∧
      v0.is_small = true ∧
      push_back ⟨64, true, true⟩ m0 v0 1 = .ok (m1, v1) ∧ v1.size = 65 ∧
      v1.size ≤ v1.capacity ⟨64, true, true⟩ ∧ deref m1 (v1.back ⟨64, true, true⟩) = .ok 1 ∧
      v1.is_small = false ∧
      push_back ⟨64, true, true⟩ m1 v1 2 = .ok (m2, v2) ∧ v2.size = 66 ∧
      deref m2 (v2.back ⟨64, true, true⟩) = .ok 2 :=
  ⟨_, _, _, _, _, _, rfl, rfl, rfl, rfl, by decide, rfl, rfl, rfl, rfl, rfl⟩

/-- Subcases "push_back stack" and "push_back heap". -/
theorem test_push_back :
    (∃ m0 v0 m1 v1 m2 v2, ctor ⟨64, true, true⟩ ([] : Mem Nat) = .ok (m0, v0) ∧
      push_back ⟨64, true, true⟩ m0 v0 1 = .ok (m1, v1) ∧ v1.size = 1 ∧
      deref m1 (v1.back ⟨64, true, true⟩) = .ok 1 ∧
      push_back ⟨64, true, true⟩ m1 v1 2 = .ok (m2, v2) ∧ v2.size = 2 ∧
      deref m2 (v2.back ⟨64, true, true⟩) = .ok 2) ∧
    (∃ m0 v0 m1 v1 m2 v2, ctor ⟨0, true, true⟩ ([] : Mem Nat) = .ok (m0, v0) ∧
      push_back ⟨0, true, true⟩ m0 v0 1 = .ok (m1, v1) ∧ v1.size = 1 ∧
      deref m1 (v1.back ⟨0, true, true⟩) = .ok 1 ∧
      push_back ⟨0, true, true⟩ m1 v1 2 = .ok (m2, v2) ∧ v2.size = 2 ∧
      deref m2 (v2.back ⟨0, true, true⟩) = .ok 2) :=
  ⟨⟨_, _, _, _, _, _, rfl, rfl, rfl, rfl, rfl, rfl, rfl⟩,
    ⟨_, _, _, _, _, _, rfl, rfl, rfl, rfl, rfl, rfl, rfl⟩⟩

set_option maxRecDepth 100000 in
/-- Subcase "shrink_to_fit", up to the reassignment of `vec`, and its second half started
from a default-constructed container. -/
theorem test_shrink_to_fit :
    (∃ m0 v0 m1 v1 m2 v2 m3 v3, ctor_count ⟨64, true, true⟩ ([] : Mem Nat) 64 = .ok (m0, v0) ∧
      shrink_to_fit ⟨64, true, true⟩ m0 v0 = .ok (m1, v1) ∧ v1.size = 64 ∧
      v1.capacity ⟨64, true, true⟩ = 64 ∧ v1.is_small = true ∧
      push_back ⟨64, true, true⟩ m1 v1 1 = .ok (m2, v2) ∧
      shrink_to_fit ⟨64, true, true⟩ m2 v2 = .ok (m3, v3) ∧ v3.size = 65 ∧
      v3.size ≤ v3.capacity ⟨64, true, true⟩ ∧ v3.is_small = false) ∧
    (∃ m0 v0 m1 v1 m2 v2 m3 v3 m4 v4, ctor ⟨64, true, true⟩ ([] : Mem Nat) = .ok (m0, v0) ∧
      reserve ⟨64, true, true⟩ m0 v0 64 = .ok (m1, v1) ∧
      shrink_to_fit ⟨64, true, true⟩ m1 v1 = .ok (m2, v2) ∧ v2.size = 0 ∧
      v2.capacity ⟨64, true, true⟩ = 64 ∧ v2.is_small = true ∧
      reserve ⟨64, true, true⟩ m2 v2 256 = .ok (m3, v3) ∧
      shrink_to_fit ⟨64, true, true⟩ m3 v3 = .ok (m4, v4) ∧ v4.size = 0 ∧
      v4.capacity ⟨64, true, true⟩ = 64 ∧ v4.is_small = true) :=
  ⟨⟨_, _, _, _, _, _, _, _, rfl, rfl, rfl, rfl, rfl, rfl, rfl, rfl, by decide, rfl⟩,
    ⟨_, _, _, _, _, _, _, _, _, _, rfl, rfl, rfl, rfl, rfl, rfl, rfl, rfl, rfl, rfl, rfl⟩⟩

set_option maxRecDepth 100000 in
/-- Subcases "capacity stack" and "capacity heap": `vec = make(16)` is a move assignment
from a temporary built by the size constructor. The checks that follow it are replayed;
the destruction of the temporary is not. -/
theorem test_capacity :
    (∃ m0 v0 m1 t1 m2 v2 t2, ctor ⟨64, true, true⟩ ([] : Mem Nat) = .ok (m0, v0) ∧
      v0.empty = true ∧ v0.size = 0 ∧ v0.capacity ⟨64, true, true⟩ = 64 ∧
      ctor_count ⟨64, true, true⟩ m0 16 = .ok (m1, t1) ∧
      assign_move ⟨64, true, true⟩ m1 v0 t1 = .ok (m2, v2, t2) ∧
      v2.empty = false ∧ v2.size = 16 ∧ v2.capacity ⟨64, true, true⟩ = 64 ∧
      v2.elements m2 = .ok (List.replicate 16 0)) ∧
    (∃ m0 v0 m1 t1 m2 v2 t2, ctor ⟨0, true, true⟩ ([] : Mem Nat) = .ok (m0, v0) ∧
      v0.empty = true ∧ v0.size = 0 ∧ v0.capacity ⟨0, true, true⟩ = 0 ∧
      ctor_count ⟨0, true, true⟩ m0 16 = .ok (m1, t1) ∧
      assign_move ⟨0, true, true⟩ m1 v0 t1 = .ok (m2, v2, t2) ∧
      v2.empty = false ∧ v2.size = 16 ∧ v2.size ≤ v2.capacity ⟨0, true, true⟩ ∧
      v2.elements m2 = .ok (List.replicate 16 0)) :=
  ⟨⟨_, _, _, _, _, _, _, rfl, rfl, rfl, rfl, rfl, rfl, rfl, rfl, rfl, rfl⟩,
    ⟨_, _, _, _, _, _, _, rfl, rfl, rfl, rfl, rfl, rfl, rfl, rfl, by decide, rfl⟩⟩

set_option maxRecDepth 100000 in
/-- Subcase "shrink_to_fit" from the reassignment `vec = small_vector<T, 64>()` on: a move
assignment from an empty temporary to the Heap container of 65 elements. -/
theorem test_shrink_to_fit_reassigned :
    ∃ m0 v0 m1 v1 m2 t2 m3 v3 t3 m4 v4 m5 v5 m6 v6 m7 v7,
      ctor_count ⟨64, true, true⟩ ([] : Mem Nat) 64 = .ok (m0, v0) ∧
      push_back ⟨64, true, true⟩ m0 v0 1 = .ok (m1, v1) ∧ v1.is_small = false ∧
      ctor ⟨64, true, true⟩ m1 = .ok (m2, t2) ∧
      assign_move ⟨64, true, true⟩ m2 v1 t2 = .ok (m3, v3, t3) ∧
      reserve ⟨64, true, true⟩ m3 v3 64 = .ok (m4, v4) ∧
      shrink_to_fit ⟨64, true, true⟩ m4 v4 = .ok (m5, v5) ∧ v5.size = 0 ∧
      v5.capacity ⟨64, true, true⟩ = 64 ∧ v5.is_small = true ∧
      reserve ⟨64, true, true⟩ m5 v5 256 = .ok (m6, v6) ∧
      shrink_to_fit ⟨64, true, true⟩ m6 v6 = .ok (m7, v7) ∧ v7.size = 0 ∧
      v7.capacity ⟨64, true, true⟩ = 64 ∧ v7.is_small = true :=
  ⟨_, _, _, _, _, _, _, _, _, _, _, _, _, _, _, _, _, rfl, rfl, rfl, rfl, rfl, rfl, rfl, rfl,
    rfl, rfl, rfl, rfl, rfl, rfl, rfl⟩

end test_suite

end scn
